import Mathlib

/-!
# Tree synchronisation (`views/treesync.go`)

A shallow embedding of the `TreeView` synchronisation code: the reconciler
`SyncToSrc` with its callers `SyncTree`, `SetSyncNode` and `ReSync`, and the
structural edit operations that work on the sync source tree.

Conventions of the embedding:

* Go pointers to source nodes are modelled by the field `id` of a source node
  (its identity); a view node stores the identity of its `SyncNode`, and a
  pointer is followed by looking the identity up in the source tree.
* A view node is addressed by its path of child indexes from the root view;
  the receiver `tv` of a method is such a path.
* The edit operations are functions on a `World`: the source tree, the view
  tree and counters of the notifications issued.
* A Go run-time panic is an `Except.error`.
* The answer of a dialog is an argument of the operation that opens it.
* Code of the repository that is not among the sources at hand (the `tree`
  package, `treeview.go`) is modelled from the specification; the doc
  comment of such a definition starts with "Modelled from the spec".
* Rendering requests (`Update`, `NeedsLayout`, `NeedsRender`) have no effect on
  the modelled state and are left out.
-/

namespace TreeSync

/-! ## Data model -/

/-- Source node (`tree.Node`): `id` is the identity of the node object,
`Nm` its name, `Typ` the name of its type, `Kids` its ordered children.  The
children are nodes; a nil entry in a child list is not modelled. -/
structure Node where
  id : Nat
  Nm : String
  Typ : String
  Kids : List Node
deriving Repr

/-- View node (`TreeView`), with the fields that `treesync.go` reads and writes.
`SyncNode` is the identity of the source node (`none` is Go's `nil`). -/
structure TreeView where
  Nm : String
  Text : String
  ViewIndex : Int
  Closed : Bool
  Selected : Bool
  SyncNode : Option Nat
  Kids : List TreeView
deriving Repr

/-- Run-time faults of the Go code. -/
inductive Fault where
  | nilDeref
  | indexOutOfRange
  | detached
deriving Repr, DecidableEq

/-! ## Traversals -/

mutual
/-- Number of nodes of a source tree. -/
def Node.count : Node → Nat
  | ⟨_, _, _, ks⟩ => 1 + Node.countL ks
/-- Number of nodes of a list of source trees. -/
def Node.countL : List Node → Nat
  | [] => 0
  | k :: ks => Node.count k + Node.countL ks
end

mutual
/-- View nodes in pre-order. -/
def TreeView.preorder : TreeView → List TreeView
  | ⟨nm, tx, vi, cl, se, sn, ks⟩ => ⟨nm, tx, vi, cl, se, sn, ks⟩ :: TreeView.preorderL ks
/-- View nodes of a list of view trees in pre-order. -/
def TreeView.preorderL : List TreeView → List TreeView
  | [] => []
  | k :: ks => TreeView.preorder k ++ TreeView.preorderL ks
end

/-- The `ViewIndex` values of a view tree, listed in pre-order. -/
def TreeView.viewIndexes (tv : TreeView) : List Int :=
  tv.preorder.map (fun v => v.ViewIndex)

mutual
/-- Siblings have unique names, at every level of the source tree. -/
def Node.uniqueNames : Node → Bool
  | ⟨_, _, _, ks⟩ => decide ((ks.map (fun k => k.Nm)).Nodup) && Node.uniqueNamesL ks
/-- Every tree of the list has unique sibling names. -/
def Node.uniqueNamesL : List Node → Bool
  | [] => true
  | k :: ks => Node.uniqueNames k && Node.uniqueNamesL ks
end

mutual
/-- Siblings have unique names, at every level of the view tree. -/
def TreeView.uniqueNames : TreeView → Bool
  | ⟨_, _, _, _, _, _, ks⟩ =>
    decide ((ks.map (fun k => k.Nm)).Nodup) && TreeView.uniqueNamesL ks
/-- Every tree of the list has unique sibling names. -/
def TreeView.uniqueNamesL : List TreeView → Bool
  | [] => true
  | k :: ks => TreeView.uniqueNames k && TreeView.uniqueNamesL ks
end

mutual
/-- The view tree has the shape of the source tree: at every position the
view node is named `"tv_"` + the source name, its `SyncNode` is the source
node of that position, and the children correspond in order. -/
def Mirrors : TreeView → Node → Bool
  | tv, ⟨id, nm, _, ks⟩ =>
    (tv.Nm == "tv_" ++ nm) && (tv.SyncNode == some id) && MirrorsL tv.Kids ks
/-- Position-wise `Mirrors` on two child lists of the same length. -/
def MirrorsL : List TreeView → List Node → Bool
  | [], [] => true
  | v :: vs, k :: ks => Mirrors v k && MirrorsL vs ks
  | [], _ :: _ => false
  | _ :: _, [] => false
end

mutual
/-- Two view trees consist of the same nodes in the same positions: they
agree on everything except the fields that a synchronisation pass
recomputes (`ViewIndex` and `Closed`). -/
def sameNodes : TreeView → TreeView → Bool
  | ⟨nm, tx, _, _, se, sn, ks⟩, w =>
    (nm == w.Nm) && (tx == w.Text) && (se == w.Selected) && (sn == w.SyncNode) &&
      sameNodesL ks w.Kids
/-- Position-wise `sameNodes` on two child lists of the same length. -/
def sameNodesL : List TreeView → List TreeView → Bool
  | [], [] => true
  | v :: vs, w :: ws => sameNodes v w && sameNodesL vs ws
  | [], _ :: _ => false
  | _ :: _, [] => false
end

/-! ## The reconciler -/

/-- Modelled from the spec: the view node that `ConfigChildren` creates for a
name of the configuration that no existing child has (spec 4.3 step 4,
"freshly created"): it has the given name and default state. -/
def newChild (nm : String) : TreeView :=
  { Nm := nm, Text := "", ViewIndex := 0, Closed := false, Selected := false,
    SyncNode := none, Kids := [] }

/-- Modelled from the spec: looks for the first child with the given name
and takes it out of the list (part of `ConfigChildren`, in the `tree`
package). -/
def takeByName (nm : String) : List TreeView → Option (TreeView × List TreeView)
  | [] => none
  | k :: ks =>
    if k.Nm = nm then some (k, ks)
    else
      match takeByName nm ks with
      | some (x, rest) => some (x, k :: rest)
      | none => none

/-- Modelled from the spec: the pass of `ConfigChildren` over the required
name list.  A name that an existing child has keeps that child, with its
state; a name that no remaining child has gets a fresh child.  The result is
the new child list in the order of the name list, whether a child was
created, and the existing children that were not kept. -/
def configGo : List String → List TreeView → List TreeView × Bool × List TreeView
  | [], pool => ([], false, pool)
  | nm :: rest, pool =>
    match takeByName nm pool with
    | some (k, pool1) =>
      let r := configGo rest pool1
      (k :: r.1, r.2.1, r.2.2)
    | none =>
      let r := configGo rest pool
      (newChild nm :: r.1, true, r.2.2)

/-- Modelled from the spec: `ConfigChildren` of the `tree` package, which is
not part of the sources at hand (spec 4.3 step 4).  Children whose name is in
the required list are kept as they are, children missing from the list
are removed, names of the list without a child get a fresh child, and the
order is the order of the list.  The Boolean is the "modified" report: a
child was added or removed. -/
def ConfigChildren (kids : List TreeView) (config : List String) : List TreeView × Bool :=
  let r := configGo config kids
  (r.1, r.2.1 || !r.2.2.isEmpty)

mutual
/-- The body of `SyncToSrc` for a view node whose `SyncNode` is the source
node `sk`.  `hasParent` is `tv.TreeViewParent() != nil` and `OpenDepth` is
`tv.RootView.OpenDepth`.  Returns the updated view node, the counter
`*tvIndex` and the number of `TreeViewChanged` notifications. -/
def SyncToSrcOn (OpenDepth : Int) (init : Bool) (hasParent : Bool) :
    Node → TreeView → Int → Int → TreeView × Int × Nat
  | ⟨_, nm, _, skids⟩, tv, tvIndex, depth =>
    let closed1 := if hasParent && (init && decide (depth ≥ OpenDepth)) then true else tv.Closed
    let cfg := ConfigChildren tv.Kids (skids.map (fun s => "tv_" ++ s.Nm))
    let r := syncKids OpenDepth init skids cfg.1 (tvIndex + 1) (depth + 1)
    let closed2 := if skids.isEmpty then true else closed1
    ({ tv with Nm := "tv_" ++ nm, ViewIndex := tvIndex, Closed := closed2, Kids := r.1 },
      r.2.1, r.2.2 + (if cfg.2 then 1 else 0))
/-- The loop of `SyncToSrc` over the source children: the view child at the
same index gets the source child as its `SyncNode` (`SetSyncNode`) and is
synchronised; the loop stops when the view children run out. -/
def syncKids (OpenDepth : Int) (init : Bool) :
    List Node → List TreeView → Int → Int → List TreeView × Int × Nat
  | [], vks, tvIndex, _ => (vks, tvIndex, 0)
  | _ :: _, [], tvIndex, _ => ([], tvIndex, 0)
  | skid :: sks, vk :: vks, tvIndex, depth =>
    let r1 := SyncToSrcOn OpenDepth init true skid { vk with SyncNode := some skid.id }
      tvIndex depth
    let r2 := syncKids OpenDepth init sks vks r1.2.1 depth
    (r1.1 :: r2.1, r2.2.1, r1.2.2 + r2.2.2)
end

/-- `SetSyncNode`: sets the sync source node and synchronises the view. -/
def SetSyncNode (OpenDepth : Int) (hasParent : Bool) (tv : TreeView) (sn : Node)
    (tvIndex : Int) (init : Bool) (depth : Int) : TreeView × Int × Nat :=
  SyncToSrcOn OpenDepth init hasParent sn { tv with SyncNode := some sn.id } tvIndex depth

/-- `SyncToSrc`: the source node is read through the pointer `tv.SyncNode`;
`deref` gives the node that a pointer refers to.  Calling `Name()` on a nil
`SyncNode` is a nil dereference. -/
def SyncToSrc (deref : Nat → Option Node) (OpenDepth : Int) (hasParent : Bool)
    (tv : TreeView) (tvIndex : Int) (init : Bool) (depth : Int) :
    Except Fault (TreeView × Int × Nat) :=
  match tv.SyncNode with
  | none => .error Fault.nilDeref
  | some p =>
    match deref p with
    | none => .error Fault.detached
    | some sk => .ok (SyncToSrcOn OpenDepth init hasParent sk tv tvIndex depth)

/-- `SyncTree`: sets the sync node of the view to `n` (nil is `none`) and
synchronises with the counter starting at 0, `init = true`, depth 0. -/
def SyncTree (OpenDepth : Int) (hasParent : Bool) (tv : TreeView) (n : Option Node) :
    Except Fault TreeView :=
  match n with
  | none => .error Fault.nilDeref
  | some sk =>
    .ok (SyncToSrcOn OpenDepth true hasParent sk { tv with SyncNode := some sk.id } 0 0).1

/-- `ReSync`: synchronises again, the counter starting at the node's own
`ViewIndex`, with `init = false` and depth 0. -/
def ReSync (deref : Nat → Option Node) (OpenDepth : Int) (hasParent : Bool)
    (tv : TreeView) : Except Fault (TreeView × Int × Nat) :=
  SyncToSrc deref OpenDepth hasParent tv tv.ViewIndex false 0

/-- The integers `start, start+1, ..., start+n-1`. -/
def intRange (start : Int) : Nat → List Int
  | 0 => []
  | n + 1 => start :: intRange (start + 1) n

/-! ## Source tree operations (package `tree`)

The `tree` package is not among the sources at hand; the operations of a
source node that `treesync.go` calls are modelled from the capability
interface of the specification (section 6). -/

/-- Node type (`types.Type`): its name and its short identifier name. -/
structure NodeType where
  Name : String
  IDName : String
deriving Repr, DecidableEq

mutual
/-- Modelled from the spec: the node that a pointer refers to, looked up by
identity in a source tree (pre-order, first match). -/
def Node.find? (p : Nat) : Node → Option Node
  | ⟨i, nm, ty, ks⟩ => if i = p then some ⟨i, nm, ty, ks⟩ else Node.findL? p ks
/-- Lookup by identity in a list of source trees. -/
def Node.findL? (p : Nat) : List Node → Option Node
  | [] => none
  | k :: ks =>
    match Node.find? p k with
    | some n => some n
    | none => Node.findL? p ks
end

/-- Index of the first node with identity `p` in a child list. -/
def idxOf (p : Nat) : List Node → Option Nat
  | [] => none
  | k :: ks => if k.id = p then some 0 else (idxOf p ks).map (fun j => j + 1)

mutual
/-- Modelled from the spec: `Parent()` and `IndexInParent()` of the source node
with identity `p`: its parent and its index among the parent's children;
`none` when the node has no parent in the tree (Go: nil and -1). -/
def Node.parentOf? (p : Nat) : Node → Option (Node × Nat)
  | ⟨i, nm, ty, ks⟩ =>
    match idxOf p ks with
    | some j => some (⟨i, nm, ty, ks⟩, j)
    | none => Node.parentOfL? p ks
/-- Parent lookup in a list of source trees. -/
def Node.parentOfL? (p : Nat) : List Node → Option (Node × Nat)
  | [] => none
  | k :: ks =>
    match Node.parentOf? p k with
    | some r => some r
    | none => Node.parentOfL? p ks
end

mutual
/-- Replaces the child list of the source node with identity `p`. -/
def Node.setKids (p : Nat) (new : List Node) : Node → Node
  | ⟨i, nm, ty, ks⟩ =>
    if i = p then ⟨i, nm, ty, new⟩ else ⟨i, nm, ty, Node.setKidsL p new ks⟩
/-- Replaces the child list of the node with identity `p` in a list of trees. -/
def Node.setKidsL (p : Nat) (new : List Node) : List Node → List Node
  | [] => []
  | k :: ks => Node.setKids p new k :: Node.setKidsL p new ks
end

mutual
/-- Modelled from the spec: `SetName` on the source node with identity `p`. -/
def Node.setName (p : Nat) (new : String) : Node → Node
  | ⟨i, nm, ty, ks⟩ =>
    if i = p then ⟨i, new, ty, ks⟩ else ⟨i, nm, ty, Node.setNameL p new ks⟩
/-- Renames the node with identity `p` in a list of trees. -/
def Node.setNameL (p : Nat) (new : String) : List Node → List Node
  | [] => []
  | k :: ks => Node.setName p new k :: Node.setNameL p new ks
end

mutual
/-- Modelled from the spec: `Delete()` on the source node with identity `p`:
the node, with its subtree, is removed from its parent's children; the other
children keep their order.  The root of the tree has no parent and stays. -/
def Node.deleteId (p : Nat) : Node → Node
  | ⟨i, nm, ty, ks⟩ => ⟨i, nm, ty, Node.deleteIdL p ks⟩
/-- Removes the node with identity `p` from a list of trees. -/
def Node.deleteIdL (p : Nat) : List Node → List Node
  | [] => []
  | k :: ks =>
    if k.id = p then Node.deleteIdL p ks else Node.deleteId p k :: Node.deleteIdL p ks
end

mutual
/-- Modelled from the spec: `Clone()`: a deep copy of the node and its subtree.
The copies are new objects; they get the identities `next`, `next+1`, ... in
pre-order.  Returns the copy and the next unused identity. -/
def Node.clone (next : Nat) : Node → Node × Nat
  | ⟨_, nm, ty, ks⟩ =>
    let r := Node.cloneL (next + 1) ks
    (⟨next, nm, ty, r.1⟩, r.2)
/-- Deep copy of a list of trees. -/
def Node.cloneL (next : Nat) : List Node → List Node × Nat
  | [] => ([], next)
  | k :: ks =>
    let r1 := Node.clone next k
    let r2 := Node.cloneL r1.2 ks
    (r1.1 :: r2.1, r2.2)
end

mutual
/-- Two source trees are equal in name, type and children, recursively (the
identities of the node objects are not compared). -/
def Node.sameContent : Node → Node → Bool
  | ⟨_, nm, ty, ks⟩, m => (nm == m.Nm) && (ty == m.Typ) && Node.sameContentL ks m.Kids
/-- Position-wise `sameContent` of two child lists of the same length. -/
def Node.sameContentL : List Node → List Node → Bool
  | [], [] => true
  | k :: ks, m :: ms => Node.sameContent k m && Node.sameContentL ks ms
  | [], _ :: _ => false
  | _ :: _, [] => false
end

/-- Inserts `x` at index `n` of a list; `none` when `n` is greater than the
length (Go: the index is out of range). -/
def insertAt? {α : Type} (x : α) : Nat → List α → Option (List α)
  | 0, l => some (x :: l)
  | _ + 1, [] => none
  | n + 1, a :: l => (insertAt? x n l).map (fun r => a :: r)

/-- Modelled from the spec: `InsertChild(kid, at)` on the source node with
identity `parent`: the kid becomes the child at index `at`. -/
def Node.InsertChild (src : Node) (parent : Nat) (kid : Node) (idx : Nat) :
    Except Fault Node :=
  match src.find? parent with
  | none => .error Fault.detached
  | some pn =>
    match insertAt? kid idx pn.Kids with
    | none => .error Fault.indexOutOfRange
    | some ks => .ok (src.setKids parent ks)

/-- Modelled from the spec: `InsertNewChild(typ, at, name)`: a new node of the
given type and name, without children, is created (with identity `next`) and
inserted as the child at index `at`. -/
def Node.InsertNewChild (src : Node) (parent : Nat) (next : Nat) (typ : NodeType)
    (idx : Nat) (nm : String) : Except Fault Node :=
  src.InsertChild parent { id := next, Nm := nm, Typ := typ.Name, Kids := [] } idx

mutual
/-- Names on the way from the root of the tree (excluded) down to the node
with identity `p` (included); `none` when the node is not in the tree. -/
def Node.namesTo? (p : Nat) : Node → Option (List String)
  | ⟨i, _, _, ks⟩ => if i = p then some [] else Node.namesToL? p ks
/-- Search of `namesTo?` in a child list. -/
def Node.namesToL? (p : Nat) : List Node → Option (List String)
  | [] => none
  | k :: ks =>
    match Node.namesTo? p k with
    | some r => some (k.Nm :: r)
    | none => Node.namesToL? p ks
end

/-- Modelled from the spec: `PathFrom(root)` (spec 3, "a string built by joining
ancestor names from a designated root"): the names below the root down to the
node, joined by `/`; the empty path when the node is not under the root.  With
a nil root the path starts at the top of the tree. -/
def Node.PathFrom (src : Node) (p : Nat) (sroot : Option Nat) : String :=
  let root : Option Node :=
    match sroot with
    | none => some src
    | some q => src.find? q
  match root with
  | none => ""
  | some r =>
    match r.namesTo? p with
    | none => ""
    | some names => String.intercalate "/" names

/-! ## The state of the edit operations -/

/-- The state that the edit operations work on: the source tree under the
sync node of the root view, the view tree under the root view, the root
view's `OpenDepth`, the identity of the next source node object to be
created, and counters of the notifications issued so far
(`TreeViewChanged`, `SendChangeEventReSync`, snackbar messages).  A view node
is addressed by its path of child indexes from the root view. -/
structure World where
  src : Node
  view : TreeView
  OpenDepth : Int
  nextId : Nat
  changed : Nat
  resyncs : Nat
  messages : Nat
deriving Repr

/-- The view node at a path of child indexes. -/
def TreeView.nodeAt? : TreeView → List Nat → Option TreeView
  | tv, [] => some tv
  | tv, i :: p =>
    match tv.Kids[i]? with
    | some k => TreeView.nodeAt? k p
    | none => none

/-- Applies `f` to the view node at a path. -/
def TreeView.updateAt (f : TreeView → TreeView) : List Nat → TreeView → TreeView
  | [], tv => f tv
  | i :: p, tv => { tv with Kids := tv.Kids.modify (TreeView.updateAt f p) i }

mutual
/-- Clears the `Selected` state of every node of a view tree. -/
def TreeView.unselectAll : TreeView → TreeView
  | ⟨nm, tx, vi, cl, _, sn, ks⟩ => ⟨nm, tx, vi, cl, false, sn, TreeView.unselectAllL ks⟩
/-- Clears the `Selected` state in a list of view trees. -/
def TreeView.unselectAllL : List TreeView → List TreeView
  | [] => []
  | k :: ks => TreeView.unselectAll k :: TreeView.unselectAllL ks
end

/-- The names of the selected nodes of a view tree, in pre-order. -/
def TreeView.selectedNames (tv : TreeView) : List String :=
  (tv.preorder.filter (fun v => v.Selected)).map (fun v => v.Nm)

/-- Modelled from the spec: `ChildByName(name, startIndex)` on a view node: the
index of the first child with that name (the start index is a search hint). -/
def ChildByName (tv : TreeView) (nm : String) : Option Nat :=
  tv.Kids.findIdx? (fun k => k.Nm == nm)

/-- Modelled from the spec: `IsRoot(op)` of `treeview.go` (spec 4.4, "is this the
tree root"): the node is the root view, which has the empty path. -/
def IsRoot (tv : List Nat) : Bool := tv.isEmpty

/-- Modelled from the spec: `SelectAction(events.SelectOne)` of `treeview.go`:
the node becomes the only selected node of the view. -/
def SelectAction (w : World) (tv : List Nat) : World :=
  { w with view := (w.view.unselectAll).updateAt (fun x => { x with Selected := true }) tv }

/-- Modelled from the spec: `TreeViewChanged` of `treeview.go`, the targeted
"tree changed" notification (spec 4.5): one notification is counted. -/
def TreeViewChanged (w : World) : World :=
  { w with changed := w.changed + 1 }

/-- Modelled from the spec: `SendChangeEventReSync` of `treeview.go`, the "full
re-synchronization notification" (spec 4.5): the view is synchronised again
from the root view (`ReSync`), the `TreeViewChanged` notifications of that pass
are counted, and one change event is counted. -/
def SendChangeEventReSync (w : World) (_tv : List Nat) : Except Fault World :=
  match ReSync w.src.find? w.OpenDepth false w.view with
  | .error e => .error e
  | .ok r => .ok { w with view := r.1, changed := w.changed + r.2.2, resyncs := w.resyncs + 1 }

/-! ## Structural edit operations -/

/-- The name that `AddSyncNodes` and `AddTreeNodes` give to the `i`-th new node:
`fmt.Sprintf("new-%v-%v", typ.IDName, myidx+rel+i)`. -/
def newName (typ : NodeType) (rel myidx i : Nat) : String :=
  "new-" ++ typ.IDName ++ "-" ++ toString (myidx + rel + i)

/-- The loop of `AddSyncNodes`: `m` more nodes are to be inserted, the next one
is the `i`-th; it gets the name `newName` and is inserted at index `myidx + i` of
the children of the source node `parent`.  Returns the source tree, the next
unused identity and the name of the node inserted last (`sn`). -/
def addSyncLoop (typ : NodeType) (rel myidx : Nat) (parent : Nat) :
    Nat → Nat → Node → Nat → Except Fault (Node × Nat × Option String)
  | 0, _, src, next => .ok (src, next, none)
  | m + 1, i, src, next =>
    match src.InsertNewChild parent next typ (myidx + i) (newName typ rel myidx i) with
    | .error e => .error e
    | .ok src1 =>
      match addSyncLoop typ rel myidx parent m (i + 1) src1 (next + 1) with
      | .error e => .error e
      | .ok r => .ok (r.1, r.2.1, if m = 0 then some (newName typ rel myidx i) else r.2.2)

/-- `AddSyncNodes` on the view node `tv`: inserts `n` new nodes into the
children of its sync node, resynchronises, and selects the view child named
after the node inserted last. -/
def AddSyncNodes (w : World) (tv : List Nat) (rel myidx : Nat) (typ : NodeType) (n : Nat) :
    Except Fault World :=
  match w.view.nodeAt? tv with
  | none => .error Fault.nilDeref
  | some v =>
    let looped : Except Fault (Node × Nat × Option String) :=
      match v.SyncNode with
      | none => if n = 0 then .ok (w.src, w.nextId, none) else .error Fault.nilDeref
      | some parent => addSyncLoop typ rel myidx parent n 0 w.src w.nextId
    match looped with
    | .error e => .error e
    | .ok r =>
      match SendChangeEventReSync { w with src := r.1, nextId := r.2.1 } tv with
      | .error e => .error e
      | .ok w2 =>
        match r.2.2 with
        | none => .ok w2
        | some nm =>
          match w2.view.nodeAt? tv with
          | none => .ok w2
          | some v2 =>
            match ChildByName v2 ("tv_" ++ nm) with
            | none => .ok w2
            | some k => .ok (SelectAction w2 (tv ++ [k]))

/-- The loop of `AddTreeNodes` on the children of a view node. -/
def addTreeLoop (typ : NodeType) (rel myidx : Nat) :
    Nat → Nat → List TreeView → Except Fault (List TreeView)
  | 0, _, ks => .ok ks
  | m + 1, i, ks =>
    match insertAt? (newChild (newName typ rel myidx i)) (myidx + i) ks with
    | none => .error Fault.indexOutOfRange
    | some ks1 => addTreeLoop typ rel myidx m (i + 1) ks1

/-- `AddTreeNodes` on the view node `tv`: inserts `n` new view nodes into its
children, opens it, issues `TreeViewChanged` and selects the node inserted
last. -/
def AddTreeNodes (w : World) (tv : List Nat) (rel myidx : Nat) (typ : NodeType) (n : Nat) :
    Except Fault World :=
  match w.view.nodeAt? tv with
  | none => .error Fault.nilDeref
  | some v =>
    match addTreeLoop typ rel myidx n 0 v.Kids with
    | .error e => .error e
    | .ok ks =>
      let view1 := TreeView.updateAt
        (fun x => { x with Kids := ks, Closed := if ks.isEmpty then x.Closed else false })
        tv w.view
      let w2 := TreeViewChanged { w with view := view1 }
      if n = 0 then .ok w2 else .ok (SelectAction w2 (tv ++ [myidx + (n - 1)]))

/-- `InsertAt(rel, actNm)` on the view node `tv`.  The answer of the dialog is
`none` when it is cancelled and `some (typ, n)` when it is confirmed with the
type and the number of the items to insert. -/
def InsertAt (w : World) (tv : List Nat) (rel : Nat) (answer : Option (NodeType × Nat)) :
    Except Fault World :=
  if IsRoot tv then .ok { w with messages := w.messages + 1 }
  else
    match tv.getLast? with
    | none => .ok w
    | some k =>
      match w.view.nodeAt? tv with
      | none => .error Fault.nilDeref
      | some v =>
        match answer with
        | none => .ok w
        | some (typ, n) =>
          if v.SyncNode.isSome then AddSyncNodes w tv.dropLast rel (k + rel) typ n
          else AddTreeNodes w tv.dropLast rel (k + rel) typ n

/-- `InsertAfter`: `InsertAt(1, "Insert After")`. -/
def InsertAfter (w : World) (tv : List Nat) (answer : Option (NodeType × Nat)) :
    Except Fault World :=
  InsertAt w tv 1 answer

/-- `InsertBefore`: `InsertAt(0, "Insert Before")`. -/
def InsertBefore (w : World) (tv : List Nat) (answer : Option (NodeType × Nat)) :
    Except Fault World :=
  InsertAt w tv 0 answer

/-- Modelled from the spec: `Close()` of `treeview.go`: the node is collapsed. -/
def Close (w : World) (tv : List Nat) : World :=
  { w with view := w.view.updateAt (fun x => { x with Closed := true }) tv }

/-- Modelled from the spec: `MoveDown(events.SelectOne)` of `treeview.go`
(spec 4.4, "moves selection to the next sibling"): when the node has a next
sibling, that sibling becomes the selected node and is returned (`true`);
otherwise nothing changes and nil is returned (`false`). -/
def MoveDown (w : World) (tv : List Nat) : World × Bool :=
  match tv.getLast?, w.view.nodeAt? tv.dropLast with
  | some k, some par =>
    if k + 1 < par.Kids.length then (SelectAction w (tv.dropLast ++ [k + 1]), true)
    else (w, false)
  | _, _ => (w, false)

/-- Modelled from the spec: `MoveUp(events.SelectOne)` of `treeview.go`
(spec 4.4, "falling back to the previous sibling"): when the node has a
previous sibling, that sibling becomes the selected node. -/
def MoveUp (w : World) (tv : List Nat) : World × Bool :=
  match tv.getLast?, w.view.nodeAt? tv.dropLast with
  | some k, some _ =>
    if 0 < k then (SelectAction w (tv.dropLast ++ [k - 1]), true)
    else (w, false)
  | _, _ => (w, false)

/-- `DeleteNode` on the view node `tv`. -/
def DeleteNode (w : World) (tv : List Nat) : Except Fault World :=
  if IsRoot tv then .ok { w with messages := w.messages + 1 }
  else
    match w.view.nodeAt? tv, tv.getLast? with
    | some v, some k =>
      let w1 := Close w tv
      let down := MoveDown w1 tv
      let w2 := if down.2 then down.1 else (MoveUp w1 tv).1
      match v.SyncNode with
      | some sn => SendChangeEventReSync { w2 with src := w2.src.deleteId sn } tv
      | none =>
        let view3 := TreeView.updateAt (fun x => { x with Kids := x.Kids.eraseIdx k })
          tv.dropLast w2.view
        .ok (TreeViewChanged { w2 with view := view3 })
    | _, _ => .error Fault.nilDeref

/-- `DuplicateSync` on the view node `tv`: the clone of its sync node, named
`<name>_Copy`, is inserted after it into the children of the sync node of the
parent view; then the view is resynchronised and the view child named after
the clone is selected.  The sync node of the parent view is tested first:
when it is nil the function returns before the sync node of `tv` is used. -/
def DuplicateSync (w : World) (tv : List Nat) : Except Fault World :=
  if tv.isEmpty then .error Fault.nilDeref
  else
    match w.view.nodeAt? tv, w.view.nodeAt? tv.dropLast with
    | some v, some tvparent =>
      match tvparent.SyncNode with
      | none => .ok w
      | some parent =>
        match v.SyncNode with
        | none => .error Fault.nilDeref
        | some sk =>
          match w.src.find? sk, w.src.parentOf? sk with
          | some skn, some (_, myidx) =>
            let nm := skn.Nm ++ "_Copy"
            let cl := Node.clone w.nextId skn
            match w.src.InsertChild parent { cl.1 with Nm := nm } (myidx + 1) with
            | .error e => .error e
            | .ok src1 =>
              match SendChangeEventReSync { w with src := src1, nextId := cl.2 }
                  tv.dropLast with
              | .error e => .error e
              | .ok w2 =>
                match w2.view.nodeAt? tv.dropLast with
                | none => .ok w2
                | some tvp2 =>
                  match ChildByName tvp2 ("tv_" ++ nm) with
                  | none => .ok w2
                  | some k => .ok (SelectAction w2 (tv.dropLast ++ [k]))
          | _, _ => .ok w
    | _, _ => .error Fault.nilDeref

/-- `Duplicate` on the view node `tv`. -/
def Duplicate (w : World) (tv : List Nat) : Except Fault World :=
  if IsRoot tv then .ok { w with messages := w.messages + 1 }
  else
    match w.view.nodeAt? tv, w.view.nodeAt? tv.dropLast, tv.getLast? with
    | some v, some parent, some myidx =>
      if v.SyncNode.isSome then DuplicateSync w tv
      else
        let v1 : TreeView := { v with Selected := false }
        let nwkid : TreeView := { v1 with Nm := v.Nm ++ "_Copy" }
        match insertAt? nwkid (myidx + 1) (parent.Kids.set myidx v1) with
        | none => .error Fault.indexOutOfRange
        | some ks =>
          let view1 := TreeView.updateAt (fun x => { x with Kids := ks }) tv.dropLast w.view
          .ok (TreeViewChanged { w with view := view1 })
    | _, _, _ => .error Fault.nilDeref

/-! ## Mime interchange -/

/-- Content type of a mime entry (`fileinfo.TextPlain`, `fileinfo.DataJson`, or
any other type). -/
inductive MimeType where
  | TextPlain
  | DataJson
  | Other (name : String)
deriving Repr, DecidableEq

/-- One entry of a mime payload (`mimedata.Data`): the declared type and the
bytes, which are text here. -/
structure MimeData where
  Typ : MimeType
  Data : String
deriving Repr, DecidableEq

/-- The quotation mark. -/
def chQuote : Char := Char.ofNat 34
/-- The backslash. -/
def chBackslash : Char := Char.ofNat 92
/-- The opening square bracket. -/
def chOpen : Char := Char.ofNat 91
/-- The closing square bracket. -/
def chClose : Char := Char.ofNat 93

/-- Modelled from the spec: escaping of a string of the structured document:
a backslash goes before every quotation mark and every backslash. -/
def escape : List Char → List Char
  | [] => []
  | c :: cs =>
    if c = chQuote ∨ c = chBackslash then chBackslash :: c :: escape cs
    else c :: escape cs

/-- Modelled from the spec: a string of the structured document, in quotation
marks. -/
def quoted (s : String) : List Char :=
  chQuote :: (escape s.data ++ [chQuote])

mutual
/-- Modelled from the spec: the structured document of a node (spec 4.2, "a
depth-first JSON (or equivalent) encoding of the node and its full subtree,
each child's own name/type/fields captured recursively"): the nested array
of the type, the name and the documents of the children, in order. -/
def Node.encode : Node → List Char
  | ⟨_, nm, ty, ks⟩ => chOpen :: (quoted ty ++ (quoted nm ++ Node.encodeL ks))
/-- The documents of a child list, followed by the closing bracket. -/
def Node.encodeL : List Node → List Char
  | [] => [chClose]
  | k :: ks => Node.encode k ++ Node.encodeL ks
end

/-- Reads an escaped string up to its closing quotation mark. -/
def readStr : List Char → Option (List Char × List Char)
  | [] => none
  | c :: cs =>
    if c = chQuote then some ([], cs)
    else if c = chBackslash then
      match cs with
      | [] => none
      | d :: ds => (readStr ds).map (fun r => (d :: r.1, r.2))
    else (readStr cs).map (fun r => (c :: r.1, r.2))

/-- Reads a string in quotation marks. -/
def readQuoted : List Char → Option (String × List Char)
  | [] => none
  | c :: cs =>
    if c = chQuote then (readStr cs).map (fun r => (String.mk r.1, r.2)) else none

mutual
/-- Modelled from the spec: reads the structured document of one node; the
fuel bounds the nesting.  The nodes read have the identity 0, they get their
identities when the objects are created (`ReadNewJSON`). -/
def decodeNode : Nat → List Char → Option (Node × List Char)
  | 0, _ => none
  | _ + 1, [] => none
  | f + 1, c :: cs =>
    if c = chOpen then
      match readQuoted cs with
      | none => none
      | some (ty, r1) =>
        match readQuoted r1 with
        | none => none
        | some (nm, r2) =>
          match decodeKids f r2 with
          | none => none
          | some (ks, r3) => some (⟨0, nm, ty, ks⟩, r3)
    else none
/-- Reads the documents of a child list up to the closing bracket. -/
def decodeKids : Nat → List Char → Option (List Node × List Char)
  | 0, _ => none
  | _ + 1, [] => none
  | f + 1, c :: cs =>
    if c = chClose then some ([], cs)
    else
      match decodeNode f (c :: cs) with
      | none => none
      | some (k, r) =>
        match decodeKids f r with
        | none => none
        | some (ks, r2) => some (k :: ks, r2)
end

mutual
/-- Fuel that suffices to read back the document of a node. -/
def Node.need : Node → Nat
  | ⟨_, _, _, ks⟩ => 1 + Node.needL ks
/-- Fuel that suffices to read back the documents of a child list. -/
def Node.needL : List Node → Nat
  | [] => 1
  | k :: ks => 1 + Node.need k + Node.needL ks
end

/-- Modelled from the spec: `tree.WriteNewJSON`: the structured document of the
node and its subtree. -/
def WriteNewJSON (n : Node) : Except String String :=
  .ok (String.mk n.encode)

/-- Modelled from the spec: `tree.ReadNewJSON`: builds new node objects (with
the identities `next`, `next+1`, ...) from a structured document; a malformed
document is an error. -/
def ReadNewJSON (next : Nat) (data : String) : Except String (Node × Nat) :=
  match decodeNode (data.data.length + 1) data.data with
  | some (n, []) => .ok (Node.clone next n)
  | _ => .error "malformed document"

/-- `MimeDataSync` on the view node `tv`: appends to the payload a text/plain
entry with the path of the sync node from the sync node of the root view,
and an application/json entry with the document of the sync node. -/
def MimeDataSync (w : World) (tv : List Nat) (md : List MimeData) :
    Except Fault (List MimeData) :=
  match w.view.nodeAt? tv with
  | none => .error Fault.nilDeref
  | some v =>
    match v.SyncNode with
    | none => .error Fault.nilDeref
    | some src =>
      match w.src.find? src with
      | none => .error Fault.detached
      | some n =>
        let md1 := md ++ [{ Typ := MimeType.TextPlain,
                            Data := w.src.PathFrom src w.view.SyncNode }]
        match WriteNewJSON n with
        | .ok buf => .ok (md1 ++ [{ Typ := MimeType.DataJson, Data := buf }])
        | .error _ => .ok md1

/-- `MimeDataSync` with the encoder as a parameter: `write` is
`tree.WriteNewJSON`, which is not part of the sources at hand and returns the
document of a node or an error.  The text/plain entry is appended first; the
application/json entry is appended only when the encoder returns no error
(otherwise the error is shown, and the payload keeps the text entry). -/
def MimeDataSyncWith (write : Node → Except String String) (w : World) (tv : List Nat)
    (md : List MimeData) : Except Fault (List MimeData) :=
  match w.view.nodeAt? tv with
  | none => .error Fault.nilDeref
  | some v =>
    match v.SyncNode with
    | none => .error Fault.nilDeref
    | some src =>
      match w.src.find? src with
      | none => .error Fault.detached
      | some n =>
        let md1 := md ++ [{ Typ := MimeType.TextPlain,
                            Data := w.src.PathFrom src w.view.SyncNode }]
        match write n with
        | .ok buf => .ok (md1 ++ [{ Typ := MimeType.DataJson, Data := buf }])
        | .error _ => .ok md1

/-- `SyncNodesFromMimeData`: the nodes built from the json entries and the
paths of the text/plain entries, in payload order; a json entry that cannot
be read is skipped.  `next` is the next unused identity; the identity after
the nodes built is returned as well. -/
def SyncNodesFromMimeData : Nat → List MimeData → List Node × List String × Nat
  | next, [] => ([], [], next)
  | next, d :: md =>
    match d.Typ with
    | MimeType.DataJson =>
      match ReadNewJSON next d.Data with
      | .ok nki =>
        let r := SyncNodesFromMimeData nki.2 md
        (nki.1 :: r.1, r.2.1, r.2.2)
      | .error _ => SyncNodesFromMimeData next md
    | MimeType.TextPlain =>
      let r := SyncNodesFromMimeData next md
      (r.1, d.Data :: r.2.1, r.2.2)
    | MimeType.Other _ => SyncNodesFromMimeData next md

/-! ## Paths and identities in the source tree -/

mutual
/-- The identities of the nodes of a source tree, in pre-order. -/
def Node.ids : Node → List Nat
  | ⟨i, _, _, ks⟩ => i :: Node.idsL ks
/-- The identities of the nodes of a list of source trees. -/
def Node.idsL : List Node → List Nat
  | [] => []
  | k :: ks => Node.ids k ++ Node.idsL ks
end

/-- The source node at a path of child indexes. -/
def Node.nodeAt? : Node → List Nat → Option Node
  | n, [] => some n
  | n, i :: p =>
    match n.Kids[i]? with
    | some k => Node.nodeAt? k p
    | none => none

/-- Applies `f` to the source node at a path of child indexes. -/
def Node.updateAt (f : Node → Node) : List Nat → Node → Node
  | [], n => f n
  | i :: p, n => { n with Kids := n.Kids.modify (Node.updateAt f p) i }

mutual
/-- The source tree without the nodes (other than the root) whose identity is
in `S`: such a node is removed from the children of its parent, with
its subtree; all other nodes stay, in their order. -/
def Node.prune (S : List Nat) : Node → Node
  | ⟨i, nm, ty, ks⟩ => ⟨i, nm, ty, Node.pruneL S ks⟩
/-- Removes the trees whose root has an identity in `S` and prunes the others. -/
def Node.pruneL (S : List Nat) : List Node → List Node
  | [] => []
  | k :: ks => if k.id ∈ S then Node.pruneL S ks else Node.prune S k :: Node.pruneL S ks
end

/-! ## Paste, cut and drop -/

/-- Drop modifier of a paste or drop (`events.DropMods`). -/
inductive DropMods where
  | NoDropMod
  | DropCopy
  | DropMove
  | DropLink
  | DropIgnore
deriving Repr, DecidableEq

/-- Modelled from the spec: `NodesFromMimeData` of `treeview.go` (spec 4.2,
`Deserialize`): the nodes and the paths of a payload, as
`SyncNodesFromMimeData` gives them. -/
def NodesFromMimeData (next : Nat) (md : List MimeData) : List Node × List String × Nat :=
  SyncNodesFromMimeData next md

/-- Modelled from the spec: `ChildByName(name, 0) != nil` on a source node: the
node has a child with that name. -/
def Node.hasChildNamed (n : Node) (nm : String) : Bool :=
  n.Kids.any (fun c => c.Nm == nm)

/-- The name of a payload node after the collision rule of `PasteAtSync`:
`_Copy` is appended when the drop mode is not move and the parent has a child
with the name. -/
def pasteName (mod : DropMods) (pn : Node) (ns : Node) : String :=
  if mod ≠ DropMods.DropMove ∧ pn.hasChildNamed ns.Nm = true then ns.Nm ++ "_Copy" else ns.Nm

/-- The body of the loop of `PasteAtSync` for the `i`-th payload node `ns`:
`parent` is the identity of `sk.Parent()`, `sroot` the sync node of the root
view, `myidx` the index of `sk` plus `rel`, `pl` the paths of the payload and
`tag` the constant `TreeViewTempMovedTag`.  Returns the source tree and the
final name of the node. -/
def pasteStep (tag : String) (mod : DropMods) (parent : Nat) (sroot : Option Nat)
    (myidx : Nat) (pl : List String) (i : Nat) (ns : Node) (src : Node) :
    Except Fault (Node × String) :=
  match pl[i]? with
  | none => .error Fault.indexOutOfRange
  | some orgpath =>
    match src.find? parent with
    | none => .error Fault.detached
    | some pn =>
      match src.InsertChild parent { ns with Nm := pasteName mod pn ns } (myidx + i) with
      | .error e => .error e
      | .ok src1 =>
        if mod = DropMods.DropMove ∧ src1.PathFrom ns.id sroot = orgpath then
          .ok (src1.setName ns.id (pasteName mod pn ns ++ tag), pasteName mod pn ns ++ tag)
        else .ok (src1, pasteName mod pn ns)

/-- The loop of `PasteAtSync` over the payload nodes, from the `i`-th on.
Returns the source tree and the name of the node inserted last (`seln`). -/
def pasteLoop (tag : String) (mod : DropMods) (parent : Nat) (sroot : Option Nat)
    (myidx : Nat) (pl : List String) : Nat → List Node → Node →
    Except Fault (Node × Option String)
  | _, [], src => .ok (src, none)
  | i, ns :: rest, src =>
    match pasteStep tag mod parent sroot myidx pl i ns src with
    | .error e => .error e
    | .ok r =>
      match pasteLoop tag mod parent sroot myidx pl (i + 1) rest r.1 with
      | .error e => .error e
      | .ok r2 => .ok (r2.1, if rest.isEmpty then some r.2 else r2.2)

/-- `PasteAtSync` on the view node `tv`: inserts the nodes of the payload at the
index of the sync node plus `rel` into the children of its parent,
resynchronises and selects the view child named after the node inserted
last.  `tag` is the constant `TreeViewTempMovedTag`. -/
def PasteAtSync (tag : String) (w : World) (tv : List Nat) (md : List MimeData)
    (mod : DropMods) (rel : Nat) : Except Fault World :=
  match w.view.nodeAt? tv with
  | none => .error Fault.nilDeref
  | some v =>
    match v.SyncNode with
    | none => .error Fault.nilDeref
    | some sk =>
      let dec := NodesFromMimeData w.nextId md
      match w.src.parentOf? sk with
      | none => .ok { w with nextId := dec.2.2 }
      | some (pn, k) =>
        match pasteLoop tag mod pn.id w.view.SyncNode (k + rel) dec.2.1 0 dec.1 w.src with
        | .error e => .error e
        | .ok r =>
          if tv.isEmpty then .error Fault.nilDeref
          else
            match SendChangeEventReSync { w with src := r.1, nextId := dec.2.2 }
                tv.dropLast with
            | .error e => .error e
            | .ok w2 =>
              match r.2 with
              | none => .ok w2
              | some nm =>
                match w2.view.nodeAt? tv.dropLast with
                | none => .ok w2
                | some tvp2 =>
                  match ChildByName tvp2 ("tv_" ++ nm) with
                  | none => .ok w2
                  | some j => .ok (SelectAction w2 (tv.dropLast ++ [j]))

/-- Modelled from the spec: the loop of `PasteChildrenSync`; `AddChild` appends
the node to the children of the source node `sk`. -/
def addChildren (sk : Nat) : List Node → Node → Except Fault Node
  | [], src => .ok src
  | ns :: rest, src =>
    match src.find? sk with
    | none => .error Fault.detached
    | some n => addChildren sk rest (src.setKids sk (n.Kids ++ [ns]))

/-- `PasteChildrenSync` on the view node `tv`: appends the nodes of the payload
to the children of its sync node and resynchronises. -/
def PasteChildrenSync (w : World) (tv : List Nat) (md : List MimeData) (_mod : DropMods) :
    Except Fault World :=
  match w.view.nodeAt? tv with
  | none => .error Fault.nilDeref
  | some v =>
    let dec := NodesFromMimeData w.nextId md
    let added : Except Fault Node :=
      match v.SyncNode with
      | none => if dec.1.isEmpty then .ok w.src else .error Fault.nilDeref
      | some sk => addChildren sk dec.1 w.src
    match added with
    | .error e => .error e
    | .ok src1 => SendChangeEventReSync { w with src := src1, nextId := dec.2.2 } tv

/-- Modelled from the spec: `SelectedViews` of `treeview.go` (spec 4.5): the
selected view nodes of the whole view, in pre-order. -/
def SelectedViews (w : World) : List TreeView :=
  w.view.preorder.filter (fun v => v.Selected)

/-- `SelectedSyncNodes`: the sync nodes of the selected view nodes. -/
def SelectedSyncNodes (w : World) : List (Option Nat) :=
  (SelectedViews w).map (fun v => v.SyncNode)

/-- Modelled from the spec: `UnselectAll` of `treeview.go`: no view node is
selected any more. -/
def UnselectAll (w : World) : World :=
  { w with view := w.view.unselectAll }

/-- The loop of `CutSync`: `Delete()` on every node of the list; on a nil node it
is a nil dereference. -/
def deleteAll : List (Option Nat) → Node → Except Fault Node
  | [], src => .ok src
  | none :: _, _ => .error Fault.nilDeref
  | some sn :: rest, src => deleteAll rest (src.deleteId sn)

/-- `CutSync` on the view node `tv`: after the copy to the clipboard (which
changes nothing here), the sync nodes of the selected view nodes are deleted
and the view is resynchronised once. -/
def CutSync (w : World) (tv : List Nat) : Except Fault World :=
  let sels := SelectedSyncNodes w
  let w1 := UnselectAll w
  match deleteAll sels w1.src with
  | .error e => .error e
  | .ok src1 => SendChangeEventReSync { w1 with src := src1 } tv

/-- The slash. -/
def chSlash : Char := Char.ofNat 47

/-- The segments of a path: `strings.Split(path, "/")`. -/
def splitSlash : List Char → List (List Char)
  | [] => [[]]
  | c :: cs =>
    if c = chSlash then [] :: splitSlash cs
    else
      match splitSlash cs with
      | seg :: rest => (c :: seg) :: rest
      | [] => [[c]]

/-- The last segment of a path: `psplt[len(psplt)-1]`. -/
def lastSegment (path : String) : String :=
  String.mk ((splitSlash path.data).getLastD [])

/-- The node reached from `n` by going down through children with the given
names (the first child with the name, at each level). -/
def Node.findNames? : Node → List String → Option Node
  | n, [] => some n
  | n, nm :: rest =>
    match n.Kids.find? (fun c => c.Nm == nm) with
    | some c => Node.findNames? c rest
    | none => none

/-- Modelled from the spec: `FindPath(path)` (spec 4.1): resolves a path of names
joined by `/` from the root; the empty path is the root; `none` when there
is no such node. -/
def Node.FindPath (root : Node) (path : String) : Option Node :=
  if path = "" then some root
  else root.findNames? ((splitSlash path.data).map String.mk)

/-- The node that `sroot.FindPath(path)` gives, `sroot` being the source node
with identity `q` in the tree `src`. -/
def findPathFrom (src : Node) (q : Nat) (path : String) : Option Node :=
  match src.find? q with
  | none => none
  | some r => r.FindPath path

/-- The body of the loop of `DropDeleteSourceSync` for one payload entry: an
entry that is not text/plain is skipped; for a path, the node found at the
path is deleted, then the node found at the path plus `tag`
(`TreeViewTempMovedTag`) is renamed to the last segment of the path. -/
def dropDeleteStep (tag : String) (sroot : Option Nat) (d : MimeData) (src : Node) :
    Except Fault Node :=
  if d.Typ ≠ MimeType.TextPlain then .ok src
  else
    match sroot with
    | none => .error Fault.nilDeref
    | some q =>
      let src1 :=
        match findPathFrom src q d.Data with
        | some sn => src.deleteId sn.id
        | none => src
      match findPathFrom src1 q (d.Data ++ tag) with
      | some sn2 => .ok (src1.setName sn2.id (lastSegment d.Data))
      | none => .ok src1

/-- The loop of `DropDeleteSourceSync` over the payload. -/
def dropDeleteLoop (tag : String) (sroot : Option Nat) : List MimeData → Node →
    Except Fault Node
  | [], src => .ok src
  | d :: md, src =>
    match dropDeleteStep tag sroot d src with
    | .error e => .error e
    | .ok src1 => dropDeleteLoop tag sroot md src1

/-- `DropDeleteSourceSync` on the view node `tv` with the payload of the drop
event; `tag` is the constant `TreeViewTempMovedTag`. -/
def DropDeleteSourceSync (tag : String) (w : World) (tv : List Nat) (md : List MimeData) :
    Except Fault World :=
  match dropDeleteLoop tag w.view.SyncNode md w.src with
  | .error e => .error e
  | .ok src1 => SendChangeEventReSync { w with src := src1 } tv

/-! ## Label, read-only state and payloads of several nodes -/

/-- `Label` of a view node: the display label.  `deref` gives the node that a
pointer refers to, and `ToLabeler` is `core.ToLabeler`, which is not part of
the sources at hand: the label of a source node that has one. -/
def Label (deref : Nat → Option Node) (ToLabeler : Node → Option String) (tv : TreeView) :
    Except Fault String :=
  match tv.SyncNode with
  | some p =>
    match deref p with
    | none => .error Fault.detached
    | some sn =>
      match ToLabeler sn with
      | some lbl => .ok lbl
      | none => .ok sn.Nm
  | none => if tv.Text ≠ "" then .ok tv.Text else .ok tv.Nm

/-- Modelled from the spec: `SetState(set, flag)` of the widget base, which is
not part of the sources at hand: sets or clears one state flag.  The state of
a widget is the list of the flags that are set. -/
def SetState (set : Bool) (flag : Nat) (st : List Nat) : List Nat :=
  if set then flag :: st.filter (fun f => f != flag) else st.filter (fun f => f != flag)

/-- Modelled from the spec: `StateIs(flag)` of the widget base: the flag is
set. -/
def StateIs (flag : Nat) (st : List Nat) : Bool := st.contains flag

/-- `UpdateReadOnly` on a view node with the widget state `st`.  The flags
`states.Disabled` and `states.ReadOnly` are parameters; `Property p` is the
result of `reflectx.ToBool` on the `"ReadOnly"` property of the source node
`p`: `none` when the property is nil, else the Boolean and whether the error is
nil.  `SetReadOnly(true)` sets the flag `ReadOnly` and `IsReadOnly()` reads
it.  Returns the new state and the result. -/
def UpdateReadOnly (Disabled ReadOnly : Nat) (Property : Nat → Option (Bool × Bool))
    (tv : TreeView) (st : List Nat) : List Nat × Bool :=
  match tv.SyncNode with
  | none => (st, false)
  | some p =>
    let st1 := SetState false Disabled st
    let st2 :=
      match Property p with
      | some (bo, errNil) => if bo && errNil then SetState true ReadOnly st1 else st1
      | none => st1
    (st2, StateIs ReadOnly st2)

/-- Modelled from the spec: the payload built for several view nodes (spec 3,
"Mime Payload"): `MimeDataSync` is called for each node in turn on the same
payload; `write` is the encoder `tree.WriteNewJSON`. -/
def mimeDataAll (write : Node → Except String String) (w : World) :
    List (List Nat) → List MimeData → Except Fault (List MimeData)
  | [], md => .ok md
  | tv :: rest, md =>
    match MimeDataSyncWith write w tv md with
    | .error e => .error e
    | .ok md1 => mimeDataAll write w rest md1

/-- The number of the entries of a payload that have the type `t`. -/
def countType (t : MimeType) (md : List MimeData) : Nat :=
  (md.filter (fun d => decide (d.Typ = t))).length

/-! ## Page paths (`pages/wpath`) -/

/-- The dash. -/
def chDash : Char := Char.ofNat 45

/-- The dot. -/
def chDot : Char := Char.ofNat 46

/-- `path.Base` of the Go library: the last element of a path.  Trailing
slashes are removed before the last element is taken; the empty path gives
`.` and a path of slashes only gives `/`. -/
def Base (p : List Char) : List Char :=
  if p.isEmpty then [chDot]
  else
    let p1 := (p.reverse.dropWhile (fun c => c == chSlash)).reverse
    let p2 := (p1.reverse.takeWhile (fun c => c != chSlash)).reverse
    if p2.isEmpty then [chSlash] else p2

/-- `Draft`: `strings.HasPrefix(path.Base(p), "-")`. -/
def Draft (p : String) : Bool :=
  (Base p.data).head? == some chDash

/-- `strings.Join(parts, "/")`. -/
def joinSlash : List (List Char) → List Char
  | [] => []
  | [a] => a
  | a :: b :: rest => a ++ chSlash :: joinSlash (b :: rest)

/-- The body of the loop of `Format` for one part: a part that contains a dash
is trimmed on the left of every rune that is a digit or a dash
(`strings.TrimLeftFunc`); `IsDigit` is `unicode.IsDigit`. -/
def trimPart (IsDigit : Char → Bool) (part : List Char) : List Char :=
  if part.contains chDash then part.dropWhile (fun r => IsDigit r || r == chDash) else part

/-- `Format`: the parts of the path between slashes are trimmed by `trimPart`
and joined again. -/
def Format (IsDigit : Char → Bool) (path : String) : String :=
  String.mk (joinSlash ((splitSlash path.data).map (trimPart IsDigit)))

/-! ## Generated tables of `styles/abilities` -/

/-- The table `_AbilitiesValues`. -/
def _AbilitiesValues : List Nat := [0, 1, 2, 3, 4, 5, 6, 7, 8, 9, 10, 11, 12, 13, 14, 15]

/-- The constant `AbilitiesN`. -/
def AbilitiesN : Nat := 16

/-- The map `_AbilitiesValueMap`, from names to values, as the list of its
entries in the order of the source. -/
def _AbilitiesValueMap : List (String × Nat) :=
  [("Editable", 0),
   ("Selectable", 1),
   ("Activatable", 2),
   ("Clickable", 3),
   ("DoubleClickable", 4),
   ("TripleClickable", 5),
   ("RepeatClickable", 6),
   ("LongPressable", 7),
   ("Draggable", 8),
   ("Droppable", 9),
   ("Slideable", 10),
   ("Checkable", 11),
   ("Scrollable", 12),
   ("Focusable", 13),
   ("Hoverable", 14),
   ("LongHoverable", 15)]

/-- The map `_AbilitiesDescMap`, from values to descriptions. -/
def _AbilitiesDescMap : List (Nat × String) :=
  [(0, "Editable means the element can be edited. Otherwise, it remains in ReadOnly mode."),
   (1, "Selectable means it can be Selected"),
   (2, "Activatable means it can be made Active by pressing down on it, which gives it a visible state layer color change. This also implies Clickable, receiving Click events when the user executes a mouse down and up event on the same element."),
   (3, "Clickable means it can be Clicked, receiving Click events when the user executes a mouse down and up event on the same element, but otherwise does not change its rendering when pressed (as Activatable does). Use this for items that are more passively clickable, such as frames or tables, whereas e.g., a Button is Activatable."),
   (4, "DoubleClickable indicates that an element does something different when it is clicked on twice in a row."),
   (5, "TripleClickable indicates that an element does something different when it is clicked on three times in a row."),
   (6, "RepeatClickable indicates that an element should receive repeated click events when the pointer is held down on it."),
   (7, "LongPressable indicates that an element can be LongPressed"),
   (8, "Draggable means it can be Dragged"),
   (9, "Droppable means it can receive DragEnter, DragLeave, and Drop events (not specific to current Drag item, just generally)"),
   (10, "Slideable means it has a slider element that can be dragged to change value. Cannot be both Draggable and Slideable."),
   (11, "Checkable means it can be Checked"),
   (12, "Scrollable means it can be Scrolled"),
   (13, "Focusable means it can be Focused: capable of receiving and processing key events directly and typically changing the style when focused to indicate this property to the user."),
   (14, "Hoverable means it can be Hovered"),
   (15, "LongHoverable means it can be LongHovered")]

/-- The map `_AbilitiesMap`, from values to names. -/
def _AbilitiesMap : List (Nat × String) :=
  [(0, "Editable"),
   (1, "Selectable"),
   (2, "Activatable"),
   (3, "Clickable"),
   (4, "DoubleClickable"),
   (5, "TripleClickable"),
   (6, "RepeatClickable"),
   (7, "LongPressable"),
   (8, "Draggable"),
   (9, "Droppable"),
   (10, "Slideable"),
   (11, "Checkable"),
   (12, "Scrollable"),
   (13, "Focusable"),
   (14, "Hoverable"),
   (15, "LongHoverable")]

/-- Lookup in a Go map given by the list of its entries. -/
def mapGet {α β : Type} [DecidableEq α] (m : List (α × β)) (k : α) : Option β :=
  (m.find? (fun e => decide (e.1 = k))).map (fun e => e.2)

/-! ## Example trees -/

/-- The source tree `{A: [B, C]}` of the specification's scenarios. -/
def srcABC : Node :=
  { id := 1, Nm := "A", Typ := "Node",
    Kids := [{ id := 2, Nm := "B", Typ := "Node", Kids := [] },
             { id := 3, Nm := "C", Typ := "Node", Kids := [] }] }

/-- A source node without children. -/
def srcLeaf : Node := { id := 2, Nm := "B", Typ := "Node", Kids := [] }

/-- The source node `B` with the single child `C`. -/
def srcB : Node :=
  { id := 2, Nm := "B", Typ := "Node",
    Kids := [{ id := 3, Nm := "C", Typ := "Node", Kids := [] }] }

/-- The source chain `A / B / C`: every node but the last has one child. -/
def srcChain : Node :=
  { id := 1, Nm := "A", Typ := "Node", Kids := [srcB] }

/-- The view of `srcABC` after `SyncTree` with `OpenDepth = 4`. -/
def viewABC : TreeView :=
  { Nm := "tv_A", Text := "", ViewIndex := 0, Closed := false, Selected := false,
    SyncNode := some 1,
    Kids := [{ Nm := "tv_B", Text := "", ViewIndex := 1, Closed := true, Selected := false,
               SyncNode := some 2, Kids := [] },
             { Nm := "tv_C", Text := "", ViewIndex := 2, Closed := true, Selected := false,
               SyncNode := some 3, Kids := [] }] }

/-- The pointer map of a world whose only source nodes are those of `srcABC`. -/
def derefABC : Nat → Option Node := fun p =>
  if p = 1 then some srcABC else srcABC.Kids.find? (fun k => k.id == p)

/-- A root view that has not been synchronised yet. -/
def emptyView : TreeView :=
  { Nm := "tv", Text := "", ViewIndex := 0, Closed := false, Selected := false,
    SyncNode := none, Kids := [] }

/-- The pointer map of a world that holds no source node. -/
def noNodes : Nat → Option Node := fun _ => none

/-- The world of the scenarios: the source tree `{A: [B, C]}` with its
synchronised view, nothing selected. -/
def worldABC : World :=
  { src := srcABC, view := viewABC, OpenDepth := 4, nextId := 4, changed := 0,
    resyncs := 0, messages := 0 }

/-- The world in which `DeleteNode` removes the node `tv`: the node has been
closed and the selection has been moved down or, failing that, up. -/
def selectionMoved (w : World) (tv : List Nat) : World :=
  if (MoveDown (Close w tv) tv).2 then (MoveDown (Close w tv) tv).1
  else (MoveUp (Close w tv) tv).1

/-- The view node of `B` in `viewABC`. -/
def tvB : TreeView :=
  { Nm := "tv_B", Text := "", ViewIndex := 1, Closed := true, Selected := false,
    SyncNode := some 2, Kids := [] }

/-- The view node of `C` in `viewABC`. -/
def tvC : TreeView :=
  { Nm := "tv_C", Text := "", ViewIndex := 2, Closed := true, Selected := false,
    SyncNode := some 3, Kids := [] }

/-- A view node without a sync node, selected. -/
def plainX : TreeView :=
  { Nm := "x", Text := "", ViewIndex := 1, Closed := true, Selected := true,
    SyncNode := none, Kids := [] }

/-- A second view node without a sync node. -/
def plainY : TreeView :=
  { Nm := "y", Text := "", ViewIndex := 2, Closed := true, Selected := false,
    SyncNode := none, Kids := [] }

/-- A view that is not synchronised with a source tree: the root with the
children `x` (selected) and `y`. -/
def viewPlain : TreeView :=
  { Nm := "root", Text := "", ViewIndex := 0, Closed := false, Selected := false,
    SyncNode := none, Kids := [plainX, plainY] }

/-- A world whose view is not synchronised. -/
def worldPlain : World :=
  { src := srcLeaf, view := viewPlain, OpenDepth := 4, nextId := 4, changed := 0,
    resyncs := 0, messages := 0 }

/-- A world in which the view node of `B` has its sync node and the parent view
has none. -/
def worldNilParent : World :=
  { src := srcABC,
    view := { Nm := "tv", Text := "", ViewIndex := 0, Closed := false, Selected := false,
              SyncNode := none, Kids := [tvB] },
    OpenDepth := 4, nextId := 4, changed := 0, resyncs := 0, messages := 0 }

/-- The payload nodes as a paste in a mode other than move names them, one
after the other: a node whose name is among the names `ex` of the children
present gets `_Copy` appended, any other node keeps its name; the final name
then counts as present for the nodes after it. -/
def pasteCopies : List String → List Node → List Node
  | _, [] => []
  | ex, n :: ns =>
    { n with Nm := if n.Nm ∈ ex then n.Nm ++ "_Copy" else n.Nm } ::
      pasteCopies ((if n.Nm ∈ ex then n.Nm ++ "_Copy" else n.Nm) :: ex) ns

/-- The payload that `MimeDataSync` makes for the node `B` of `{A: [B, C]}`:
its path `B` and its document. -/
def mdB : List MimeData :=
  [{ Typ := MimeType.TextPlain, Data := "B" },
   { Typ := MimeType.DataJson, Data := String.mk srcLeaf.encode }]

/-- The world of the scenarios with `tv_B` selected. -/
def worldSelB : World := SelectAction worldABC [0]

/-- A payload of two pairs whose first document is malformed: the path `X` with
a document that cannot be read, and the path `B` with the document of the
node `B`. -/
def mdSkew : List MimeData :=
  [{ Typ := MimeType.TextPlain, Data := "X" },
   { Typ := MimeType.DataJson, Data := "oops" },
   { Typ := MimeType.TextPlain, Data := "B" },
   { Typ := MimeType.DataJson, Data := String.mk srcLeaf.encode }]

/-- A payload with the document of the node `B` and no path. -/
def mdNoPath : List MimeData :=
  [{ Typ := MimeType.DataJson, Data := String.mk srcLeaf.encode }]

/-- The world after `DeleteNode` on `tv_B` in the world of the scenarios. -/
def worldAfterDelete : World :=
  match DeleteNode worldABC [0] with
  | .ok w1 => w1
  | .error _ => worldABC

/-- The world of the scenarios with `tv_B` and `tv_C` selected. -/
def worldSelBC : World :=
  { worldABC with view := { viewABC with Kids := [{ tvB with Selected := true },
      { tvC with Selected := true }] } }

/-- The number of `TreeViewChanged` notifications that the pass of `SyncToSrc`
issues when the view `view` is resynchronised from its root with the source
tree `src` (`ReSync`, as `SendChangeEventReSync` runs it); none when the pass
aborts. -/
def resyncChanges (OD : Int) (src : Node) (view : TreeView) : Nat :=
  match ReSync src.find? OD false view with
  | .ok r => r.2.2
  | .error _ => 0

/-- The payload nodes as a paste in move mode names them: the `i`-th node gets
the tag appended exactly when its path under the parent, `path` of it, is
the original path `pl[i]`; any other node keeps its name. -/
def pasteMoved (tag : String) (path : Node → String) (pl : List String) :
    Nat → List Node → List Node
  | _, [] => []
  | i, ns :: rest =>
    { ns with Nm := if pl[i]? = some (path ns) then ns.Nm ++ tag else ns.Nm } ::
      pasteMoved tag path pl (i + 1) rest

/-- The first step for a path of the payload, in the words of the claim as
amended: the node found at the path from the sync root `q`, if any, is
deleted. -/
def deletePath (q : Nat) (path : String) (src : Node) : Node :=
  match findPathFrom src q path with
  | some sn => src.deleteId sn.id
  | none => src

/-- The second step for a path of the payload, in the words of the claim as
amended: the node found at the path plus the tag, if any, is renamed to the
last segment of the path. -/
def renameTagged (tag : String) (q : Nat) (path : String) (src : Node) : Node :=
  match findPathFrom src q (path ++ tag) with
  | some sn2 => src.setName sn2.id (lastSegment path)
  | none => src

/-- The effect of one payload entry on the source tree, in the words of the
claim as amended: for a text entry the two steps, one after the other; an entry
of another type changes nothing. -/
def dropEntry (tag : String) (q : Nat) (d : MimeData) (src : Node) : Node :=
  if d.Typ = MimeType.TextPlain then renameTagged tag q d.Data (deletePath q d.Data src)
  else src

/-- The source tree of `{A: [B, C]}` after `B` has been moved before itself: the
children are the new node `B_MOVED`, `B` and `C`. -/
def worldMoved : World :=
  { worldABC with
    src := srcABC.setKids 1 (Node.mk 4 "B_MOVED" "Node" [] :: srcABC.Kids), nextId := 5 }

/-! ## Theorems: the reconciler -/

theorem intRange_add (a b : Nat) :
    ∀ (s : Int), intRange s (a + b) = intRange s a ++ intRange (s + a) b := by
  induction a with
  | zero => intro s; simp [intRange]
  | succ n ih =>
    intro s
    have h : n + 1 + b = (n + b) + 1 := by omega
    rw [h]
    simp only [intRange, List.cons_append, ih (s + 1)]
    have h2 : s + 1 + (n : Int) = s + ((n + 1 : Nat) : Int) := by push_cast; ring
    rw [h2]

theorem intRange_eq_range (n : Nat) :
    ∀ (s : Int), intRange s n = (List.range n).map (fun (k : Nat) => s + (k : Int)) := by
  induction n with
  | zero => intro s; rfl
  | succ n ih =>
    intro s
    rw [List.range_succ_eq_map]
    simp only [intRange, List.map_cons, List.map_map, ih (s + 1)]
    refine congrArg₂ _ (by simp) ?_
    apply List.map_congr_left
    intro k _
    simp only [Function.comp, Nat.succ_eq_add_one]
    push_cast; ring

theorem takeByName_name (nm : String) :
    ∀ (l : List TreeView) (k : TreeView) (r : List TreeView),
      takeByName nm l = some (k, r) → k.Nm = nm
  | [], k, r, h => by simp [takeByName] at h
  | x :: xs, k, r, h => by
    unfold takeByName at h
    by_cases hx : x.Nm = nm
    · simp only [hx, if_true, Option.some.injEq, Prod.mk.injEq] at h
      rw [← h.1]; exact hx
    · simp only [hx, if_false] at h
      cases hrec : takeByName nm xs with
      | none => simp [hrec] at h
      | some q =>
        obtain ⟨y, rest⟩ := q
        simp only [hrec, Option.some.injEq, Prod.mk.injEq] at h
        rw [← h.1]
        exact takeByName_name nm xs y rest hrec

theorem configGo_names :
    ∀ (cfg : List String) (pool : List TreeView),
      (configGo cfg pool).1.map (fun k => k.Nm) = cfg
  | [], pool => rfl
  | nm :: rest, pool => by
    unfold configGo
    cases h : takeByName nm pool with
    | none => simp [newChild, configGo_names rest pool]
    | some q =>
      obtain ⟨k, pool1⟩ := q
      simp [takeByName_name nm pool k pool1 h, configGo_names rest pool1]

theorem configGo_length (cfg : List String) (pool : List TreeView) :
    (configGo cfg pool).1.length = cfg.length := by
  have h := congrArg List.length (configGo_names cfg pool)
  simpa using h

theorem ConfigChildren_names (kids : List TreeView) (cfg : List String) :
    (ConfigChildren kids cfg).1.map (fun k => k.Nm) = cfg :=
  configGo_names cfg kids

theorem ConfigChildren_length (kids : List TreeView) (cfg : List String) :
    (ConfigChildren kids cfg).1.length = cfg.length :=
  configGo_length cfg kids

/-- A child list whose names already are the required names, in order, is
returned as it is and reported as not modified. -/
theorem configGo_same :
    ∀ (cfg : List String) (pool : List TreeView),
      pool.map (fun k => k.Nm) = cfg → configGo cfg pool = (pool, false, [])
  | [], pool, h => by
    cases pool with
    | nil => rfl
    | cons x xs => simp at h
  | nm :: rest, pool, h => by
    cases pool with
    | nil => simp at h
    | cons x xs =>
      simp only [List.map_cons, List.cons.injEq] at h
      unfold configGo
      simp only [takeByName, h.1, if_true]
      rw [configGo_same rest xs h.2]

theorem ConfigChildren_same (kids : List TreeView) (cfg : List String)
    (h : kids.map (fun k => k.Nm) = cfg) : ConfigChildren kids cfg = (kids, false) := by
  simp [ConfigChildren, configGo_same cfg kids h]

theorem preorder_eq (tv : TreeView) :
    tv.preorder = tv :: TreeView.preorderL tv.Kids := by
  cases tv; simp [TreeView.preorder]

mutual
theorem SyncToSrcOn_index (OD : Int) (init : Bool) :
    ∀ (sk : Node) (hp : Bool) (tv : TreeView) (i d : Int),
      (SyncToSrcOn OD init hp sk tv i d).2.1 = i + (sk.count : Int) ∧
      (SyncToSrcOn OD init hp sk tv i d).1.viewIndexes = intRange i sk.count
  | ⟨id, nm, ty, ks⟩, hp, tv, i, d => by
    have ih := syncKids_index OD init ks
      (ConfigChildren tv.Kids (ks.map (fun s => "tv_" ++ s.Nm))).1 (i + 1) (d + 1)
      (by rw [ConfigChildren_length]; simp)
    simp only [SyncToSrcOn, Node.count, TreeView.viewIndexes, preorder_eq, List.map_cons]
    refine ⟨by rw [ih.1]; push_cast; ring, ?_⟩
    rw [ih.2, Nat.add_comm 1, intRange]
theorem syncKids_index (OD : Int) (init : Bool) :
    ∀ (sks : List Node) (vks : List TreeView) (i d : Int), vks.length = sks.length →
      (syncKids OD init sks vks i d).2.1 = i + (Node.countL sks : Int) ∧
      (TreeView.preorderL (syncKids OD init sks vks i d).1).map (fun v => v.ViewIndex) =
        intRange i (Node.countL sks)
  | [], [], i, d, _ => by simp [syncKids, Node.countL, TreeView.preorderL, intRange]
  | [], _ :: _, i, d, h => by simp at h
  | _ :: _, [], i, d, h => by simp at h
  | sk :: sks, vk :: vks, i, d, h => by
    have h1 := SyncToSrcOn_index OD init sk true { vk with SyncNode := some sk.id } i d
    have h2 := syncKids_index OD init sks vks
      (SyncToSrcOn OD init true sk { vk with SyncNode := some sk.id } i d).2.1 d
      (by simpa using h)
    simp only [syncKids, Node.countL, TreeView.preorderL, List.map_append]
    simp only [TreeView.viewIndexes] at h1
    rw [h2.1, h2.2, h1.2, h1.1, intRange_add]
    exact ⟨by push_cast; ring, rfl⟩
end

theorem Mirrors_eq (tv : TreeView) (sk : Node) :
    Mirrors tv sk =
      ((tv.Nm == "tv_" ++ sk.Nm) && (tv.SyncNode == some sk.id) && MirrorsL tv.Kids sk.Kids) := by
  cases sk; simp [Mirrors]

theorem sameNodes_eq (v w : TreeView) :
    sameNodes v w =
      ((v.Nm == w.Nm) && (v.Text == w.Text) && (v.Selected == w.Selected) &&
        (v.SyncNode == w.SyncNode) && sameNodesL v.Kids w.Kids) := by
  cases v; simp [sameNodes]

theorem SyncToSrcOn_fields (OD : Int) (init hp : Bool) (sk : Node) (tv : TreeView) (i d : Int) :
    (SyncToSrcOn OD init hp sk tv i d).1.Nm = "tv_" ++ sk.Nm ∧
    (SyncToSrcOn OD init hp sk tv i d).1.SyncNode = tv.SyncNode ∧
    (SyncToSrcOn OD init hp sk tv i d).1.Text = tv.Text ∧
    (SyncToSrcOn OD init hp sk tv i d).1.Selected = tv.Selected ∧
    (SyncToSrcOn OD init hp sk tv i d).1.ViewIndex = i ∧
    (SyncToSrcOn OD init hp sk tv i d).1.Kids =
      (syncKids OD init sk.Kids
        (ConfigChildren tv.Kids (sk.Kids.map (fun s => "tv_" ++ s.Nm))).1 (i + 1) (d + 1)).1 ∧
    (SyncToSrcOn OD init hp sk tv i d).2.2 =
      (syncKids OD init sk.Kids
        (ConfigChildren tv.Kids (sk.Kids.map (fun s => "tv_" ++ s.Nm))).1 (i + 1) (d + 1)).2.2 +
        (if (ConfigChildren tv.Kids (sk.Kids.map (fun s => "tv_" ++ s.Nm))).2 then 1 else 0) := by
  cases sk; simp [SyncToSrcOn]

theorem SyncToSrcOn_closed (OD : Int) (init hp : Bool) (sk : Node) (tv : TreeView) (i d : Int) :
    (SyncToSrcOn OD init hp sk tv i d).1.Closed =
      (if sk.Kids.isEmpty then true
       else if hp && (init && decide (d ≥ OD)) then true else tv.Closed) := by
  cases sk; simp [SyncToSrcOn]

mutual
theorem SyncToSrcOn_mirrors (OD : Int) (init : Bool) :
    ∀ (sk : Node) (hp : Bool) (tv : TreeView) (i d : Int), tv.SyncNode = some sk.id →
      Mirrors (SyncToSrcOn OD init hp sk tv i d).1 sk = true
  | ⟨id, nm, ty, ks⟩, hp, tv, i, d, h => by
    have ih := syncKids_mirrors OD init ks
      (ConfigChildren tv.Kids (ks.map (fun s => "tv_" ++ s.Nm))).1 (i + 1) (d + 1)
      (by rw [ConfigChildren_length]; simp)
    have hf := SyncToSrcOn_fields OD init hp ⟨id, nm, ty, ks⟩ tv i d
    rw [Mirrors_eq, hf.1, hf.2.1, hf.2.2.2.2.2.1, h, ih]
    simp
theorem syncKids_mirrors (OD : Int) (init : Bool) :
    ∀ (sks : List Node) (vks : List TreeView) (i d : Int), vks.length = sks.length →
      MirrorsL (syncKids OD init sks vks i d).1 sks = true
  | [], [], i, d, _ => by simp [syncKids, MirrorsL]
  | [], _ :: _, i, d, h => by simp at h
  | _ :: _, [], i, d, h => by simp at h
  | sk :: sks, vk :: vks, i, d, h => by
    have h1 := SyncToSrcOn_mirrors OD init sk true { vk with SyncNode := some sk.id } i d rfl
    have h2 := syncKids_mirrors OD init sks vks
      (SyncToSrcOn OD init true sk { vk with SyncNode := some sk.id } i d).2.1 d
      (by simpa using h)
    simp only [syncKids, MirrorsL, h1, h2, Bool.and_self]
end

theorem MirrorsL_names :
    ∀ (vks : List TreeView) (sks : List Node), MirrorsL vks sks = true →
      vks.map (fun k => k.Nm) = sks.map (fun s => "tv_" ++ s.Nm)
  | [], [], _ => rfl
  | [], _ :: _, h => by simp [MirrorsL] at h
  | _ :: _, [], h => by simp [MirrorsL] at h
  | v :: vs, k :: ks, h => by
    simp only [MirrorsL, Bool.and_eq_true] at h
    have hv := h.1
    rw [Mirrors_eq] at hv
    simp only [Bool.and_eq_true, beq_iff_eq] at hv
    simp [hv.1.1, MirrorsL_names vs ks h.2]

mutual
theorem SyncToSrcOn_stable (OD : Int) (init : Bool) :
    ∀ (sk : Node) (hp : Bool) (tv : TreeView) (i d : Int), Mirrors tv sk = true →
      (SyncToSrcOn OD init hp sk tv i d).2.2 = 0 ∧
      sameNodes tv (SyncToSrcOn OD init hp sk tv i d).1 = true
  | ⟨id, nm, ty, ks⟩, hp, tv, i, d, h => by
    rw [Mirrors_eq] at h
    simp only [Bool.and_eq_true, beq_iff_eq] at h
    have hc := ConfigChildren_same tv.Kids (ks.map (fun s => "tv_" ++ s.Nm))
      (MirrorsL_names tv.Kids ks h.2)
    have ih := syncKids_stable OD init ks tv.Kids (i + 1) (d + 1) h.2
    have hf := SyncToSrcOn_fields OD init hp ⟨id, nm, ty, ks⟩ tv i d
    simp only [hc] at hf
    refine ⟨by rw [hf.2.2.2.2.2.2, ih.1]; simp, ?_⟩
    rw [sameNodes_eq, hf.1, hf.2.1, hf.2.2.1, hf.2.2.2.1, hf.2.2.2.2.2.1, ih.2]
    simp [h.1.1]
theorem syncKids_stable (OD : Int) (init : Bool) :
    ∀ (sks : List Node) (vks : List TreeView) (i d : Int), MirrorsL vks sks = true →
      (syncKids OD init sks vks i d).2.2 = 0 ∧
      sameNodesL vks (syncKids OD init sks vks i d).1 = true
  | [], [], i, d, _ => by simp [syncKids, sameNodesL]
  | [], _ :: _, i, d, h => by simp [MirrorsL] at h
  | _ :: _, [], i, d, h => by simp [MirrorsL] at h
  | sk :: sks, vk :: vks, i, d, h => by
    simp only [MirrorsL, Bool.and_eq_true] at h
    have hv := h.1
    rw [Mirrors_eq] at hv
    simp only [Bool.and_eq_true, beq_iff_eq] at hv
    have hvk : ({ vk with SyncNode := some sk.id } : TreeView) = vk := by
      cases vk; simp only [TreeView.mk.injEq, true_and, and_true]; exact hv.1.2.symm
    have h1 := SyncToSrcOn_stable OD init sk true vk i d h.1
    have h2 := syncKids_stable OD init sks vks
      (SyncToSrcOn OD init true sk vk i d).2.1 d h.2
    simp only [syncKids, hvk, sameNodesL, h1, h2, Bool.and_self, and_self, Nat.add_zero]
end

/-- The step of the child loop is `SetSyncNode` on the view child of the same
index, followed by the rest of the loop. -/
theorem syncKids_cons (OD : Int) (init : Bool) (sk : Node) (sks : List Node)
    (vk : TreeView) (vks : List TreeView) (i d : Int) :
    syncKids OD init (sk :: sks) (vk :: vks) i d =
      ((SetSyncNode OD true vk sk i init d).1 ::
          (syncKids OD init sks vks (SetSyncNode OD true vk sk i init d).2.1 d).1,
        (syncKids OD init sks vks (SetSyncNode OD true vk sk i init d).2.1 d).2.1,
        (SetSyncNode OD true vk sk i init d).2.2 +
          (syncKids OD init sks vks (SetSyncNode OD true vk sk i init d).2.1 d).2.2) := by
  simp [syncKids, SetSyncNode]

/-- The example view is the view that `SyncTree` builds for `{A: [B, C]}`. -/
theorem SyncTree_srcABC : SyncTree 4 false emptyView (some srcABC) = .ok viewABC := rfl

/-! ## Claims about the reconciler -/

/-- C1: for every source tree whose siblings have unique names, after `SyncTree`
(counter starting at 0) the `ViewIndex` values of the view nodes listed in
pre-order are exactly 0, 1, ..., nodeCount-1, where nodeCount is the number of
view nodes, which is the number of source nodes. -/
theorem C1_viewIndex_preorder (OD : Int) (hp : Bool) (tv : TreeView) (S : Node)
    (_hS : S.uniqueNames = true) :
    ∃ v, SyncTree OD hp tv (some S) = .ok v ∧
      v.viewIndexes = (List.range v.preorder.length).map (fun (k : Nat) => (k : Int)) ∧
      v.preorder.length = S.count := by
  refine ⟨_, rfl, ?_⟩
  have h := (SyncToSrcOn_index OD true S hp { tv with SyncNode := some S.id } 0 0).2
  have hl : (SyncToSrcOn OD true hp S { tv with SyncNode := some S.id } 0 0).1.preorder.length
      = S.count := by
    have := congrArg List.length h
    simp only [TreeView.viewIndexes, List.length_map] at this
    rw [this, intRange_eq_range]; simp
  refine ⟨?_, hl⟩
  rw [hl, h, intRange_eq_range]
  simp

/-- Instance of C1 on the source tree `{A: [B, C]}` and a fresh root view. -/
theorem C1_viewIndex_preorder_witness :
    srcABC.uniqueNames = true ∧
    ∃ v, SyncTree 4 false emptyView (some srcABC) = .ok v ∧
      v.viewIndexes = (List.range v.preorder.length).map (fun (k : Nat) => (k : Int)) ∧
      v.preorder.length = srcABC.count :=
  ⟨by decide, C1_viewIndex_preorder 4 false emptyView srcABC (by decide)⟩

/-- C2: for every source tree `S` whose siblings have unique names and any
prior state of the view, after `SyncTree` the view has the shape of `S`: at
every position the view node is named `"tv_"` + the source name, its
`SyncNode` is the source node of that position, and the children are in the
source's child order. -/
theorem C2_view_mirrors_source (OD : Int) (hp : Bool) (tv : TreeView) (S : Node)
    (_hS : S.uniqueNames = true) :
    ∃ v, SyncTree OD hp tv (some S) = .ok v ∧ Mirrors v S = true ∧
      v.Nm = "tv_" ++ S.Nm ∧ v.SyncNode = some S.id ∧
      v.Kids.map (fun k => k.Nm) = S.Kids.map (fun s => "tv_" ++ s.Nm) := by
  refine ⟨_, rfl, ?_⟩
  have hm := SyncToSrcOn_mirrors OD true S hp { tv with SyncNode := some S.id } 0 0 rfl
  refine ⟨hm, ?_⟩
  rw [Mirrors_eq] at hm
  simp only [Bool.and_eq_true, beq_iff_eq] at hm
  exact ⟨hm.1.1, hm.1.2, MirrorsL_names _ _ hm.2⟩

/-- Instance of C2 on the source tree `{A: [B, C]}`: the view is `tv_A` with the
children `tv_B`, `tv_C`. -/
theorem C2_view_mirrors_source_witness :
    srcABC.uniqueNames = true ∧
    ∃ v, SyncTree 4 false emptyView (some srcABC) = .ok v ∧ Mirrors v srcABC = true ∧
      v.Nm = "tv_" ++ srcABC.Nm ∧ v.SyncNode = some srcABC.id ∧
      v.Kids.map (fun k => k.Nm) = srcABC.Kids.map (fun s => "tv_" ++ s.Nm) :=
  ⟨by decide, C2_view_mirrors_source 4 false emptyView srcABC (by decide)⟩

/-- C3: running `SyncToSrc` again with `init = false` on a view that is
synchronised with the source tree, the source being unchanged, succeeds, adds,
removes and reorders no view node (the view consists of the same nodes in the
same positions) and emits no `TreeViewChanged` notification. -/
theorem C3_resync_is_stable (deref : Nat → Option Node) (OD : Int) (hp : Bool)
    (tv : TreeView) (S : Node) (i d : Int)
    (hsync : Mirrors tv S = true) (hsrc : deref S.id = some S) :
    ∃ v j, SyncToSrc deref OD hp tv i false d = .ok (v, j, 0) ∧ sameNodes tv v = true := by
  have hm := hsync
  rw [Mirrors_eq] at hm
  simp only [Bool.and_eq_true, beq_iff_eq] at hm
  have hst := SyncToSrcOn_stable OD false S hp tv i d hsync
  refine ⟨(SyncToSrcOn OD false hp S tv i d).1, (SyncToSrcOn OD false hp S tv i d).2.1, ?_, hst.2⟩
  simp only [SyncToSrc, hm.1.2, hsrc]
  rw [← hst.1]

/-- Instance of C3 on the synchronised view of `{A: [B, C]}`. -/
theorem C3_resync_is_stable_witness :
    Mirrors viewABC srcABC = true ∧ derefABC srcABC.id = some srcABC ∧
    ∃ v j, SyncToSrc derefABC 4 false viewABC 0 false 0 = .ok (v, j, 0) ∧
      sameNodes viewABC v = true :=
  ⟨by decide, rfl, C3_resync_is_stable derefABC 4 false viewABC srcABC 0 0
    (by decide) rfl⟩

/-- C6, counterexample: on a view node whose `SyncNode` is nil, `SyncToSrc`
(and `SyncTree` with a nil node) aborts with a nil dereference instead of
completing with an empty view. -/
theorem C6_nil_SyncNode_aborts :
    SyncToSrc noNodes 4 false emptyView 0 true 0 = .error Fault.nilDeref ∧
    SyncTree 4 false emptyView none = .error Fault.nilDeref :=
  ⟨rfl, rfl⟩

/-- The child loop on a view child list that is not longer than the source child
list: it stops when the view children run out, so the view children it
returns are synchronised with the first source children, as many as there are
view children, and the other source children get no view node. -/
theorem syncKids_stops (OD : Int) (init : Bool) :
    ∀ (sks : List Node) (vks : List TreeView) (i d : Int), vks.length ≤ sks.length →
      MirrorsL (syncKids OD init sks vks i d).1 (sks.take vks.length) = true
  | [], [], _, _, _ => by simp [syncKids, MirrorsL]
  | [], _ :: _, _, _, h => by simp at h
  | _ :: _, [], _, _, _ => by simp [syncKids, MirrorsL]
  | sk :: sks, vk :: vks, i, d, h => by
    have h1 := SyncToSrcOn_mirrors OD init sk true { vk with SyncNode := some sk.id } i d rfl
    have h2 := syncKids_stops OD init sks vks
      (SyncToSrcOn OD init true sk { vk with SyncNode := some sk.id } i d).2.1 d
      (by simpa using h)
    simp only [syncKids, List.length_cons, List.take_succ_cons, MirrorsL, h1, h2, Bool.and_self]

/-- The child loop returns as many view children as it was given. -/
theorem syncKids_length (OD : Int) (init : Bool) :
    ∀ (sks : List Node) (vks : List TreeView) (i d : Int),
      (syncKids OD init sks vks i d).1.length = vks.length
  | [], _, _, _ => by simp [syncKids]
  | _ :: _, [], _, _ => by simp [syncKids]
  | sk :: sks, vk :: vks, i, d => by
    simp only [syncKids, List.length_cons, syncKids_length OD init sks vks]

/-- C6, as amended: `SyncToSrc` completes whenever the `SyncNode` of the view
node refers to a source node (of a source tree without nil nodes, as all
source trees here are), and its result is the view node synchronised with
that source node: the view has the shape of the source subtree, with the
consecutive pre-order indexes from the counter on.  It has no nil check on the
sync node: for every view node whose `SyncNode` is nil it aborts with a nil
dereference.  Its defensive check is the stop of the child loop when the view
children run out: the view children present are synchronised with the first
source children and no view node is made for the others. -/
theorem C6_SyncToSrc_completes (deref : Nat → Option Node) (OD : Int) (hp : Bool)
    (tv : TreeView) (i d : Int) (init : Bool) :
    (∀ p sk, tv.SyncNode = some p → deref p = some sk → sk.id = p →
      ∃ r, SyncToSrc deref OD hp tv i init d = .ok r ∧ Mirrors r.1 sk = true ∧
        r.1.viewIndexes = intRange i sk.count ∧ r.2.1 = i + (sk.count : Int)) ∧
    (tv.SyncNode = none → SyncToSrc deref OD hp tv i init d = .error Fault.nilDeref) ∧
    (∀ (sks : List Node) (vks : List TreeView), vks.length ≤ sks.length →
      (syncKids OD init sks vks i d).1.length = vks.length ∧
      MirrorsL (syncKids OD init sks vks i d).1 (sks.take vks.length) = true) := by
  refine ⟨?_, ?_, ?_⟩
  · intro p sk hp1 hp2 hid
    refine ⟨SyncToSrcOn OD init hp sk tv i d, by simp only [SyncToSrc, hp1, hp2],
      SyncToSrcOn_mirrors OD init sk hp tv i d (by rw [hp1, hid]),
      (SyncToSrcOn_index OD init sk hp tv i d).2, (SyncToSrcOn_index OD init sk hp tv i d).1⟩
  · intro h
    simp only [SyncToSrc, h]
  · intro sks vks h
    exact ⟨syncKids_length OD init sks vks i d, syncKids_stops OD init sks vks i d h⟩

/-- Instance of the amended C6: a fresh view node with the root of
`{A: [B, C]}` as its sync node, a view node without a sync node, and the child
loop on the one view child `tv_B` and the two source children `B`, `C`. -/
theorem C6_SyncToSrc_completes_witness :
    derefABC 1 = some srcABC ∧ srcABC.id = 1 ∧ emptyView.SyncNode = none ∧
    (∃ r, SyncToSrc derefABC 4 false { emptyView with SyncNode := some 1 } 0 true 0 = .ok r ∧
      Mirrors r.1 srcABC = true ∧ r.1.viewIndexes = intRange 0 srcABC.count ∧
      r.2.1 = 0 + (srcABC.count : Int)) ∧
    SyncToSrc derefABC 4 false emptyView 0 true 0 = .error Fault.nilDeref ∧
    ((syncKids 4 true srcABC.Kids [tvB] 0 0).1.length = [tvB].length ∧
      MirrorsL (syncKids 4 true srcABC.Kids [tvB] 0 0).1 (srcABC.Kids.take [tvB].length) = true) :=
  ⟨rfl, rfl, rfl,
    (C6_SyncToSrc_completes derefABC 4 false { emptyView with SyncNode := some 1 } 0 0 true).1
      1 srcABC rfl rfl rfl,
    (C6_SyncToSrc_completes derefABC 4 false emptyView 0 0 true).2.1 rfl,
    (C6_SyncToSrc_completes derefABC 4 false emptyView 0 0 true).2.2 srcABC.Kids [tvB]
      (by decide)⟩

/-- C7, as amended: in `SyncToSrc`, a non-root view node whose source node has
children is collapsed by the depth rule exactly when `init` is true and the
depth is greater than or equal to `OpenDepth`; otherwise, in particular when
`init` is false, its `Closed` state is left as it was. -/
theorem C7_depth_rule (OD : Int) (init : Bool) (sk : Node) (tv : TreeView) (i d : Int)
    (hk : sk.Kids ≠ []) :
    ((init = true ∧ d ≥ OD) → (SyncToSrcOn OD init true sk tv i d).1.Closed = true) ∧
    (¬ (init = true ∧ d ≥ OD) → (SyncToSrcOn OD init true sk tv i d).1.Closed = tv.Closed) ∧
    (init = false → (SyncToSrcOn OD init true sk tv i d).1.Closed = tv.Closed) := by
  have he : sk.Kids.isEmpty = false := by
    cases hks : sk.Kids with
    | nil => exact absurd hks hk
    | cons _ _ => rfl
  rw [SyncToSrcOn_closed, he]
  refine ⟨?_, ?_, ?_⟩
  · rintro ⟨h1, h2⟩; simp [h1, h2]
  · intro h
    cases init with
    | false => simp
    | true =>
      have : ¬ d ≥ OD := fun h2 => h ⟨rfl, h2⟩
      simp [this]
  · intro h; simp [h]

/-- Instance of the amended C7: the node `B` with a child, at depth 1, with
`OpenDepth = 1` and `init = true`. -/
theorem C7_depth_rule_witness :
    srcB.Kids ≠ [] ∧
    (((true = true ∧ (1 : Int) ≥ 1) → (SyncToSrcOn 1 true true srcB emptyView 1 1).1.Closed = true) ∧
    (¬ (true = true ∧ (1 : Int) ≥ 1) →
      (SyncToSrcOn 1 true true srcB emptyView 1 1).1.Closed = emptyView.Closed) ∧
    (true = false → (SyncToSrcOn 1 true true srcB emptyView 1 1).1.Closed = emptyView.Closed)) :=
  ⟨by simp [srcB], C7_depth_rule 1 true srcB emptyView 1 1 (by simp [srcB])⟩

/-- C7, counterexample: with `OpenDepth = 1` and `init = true`, the view node of
`B` (which has a child) at depth 1 is collapsed although it was open and its
depth is not greater than `OpenDepth`; `SyncTree` on the chain `A / B / C`
gives that. -/
theorem C7_closed_at_OpenDepth :
    srcB.Kids ≠ [] ∧ emptyView.Closed = false ∧ ¬ ((1 : Int) > 1) ∧
    (SyncToSrcOn 1 true true srcB emptyView 1 1).1.Closed = true ∧
    (∃ v, SyncTree 1 false emptyView (some srcChain) = .ok v ∧
      v.Kids.map (fun k => (k.Nm, k.Closed)) = [("tv_B", true)]) :=
  ⟨by simp [srcB], rfl, by decide, by decide, _, rfl, by decide⟩

/-- C8: after `SyncToSrc` on a view node whose source node has no children the
view node is `Closed`, whatever `init`, the depth and the previous `Closed` state
were; and `SyncTree` on the root view (no `TreeView` parent) of a source that
has children leaves `Closed` as it was, whatever `OpenDepth` is, so it does not
close the root. -/
theorem C8_leaf_closed_root_kept (OD : Int) (init hp : Bool) (tv : TreeView) (i d : Int)
    (leaf S : Node) (hleaf : leaf.Kids = []) (hS : S.Kids ≠ []) :
    (SyncToSrcOn OD init hp leaf tv i d).1.Closed = true ∧
    ∃ v, SyncTree OD false tv (some S) = .ok v ∧ v.Closed = tv.Closed := by
  refine ⟨by rw [SyncToSrcOn_closed, hleaf]; rfl, _, rfl, ?_⟩
  have he : S.Kids.isEmpty = false := by
    cases hks : S.Kids with
    | nil => exact absurd hks hS
    | cons _ _ => rfl
  rw [SyncToSrcOn_closed, he]
  simp

/-- Instance of C8: a leaf at depth 1 with `init = false`, and the root view of
`{A: [B, C]}` with `OpenDepth = 0`. -/
theorem C8_leaf_closed_root_kept_witness :
    srcLeaf.Kids = [] ∧ srcABC.Kids ≠ [] ∧
    ((SyncToSrcOn 0 false true srcLeaf emptyView 1 1).1.Closed = true ∧
    ∃ v, SyncTree 0 false emptyView (some srcABC) = .ok v ∧ v.Closed = emptyView.Closed) :=
  ⟨rfl, by simp [srcABC],
    C8_leaf_closed_root_kept 0 false true emptyView 1 1 srcLeaf srcABC rfl (by simp [srcABC])⟩

/-! ## Theorems: the mime codec -/

theorem readStr_quote (rest : List Char) : readStr (chQuote :: rest) = some ([], rest) := by
  unfold readStr; simp

theorem readStr_backslash (d : Char) (ds : List Char) :
    readStr (chBackslash :: d :: ds) = (readStr ds).map (fun r => (d :: r.1, r.2)) := by
  have hqb : chBackslash ≠ chQuote := by decide
  conv => lhs; unfold readStr
  simp [hqb]

theorem readStr_plain (c : Char) (cs : List Char) (h1 : c ≠ chQuote) (h2 : c ≠ chBackslash) :
    readStr (c :: cs) = (readStr cs).map (fun r => (c :: r.1, r.2)) := by
  conv => lhs; unfold readStr
  simp [h1, h2]

theorem readStr_escape :
    ∀ (cs rest : List Char), readStr (escape cs ++ chQuote :: rest) = some (cs, rest)
  | [], rest => by simp [escape, readStr_quote]
  | c :: cs, rest => by
    have ih := readStr_escape cs rest
    by_cases h1 : c = chQuote
    · subst h1
      simp [escape, readStr_backslash, ih]
    · by_cases h2 : c = chBackslash
      · subst h2
        simp [escape, readStr_backslash, ih]
      · simp [escape, h1, h2, readStr_plain, ih]

theorem readQuoted_quoted (s : String) (rest : List Char) :
    readQuoted (quoted s ++ rest) = some (s, rest) := by
  simp [quoted, readQuoted, readStr_escape]

theorem encode_eq (n : Node) :
    n.encode = chOpen :: (quoted n.Typ ++ (quoted n.Nm ++ Node.encodeL n.Kids)) := by
  cases n; simp [Node.encode]

theorem sameContent_eq (m n : Node) :
    Node.sameContent m n =
      ((m.Nm == n.Nm) && (m.Typ == n.Typ) && Node.sameContentL m.Kids n.Kids) := by
  cases m; simp [Node.sameContent]

mutual
theorem decodeNode_encode :
    ∀ (n : Node) (rest : List Char) (f : Nat), n.need ≤ f →
      ∃ m, decodeNode f (n.encode ++ rest) = some (m, rest) ∧ Node.sameContent m n = true
  | ⟨_, _, _, _⟩, _, 0, h => by simp [Node.need] at h
  | ⟨i, nm, ty, ks⟩, rest, f + 1, h => by
    have hf : Node.needL ks ≤ f := by simp only [Node.need] at h; omega
    obtain ⟨ms, hms, hsame⟩ := decodeKids_encodeL ks rest f hf
    refine ⟨⟨0, nm, ty, ms⟩, ?_, ?_⟩
    · simp only [Node.encode, List.cons_append, List.append_assoc, decodeNode, if_true,
        readQuoted_quoted, hms]
    · rw [sameContent_eq]; simp [hsame]
theorem decodeKids_encodeL :
    ∀ (ks : List Node) (rest : List Char) (f : Nat), Node.needL ks ≤ f →
      ∃ ms, decodeKids f (Node.encodeL ks ++ rest) = some (ms, rest) ∧
        Node.sameContentL ms ks = true
  | [], _, 0, h => by simp [Node.needL] at h
  | _ :: _, _, 0, h => by simp [Node.needL] at h
  | [], rest, f + 1, _ => ⟨[], by simp [Node.encodeL, decodeKids], by simp [Node.sameContentL]⟩
  | k :: ks, rest, f + 1, h => by
    have h1 : k.need ≤ f := by simp only [Node.needL] at h; omega
    have h2 : Node.needL ks ≤ f := by simp only [Node.needL] at h; omega
    obtain ⟨m, hm, hsm⟩ := decodeNode_encode k (Node.encodeL ks ++ rest) f h1
    obtain ⟨ms, hms, hsms⟩ := decodeKids_encodeL ks rest f h2
    refine ⟨m :: ms, ?_, by simp [Node.sameContentL, hsm, hsms]⟩
    have hoc : chOpen ≠ chClose := by decide
    rw [encode_eq] at hm
    simp only [Node.encodeL, encode_eq, List.cons_append, List.append_assoc, decodeKids, hoc,
      if_false] at hm ⊢
    rw [hm]
    simp only [hms]
end

theorem quoted_length (s : String) : 2 ≤ (quoted s).length := by
  simp [quoted]

mutual
theorem need_le_length : ∀ (n : Node), n.need + 3 ≤ n.encode.length
  | ⟨i, nm, ty, ks⟩ => by
    have ih := needL_le_length ks
    have h1 := quoted_length ty
    have h2 := quoted_length nm
    simp only [Node.need, Node.encode, List.length_cons, List.length_append]
    omega
theorem needL_le_length : ∀ (ks : List Node), Node.needL ks ≤ (Node.encodeL ks).length
  | [] => by simp [Node.needL, Node.encodeL]
  | k :: ks => by
    have h1 := need_le_length k
    have h2 := needL_le_length ks
    simp only [Node.needL, Node.encodeL, List.length_append]
    omega
end

theorem clone_fields (next : Nat) (m : Node) :
    (Node.clone next m).1.Nm = m.Nm ∧ (Node.clone next m).1.Typ = m.Typ ∧
    (Node.clone next m).1.Kids = (Node.cloneL (next + 1) m.Kids).1 := by
  cases m; simp [Node.clone]

mutual
theorem sameContent_clone :
    ∀ (m n : Node) (next : Nat), Node.sameContent m n = true →
      Node.sameContent (Node.clone next m).1 n = true
  | ⟨i, nm, ty, ks⟩, n, next, h => by
    rw [sameContent_eq] at h ⊢
    simp only [Bool.and_eq_true, beq_iff_eq] at h
    have ih := sameContentL_cloneL ks n.Kids (next + 1) h.2
    have hc := clone_fields next ⟨i, nm, ty, ks⟩
    rw [hc.1, hc.2.1, hc.2.2, ih]
    simp [h.1.1, h.1.2]
theorem sameContentL_cloneL :
    ∀ (ms ns : List Node) (next : Nat), Node.sameContentL ms ns = true →
      Node.sameContentL (Node.cloneL next ms).1 ns = true
  | [], [], _, _ => by simp [Node.cloneL, Node.sameContentL]
  | [], _ :: _, _, h => by simp [Node.sameContentL] at h
  | _ :: _, [], _, h => by simp [Node.sameContentL] at h
  | m :: ms, n :: ns, next, h => by
    simp only [Node.sameContentL, Bool.and_eq_true] at h
    have h1 := sameContent_clone m n next h.1
    have h2 := sameContentL_cloneL ms ns (Node.clone next m).2 h.2
    simp only [Node.cloneL, Node.sameContentL, h1, h2, Bool.and_self]
end

/-- Reading back the document written for a node gives one new node with the
content of the node. -/
theorem ReadNewJSON_WriteNewJSON (next : Nat) (n : Node) :
    ∃ m next1, ReadNewJSON next (String.mk n.encode) = .ok (m, next1) ∧
      Node.sameContent m n = true := by
  obtain ⟨m0, hdec, hsame⟩ := decodeNode_encode n [] (n.encode.length + 1)
    (by have := need_le_length n; omega)
  rw [List.append_nil] at hdec
  refine ⟨(Node.clone next m0).1, (Node.clone next m0).2, ?_, sameContent_clone m0 n next hsame⟩
  simp only [ReadNewJSON, hdec]

/-! ## Claims about the mime interchange -/

/-- C4: for every source node `n` under the sync root, `SyncNodesFromMimeData`
applied to the payload that `MimeDataSync` appends for `n` returns exactly one
node, equal to `n` in name, type and children recursively, and exactly one
path, equal to the path of `n` from the sync root. -/
theorem C4_mime_round_trip (w : World) (tv : List Nat) (v : TreeView) (p : Nat) (n : Node)
    (next : Nat) (hv : w.view.nodeAt? tv = some v) (hs : v.SyncNode = some p)
    (hn : w.src.find? p = some n) :
    ∃ md m next1, MimeDataSync w tv [] = .ok md ∧
      SyncNodesFromMimeData next md = ([m], [w.src.PathFrom p w.view.SyncNode], next1) ∧
      Node.sameContent m n = true := by
  obtain ⟨m, next1, hread, hsame⟩ := ReadNewJSON_WriteNewJSON next n
  refine ⟨[{ Typ := MimeType.TextPlain, Data := w.src.PathFrom p w.view.SyncNode },
    { Typ := MimeType.DataJson, Data := String.mk n.encode }], m, next1, ?_, ?_, hsame⟩
  · simp only [MimeDataSync, hv, hs, hn, WriteNewJSON, List.nil_append, List.singleton_append]
  · simp only [SyncNodesFromMimeData, hread]

/-- Instance of C4 on the node `B` of `{A: [B, C]}`. -/
theorem C4_mime_round_trip_witness :
    worldABC.view.nodeAt? [0] = some (TreeView.mk "tv_B" "" 1 true false (some 2) []) ∧
    (TreeView.mk "tv_B" "" 1 true false (some 2) []).SyncNode = some 2 ∧
    worldABC.src.find? 2 = some srcLeaf ∧
    ∃ md m next1, MimeDataSync worldABC [0] [] = .ok md ∧
      SyncNodesFromMimeData 10 md =
        ([m], [worldABC.src.PathFrom 2 worldABC.view.SyncNode], next1) ∧
      Node.sameContent m srcLeaf = true :=
  ⟨rfl, rfl, rfl, C4_mime_round_trip worldABC [0] _ 2 srcLeaf 10 rfl rfl rfl⟩

/-! ## Theorems: source tree operations -/

mutual
theorem find?_setKids (p : Nat) (new : List Node) :
    ∀ (t : Node), (t.setKids p new).find? p = (t.find? p).map (fun n => { n with Kids := new })
  | ⟨i, nm, ty, ks⟩ => by
    by_cases h : i = p
    · simp [Node.setKids, Node.find?, h]
    · simp [Node.setKids, Node.find?, h, findL?_setKidsL p new ks]
theorem findL?_setKidsL (p : Nat) (new : List Node) :
    ∀ (ks : List Node), Node.findL? p (Node.setKidsL p new ks) =
      (Node.findL? p ks).map (fun n => { n with Kids := new })
  | [] => rfl
  | k :: ks => by
    simp only [Node.setKidsL, Node.findL?, find?_setKids p new k]
    cases Node.find? p k with
    | none => simp [findL?_setKidsL p new ks]
    | some n => simp
end

theorem setKids_id (p : Nat) (new : List Node) (t : Node) : (t.setKids p new).id = t.id := by
  cases t with
  | mk i nm ty ks =>
    by_cases h : i = p <;> simp [Node.setKids, h]

theorem find?_self (t : Node) : t.find? t.id = some t := by
  cases t; simp [Node.find?]

theorem insertAt?_eq {α : Type} (x : α) :
    ∀ (a : Nat) (l : List α), a ≤ l.length →
      insertAt? x a l = some (l.take a ++ x :: l.drop a)
  | 0, l, _ => by simp [insertAt?]
  | a + 1, [], h => by simp at h
  | a + 1, y :: l, h => by
    have ih := insertAt?_eq x a l (by simpa using h)
    simp [insertAt?, ih]

/-- C5, failing input: starting from the synchronised view of `{A: [B, C]}`,
`Duplicate` on the view node of `B`, twice, succeeds and leaves two source
children named `B_Copy` and two sibling view nodes named `tv_B_Copy`. -/
theorem C5_duplicate_twice_same_name :
    worldABC.src.uniqueNames = true ∧ Mirrors worldABC.view worldABC.src = true ∧
    ∃ w1 w2, Duplicate worldABC [0] = .ok w1 ∧ Duplicate w1 [0] = .ok w2 ∧
      w2.src.Kids.map (fun k => k.Nm) = ["B", "B_Copy", "B_Copy", "C"] ∧
      w2.view.Kids.map (fun k => k.Nm) = ["tv_B", "tv_B_Copy", "tv_B_Copy", "tv_C"] ∧
      w2.view.uniqueNames = false :=
  ⟨by decide, by decide, _, _, rfl, rfl, by decide, by decide, by decide⟩

/-- C9: `InsertBefore`, `InsertAfter`, `DeleteNode` and `Duplicate` invoked on the
root view node return at once: the view tree (and so the selection, which
is the `Selected` state of its nodes) and the source tree are unchanged; only
the message for the user is issued. -/
theorem C9_root_edits_are_noops (w : World) (answer : Option (NodeType × Nat)) :
    InsertBefore w [] answer = .ok { w with messages := w.messages + 1 } ∧
    InsertAfter w [] answer = .ok { w with messages := w.messages + 1 } ∧
    DeleteNode w [] = .ok { w with messages := w.messages + 1 } ∧
    Duplicate w [] = .ok { w with messages := w.messages + 1 } ∧
    ({ w with messages := w.messages + 1 } : World).view = w.view ∧
    ({ w with messages := w.messages + 1 } : World).src = w.src ∧
    ({ w with messages := w.messages + 1 } : World).view.selectedNames = w.view.selectedNames :=
  ⟨rfl, rfl, rfl, rfl, rfl, rfl, rfl⟩

theorem TreeView.nodeAt?_cons (t : TreeView) (i : Nat) (p : List Nat) :
    t.nodeAt? (i :: p) = (t.Kids[i]?).bind (fun k => k.nodeAt? p) := by
  simp only [TreeView.nodeAt?]
  cases t.Kids[i]? <;> rfl

theorem TreeView.nodeAt?_append :
    ∀ (p q : List Nat) (t : TreeView),
      t.nodeAt? (p ++ q) = (t.nodeAt? p).bind (fun x => x.nodeAt? q)
  | [], q, t => by simp [TreeView.nodeAt?]
  | i :: p, q, t => by
    simp only [List.cons_append, TreeView.nodeAt?_cons]
    cases t.Kids[i]? with
    | none => rfl
    | some k => simp [TreeView.nodeAt?_append p q k]

theorem TreeView.nodeAt?_snoc (t x : TreeView) (p : List Nat) (i : Nat)
    (h : t.nodeAt? p = some x) : t.nodeAt? (p ++ [i]) = x.Kids[i]? := by
  rw [TreeView.nodeAt?_append, h]
  simp only [Option.some_bind, TreeView.nodeAt?_cons]
  cases x.Kids[i]? <;> simp [TreeView.nodeAt?]

theorem TreeView.nodeAt?_updateAt (f : TreeView → TreeView) :
    ∀ (p : List Nat) (t : TreeView),
      (TreeView.updateAt f p t).nodeAt? p = (t.nodeAt? p).map f
  | [], t => by simp [TreeView.updateAt, TreeView.nodeAt?]
  | i :: p, t => by
    simp only [TreeView.updateAt, TreeView.nodeAt?_cons, List.getElem?_modify_eq, Option.map_eq_map]
    cases t.Kids[i]? with
    | none => rfl
    | some k => simp [TreeView.nodeAt?_updateAt f p k]

theorem unselectAllL_eq_map :
    ∀ (ks : List TreeView), TreeView.unselectAllL ks = ks.map TreeView.unselectAll
  | [] => rfl
  | k :: ks => by simp [TreeView.unselectAllL, unselectAllL_eq_map ks]

theorem unselectAll_fields (t : TreeView) :
    t.unselectAll.Nm = t.Nm ∧ t.unselectAll.Selected = false ∧
    t.unselectAll.SyncNode = t.SyncNode ∧
    t.unselectAll.Kids = t.Kids.map TreeView.unselectAll := by
  cases t; simp [TreeView.unselectAll, unselectAllL_eq_map]

theorem preorderL_append :
    ∀ (a b : List TreeView),
      TreeView.preorderL (a ++ b) = TreeView.preorderL a ++ TreeView.preorderL b
  | [], b => rfl
  | k :: a, b => by simp [TreeView.preorderL, preorderL_append a b]

/-- The selected nodes of a view tree, in pre-order. -/
theorem selected_eq (t : TreeView) :
    t.preorder.filter (fun v => v.Selected) =
      (if t.Selected then [t] else []) ++
        (TreeView.preorderL t.Kids).filter (fun v => v.Selected) := by
  rw [preorder_eq, List.filter_cons]
  split <;> simp

mutual
theorem unselectAll_selected :
    ∀ (t : TreeView), t.unselectAll.preorder.filter (fun v => v.Selected) = []
  | ⟨nm, tx, vi, cl, se, sn, ks⟩ => by
    rw [selected_eq]
    simp only [TreeView.unselectAll, Bool.false_eq_true, if_false, List.nil_append]
    exact unselectAllL_selected ks
theorem unselectAllL_selected :
    ∀ (ks : List TreeView),
      (TreeView.preorderL (TreeView.unselectAllL ks)).filter (fun v => v.Selected) = []
  | [] => rfl
  | k :: ks => by
    simp only [TreeView.unselectAllL, TreeView.preorderL, List.filter_append,
      unselectAll_selected k, unselectAllL_selected ks, List.append_nil]
end

theorem unselectAll_nodeAt? :
    ∀ (p : List Nat) (t : TreeView),
      t.unselectAll.nodeAt? p = (t.nodeAt? p).map TreeView.unselectAll
  | [], t => by simp [TreeView.nodeAt?]
  | i :: p, t => by
    simp only [TreeView.nodeAt?_cons, (unselectAll_fields t).2.2.2, List.getElem?_map]
    cases t.Kids[i]? with
    | none => rfl
    | some k => simp [unselectAll_nodeAt? p k]

theorem selectedL_of_getElem? :
    ∀ (ks : List TreeView) (i : Nat) (k : TreeView), ks[i]? = some k →
      (TreeView.preorderL ks).filter (fun v => v.Selected) = [] →
      k.preorder.filter (fun v => v.Selected) = []
  | [], i, k, h, _ => by simp at h
  | a :: ks, 0, k, h, hs => by
    simp only [List.getElem?_cons_zero, Option.some.injEq] at h
    subst h
    simp only [TreeView.preorderL, List.filter_append, List.append_eq_nil] at hs
    exact hs.1
  | a :: ks, i + 1, k, h, hs => by
    simp only [List.getElem?_cons_succ] at h
    simp only [TreeView.preorderL, List.filter_append, List.append_eq_nil] at hs
    exact selectedL_of_getElem? ks i k h hs.2

theorem selectedL_modify (g : TreeView → TreeView) :
    ∀ (ks : List TreeView) (i : Nat) (k : TreeView), ks[i]? = some k →
      (TreeView.preorderL ks).filter (fun v => v.Selected) = [] →
      (TreeView.preorderL (ks.modify g i)).filter (fun v => v.Selected) =
        (g k).preorder.filter (fun v => v.Selected)
  | [], i, k, h, _ => by simp at h
  | a :: ks, 0, k, h, hs => by
    simp only [List.getElem?_cons_zero, Option.some.injEq] at h
    subst h
    simp only [TreeView.preorderL, List.filter_append, List.append_eq_nil] at hs
    simp [TreeView.preorderL, List.filter_append, hs.2]
  | a :: ks, i + 1, k, h, hs => by
    simp only [List.getElem?_cons_succ] at h
    simp only [TreeView.preorderL, List.filter_append, List.append_eq_nil] at hs
    rw [List.modify_succ_cons]
    simp only [TreeView.preorderL, List.filter_append, hs.1, List.nil_append]
    exact selectedL_modify g ks i k h hs.2

/-- In a view without a selected node, selecting the node at a path makes it
the only selected node. -/
theorem selected_updateAt :
    ∀ (p : List Nat) (t x : TreeView), t.nodeAt? p = some x →
      t.preorder.filter (fun v => v.Selected) = [] →
      (TreeView.updateAt (fun y => { y with Selected := true }) p t).preorder.filter
        (fun v => v.Selected) = [{ x with Selected := true }]
  | [], t, x, h, hs => by
    simp only [TreeView.nodeAt?, Option.some.injEq] at h
    subst h
    rw [selected_eq] at hs
    simp only [List.append_eq_nil] at hs
    rw [TreeView.updateAt, selected_eq]
    simp [hs.2]
  | i :: p, t, x, h, hs => by
    rw [TreeView.nodeAt?_cons] at h
    cases hk : t.Kids[i]? with
    | none => simp [hk] at h
    | some k =>
      simp only [hk, Option.some_bind] at h
      rw [selected_eq] at hs
      simp only [List.append_eq_nil] at hs
      have hse : t.Selected = false := by
        cases hsel : t.Selected with
        | false => rfl
        | true => simp [hsel] at hs
      rw [TreeView.updateAt, selected_eq]
      simp only [hse, Bool.false_eq_true, if_false, List.nil_append]
      rw [selectedL_modify _ t.Kids i k hk hs.2]
      exact selected_updateAt p k x h (selectedL_of_getElem? t.Kids i k hk hs.2)

/-- After `SelectAction` on an existing view node, that node is the only
selected node. -/
theorem SelectAction_selected (w : World) (p : List Nat) (x : TreeView)
    (h : w.view.nodeAt? p = some x) :
    (SelectAction w p).view.preorder.filter (fun v => v.Selected) =
      [{ x.unselectAll with Selected := true }] := by
  simp only [SelectAction]
  exact selected_updateAt p _ _ (by rw [unselectAll_nodeAt?, h]; rfl) (unselectAll_selected _)

theorem SelectAction_selectedNames (w : World) (p : List Nat) (x : TreeView)
    (h : w.view.nodeAt? p = some x) :
    (SelectAction w p).view.selectedNames = [x.Nm] := by
  simp only [TreeView.selectedNames, SelectAction_selected w p x h, List.map_cons, List.map_nil,
    (unselectAll_fields x).1]

/-! ## Theorems: identities and paths in the source tree -/

theorem ids_eq (n : Node) : n.ids = n.id :: Node.idsL n.Kids := by
  cases n; simp [Node.ids]

theorem id_mem_ids (n : Node) : n.id ∈ n.ids := by
  rw [ids_eq]; simp

theorem idsL_append :
    ∀ (a b : List Node), Node.idsL (a ++ b) = Node.idsL a ++ Node.idsL b
  | [], b => rfl
  | k :: a, b => by simp [Node.idsL, idsL_append a b]

theorem idsL_cons (k : Node) (ks : List Node) : Node.idsL (k :: ks) = k.ids ++ Node.idsL ks := by
  simp [Node.idsL]

theorem split_of_getElem? {α : Type} :
    ∀ (ks : List α) (i : Nat) (k : α), ks[i]? = some k →
      ∃ a b, ks = a ++ k :: b ∧ a.length = i
  | [], i, k, h => by simp at h
  | x :: ks, 0, k, h => by
    simp only [List.getElem?_cons_zero, Option.some.injEq] at h
    exact ⟨[], ks, by simp [h], rfl⟩
  | x :: ks, i + 1, k, h => by
    simp only [List.getElem?_cons_succ] at h
    obtain ⟨a, b, hab, hl⟩ := split_of_getElem? ks i k h
    exact ⟨x :: a, b, by simp [hab], by simp [hl]⟩

theorem getElem?_split {α : Type} :
    ∀ (a b : List α) (k : α), (a ++ k :: b)[a.length]? = some k
  | [], b, k => by simp
  | x :: a, b, k => by
    simp only [List.cons_append, List.length_cons, List.getElem?_cons_succ]
    exact getElem?_split a b k

theorem modify_split {α : Type} (g : α → α) :
    ∀ (a b : List α) (k : α), (a ++ k :: b).modify g a.length = a ++ g k :: b
  | [], b, k => rfl
  | x :: a, b, k => by
    simp only [List.cons_append, List.length_cons, List.modify_succ_cons, modify_split g a b k]

theorem eraseIdx_split {α : Type} :
    ∀ (a b : List α) (k : α), (a ++ k :: b).eraseIdx a.length = a ++ b
  | [], b, k => rfl
  | x :: a, b, k => by
    simp only [List.cons_append, List.length_cons, List.eraseIdx_cons_succ, eraseIdx_split a b k]

mutual
theorem find?_not_mem (q : Nat) : ∀ (t : Node), q ∉ t.ids → t.find? q = none
  | ⟨i, nm, ty, ks⟩, h => by
    simp only [Node.ids, List.mem_cons, not_or] at h
    have hi : ¬ i = q := fun e => h.1 e.symm
    simp only [Node.find?, hi, if_false]
    exact findL?_not_mem q ks h.2
theorem findL?_not_mem (q : Nat) : ∀ (ks : List Node), q ∉ Node.idsL ks → Node.findL? q ks = none
  | [], _ => rfl
  | k :: ks, h => by
    simp only [Node.idsL, List.mem_append, not_or] at h
    simp only [Node.findL?, find?_not_mem q k h.1, findL?_not_mem q ks h.2]
end

mutual
theorem setKids_not_mem (q : Nat) (new : List Node) :
    ∀ (t : Node), q ∉ t.ids → t.setKids q new = t
  | ⟨i, nm, ty, ks⟩, h => by
    simp only [Node.ids, List.mem_cons, not_or] at h
    have hi : ¬ i = q := fun e => h.1 e.symm
    simp only [Node.setKids, hi, if_false, setKidsL_not_mem q new ks h.2]
theorem setKidsL_not_mem (q : Nat) (new : List Node) :
    ∀ (ks : List Node), q ∉ Node.idsL ks → Node.setKidsL q new ks = ks
  | [], _ => rfl
  | k :: ks, h => by
    simp only [Node.idsL, List.mem_append, not_or] at h
    simp only [Node.setKidsL, setKids_not_mem q new k h.1, setKidsL_not_mem q new ks h.2]
end

mutual
theorem setName_not_mem (q : Nat) (new : String) :
    ∀ (t : Node), q ∉ t.ids → t.setName q new = t
  | ⟨i, nm, ty, ks⟩, h => by
    simp only [Node.ids, List.mem_cons, not_or] at h
    have hi : ¬ i = q := fun e => h.1 e.symm
    simp only [Node.setName, hi, if_false, setNameL_not_mem q new ks h.2]
theorem setNameL_not_mem (q : Nat) (new : String) :
    ∀ (ks : List Node), q ∉ Node.idsL ks → Node.setNameL q new ks = ks
  | [], _ => rfl
  | k :: ks, h => by
    simp only [Node.idsL, List.mem_append, not_or] at h
    simp only [Node.setNameL, setName_not_mem q new k h.1, setNameL_not_mem q new ks h.2]
end

mutual
theorem deleteId_not_mem (q : Nat) : ∀ (t : Node), q ∉ t.ids → t.deleteId q = t
  | ⟨i, nm, ty, ks⟩, h => by
    simp only [Node.ids, List.mem_cons, not_or] at h
    simp only [Node.deleteId, deleteIdL_not_mem q ks h.2]
theorem deleteIdL_not_mem (q : Nat) :
    ∀ (ks : List Node), q ∉ Node.idsL ks → Node.deleteIdL q ks = ks
  | [], _ => rfl
  | k :: ks, h => by
    simp only [Node.idsL, List.mem_append, not_or] at h
    have hk : ¬ k.id = q := fun e => h.1 (e ▸ id_mem_ids k)
    simp only [Node.deleteIdL, hk, if_false, deleteId_not_mem q k h.1,
      deleteIdL_not_mem q ks h.2]
end

theorem idxOf_not_mem (q : Nat) : ∀ (ks : List Node), q ∉ Node.idsL ks → idxOf q ks = none
  | [], _ => rfl
  | k :: ks, h => by
    simp only [Node.idsL, List.mem_append, not_or] at h
    have hk : ¬ k.id = q := fun e => h.1 (e ▸ id_mem_ids k)
    simp [idxOf, hk, idxOf_not_mem q ks h.2]

mutual
theorem parentOf?_not_mem (q : Nat) : ∀ (t : Node), q ∉ t.ids → t.parentOf? q = none
  | ⟨i, nm, ty, ks⟩, h => by
    simp only [Node.ids, List.mem_cons, not_or] at h
    simp only [Node.parentOf?, idxOf_not_mem q ks h.2]
    exact parentOfL?_not_mem q ks h.2
theorem parentOfL?_not_mem (q : Nat) :
    ∀ (ks : List Node), q ∉ Node.idsL ks → Node.parentOfL? q ks = none
  | [], _ => rfl
  | k :: ks, h => by
    simp only [Node.idsL, List.mem_append, not_or] at h
    simp only [Node.parentOfL?, parentOf?_not_mem q k h.1, parentOfL?_not_mem q ks h.2]
end

theorem findL?_split (q : Nat) (k : Node) (b : List Node) :
    ∀ (a : List Node), q ∉ Node.idsL a → q ∉ Node.idsL b →
      Node.findL? q (a ++ k :: b) = k.find? q
  | [], _, hb => by
    simp only [List.nil_append, Node.findL?, findL?_not_mem q b hb]
    cases k.find? q <;> rfl
  | x :: a, ha, hb => by
    simp only [Node.idsL, List.mem_append, not_or] at ha
    simp only [List.cons_append, Node.findL?, find?_not_mem q x ha.1]
    exact findL?_split q k b a ha.2 hb

theorem setKidsL_split (q : Nat) (new : List Node) (k : Node) (b : List Node) :
    ∀ (a : List Node), q ∉ Node.idsL a → q ∉ Node.idsL b →
      Node.setKidsL q new (a ++ k :: b) = a ++ k.setKids q new :: b
  | [], _, hb => by
    simp only [List.nil_append, Node.setKidsL, setKidsL_not_mem q new b hb]
  | x :: a, ha, hb => by
    simp only [Node.idsL, List.mem_append, not_or] at ha
    have ih := setKidsL_split q new k b a ha.2 hb
    rw [List.cons_append, Node.setKidsL, setKids_not_mem q new x ha.1, ih]
    rfl

theorem setNameL_split (q : Nat) (new : String) (k : Node) (b : List Node) :
    ∀ (a : List Node), q ∉ Node.idsL a → q ∉ Node.idsL b →
      Node.setNameL q new (a ++ k :: b) = a ++ k.setName q new :: b
  | [], _, hb => by
    simp only [List.nil_append, Node.setNameL, setNameL_not_mem q new b hb]
  | x :: a, ha, hb => by
    simp only [Node.idsL, List.mem_append, not_or] at ha
    have ih := setNameL_split q new k b a ha.2 hb
    rw [List.cons_append, Node.setNameL, setName_not_mem q new x ha.1, ih]
    rfl

theorem deleteIdL_split (q : Nat) (k : Node) (b : List Node) (hk : k.id ≠ q) :
    ∀ (a : List Node), q ∉ Node.idsL a → q ∉ Node.idsL b →
      Node.deleteIdL q (a ++ k :: b) = a ++ k.deleteId q :: b
  | [], _, hb => by
    simp only [List.nil_append, Node.deleteIdL, hk, if_false, deleteIdL_not_mem q b hb]
  | x :: a, ha, hb => by
    simp only [Node.idsL, List.mem_append, not_or] at ha
    have hx : ¬ x.id = q := fun e => ha.1 (e ▸ id_mem_ids x)
    have ih := deleteIdL_split q k b hk a ha.2 hb
    rw [List.cons_append, Node.deleteIdL, if_neg hx, deleteId_not_mem q x ha.1, ih]
    rfl

theorem deleteIdL_split_self (k : Node) (b : List Node) :
    ∀ (a : List Node), k.id ∉ Node.idsL a → k.id ∉ Node.idsL b →
      Node.deleteIdL k.id (a ++ k :: b) = a ++ b
  | [], _, hb => by
    simp only [List.nil_append, Node.deleteIdL, if_true, deleteIdL_not_mem k.id b hb]
  | x :: a, ha, hb => by
    simp only [Node.idsL, List.mem_append, not_or] at ha
    have hx : ¬ x.id = k.id := fun e => ha.1 (e ▸ id_mem_ids x)
    have ih := deleteIdL_split_self k b a ha.2 hb
    rw [List.cons_append, Node.deleteIdL, if_neg hx, deleteId_not_mem k.id x ha.1, ih]
    rfl

theorem idxOf_split (k : Node) (b : List Node) :
    ∀ (a : List Node), k.id ∉ Node.idsL a → idxOf k.id (a ++ k :: b) = some a.length
  | [], _ => by simp [idxOf]
  | x :: a, ha => by
    simp only [Node.idsL, List.mem_append, not_or] at ha
    have hx : ¬ x.id = k.id := fun e => ha.1 (e ▸ id_mem_ids x)
    simp [idxOf, hx, idxOf_split k b a ha.2]

theorem parentOfL?_split (q : Nat) (k : Node) (b : List Node) :
    ∀ (a : List Node), q ∉ Node.idsL a → q ∉ Node.idsL b →
      Node.parentOfL? q (a ++ k :: b) = k.parentOf? q
  | [], _, hb => by
    simp only [List.nil_append, Node.parentOfL?, parentOfL?_not_mem q b hb]
    cases k.parentOf? q <;> rfl
  | x :: a, ha, hb => by
    simp only [Node.idsL, List.mem_append, not_or] at ha
    simp only [List.cons_append, Node.parentOfL?, parentOf?_not_mem q x ha.1]
    exact parentOfL?_split q k b a ha.2 hb

theorem Node.srcAt?_cons (t : Node) (i : Nat) (p : List Nat) :
    t.nodeAt? (i :: p) = (t.Kids[i]?).bind (fun k => k.nodeAt? p) := by
  simp only [Node.nodeAt?]
  cases t.Kids[i]? <;> rfl

theorem Node.srcAt?_append :
    ∀ (p q : List Nat) (t : Node),
      t.nodeAt? (p ++ q) = (t.nodeAt? p).bind (fun x => x.nodeAt? q)
  | [], q, t => by simp [Node.nodeAt?]
  | i :: p, q, t => by
    simp only [List.cons_append, Node.srcAt?_cons]
    cases t.Kids[i]? with
    | none => rfl
    | some k => simp [Node.srcAt?_append p q k]

theorem Node.srcAt?_snoc (t x : Node) (p : List Nat) (i : Nat)
    (h : t.nodeAt? p = some x) : t.nodeAt? (p ++ [i]) = x.Kids[i]? := by
  rw [Node.srcAt?_append, h]
  simp only [Option.some_bind, Node.srcAt?_cons]
  cases x.Kids[i]? <;> simp [Node.nodeAt?]

theorem Node.srcAt?_updateAt (f : Node → Node) :
    ∀ (p : List Nat) (t : Node),
      (Node.updateAt f p t).nodeAt? p = (t.nodeAt? p).map f
  | [], t => by simp [Node.updateAt, Node.nodeAt?]
  | i :: p, t => by
    simp only [Node.updateAt, Node.srcAt?_cons, List.getElem?_modify_eq, Option.map_eq_map]
    cases t.Kids[i]? with
    | none => rfl
    | some k => simp [Node.srcAt?_updateAt f p k]

theorem mem_idsL_of_getElem? (ks : List Node) (i : Nat) (k : Node) (h : ks[i]? = some k)
    (q : Nat) (hq : q ∈ k.ids) : q ∈ Node.idsL ks := by
  obtain ⟨a, b, hab, _⟩ := split_of_getElem? ks i k h
  rw [hab, idsL_append, idsL_cons]
  simp [hq]

/-- The identities below a path are identities of the tree. -/
theorem ids_of_nodeAt? :
    ∀ (p : List Nat) (t n : Node), t.nodeAt? p = some n → ∀ q ∈ n.ids, q ∈ t.ids
  | [], t, n, h, q, hq => by
    simp only [Node.nodeAt?, Option.some.injEq] at h
    rw [h]; exact hq
  | i :: p, t, n, h, q, hq => by
    rw [Node.srcAt?_cons] at h
    cases hk : t.Kids[i]? with
    | none => simp [hk] at h
    | some k =>
      simp only [hk, Option.some_bind] at h
      rw [ids_eq]
      exact List.mem_cons_of_mem _
        (mem_idsL_of_getElem? t.Kids i k hk q (ids_of_nodeAt? p k n h q hq))

/-- The identities below a non-empty path are identities of the children. -/
theorem ids_of_nodeAt?_cons (i : Nat) (p : List Nat) (t n : Node)
    (h : t.nodeAt? (i :: p) = some n) : ∀ q ∈ n.ids, q ∈ Node.idsL t.Kids := by
  intro q hq
  rw [Node.srcAt?_cons] at h
  cases hk : t.Kids[i]? with
  | none => simp [hk] at h
  | some k =>
    simp only [hk, Option.some_bind] at h
    exact mem_idsL_of_getElem? t.Kids i k hk q (ids_of_nodeAt? p k n h q hq)

/-- What distinct identities give at a child `k` between the siblings `a` and `b`
of a node with identity `i`. -/
theorem nodup_split (i : Nat) (a b : List Node) (k : Node)
    (h : (i :: Node.idsL (a ++ k :: b)).Nodup) :
    k.ids.Nodup ∧ ∀ q ∈ k.ids, q ≠ i ∧ q ∉ Node.idsL a ∧ q ∉ Node.idsL b := by
  rw [idsL_append, idsL_cons, List.nodup_cons] at h
  obtain ⟨hi, hn⟩ := h
  rw [List.nodup_append] at hn
  obtain ⟨_, hkb, hdis⟩ := hn
  rw [List.nodup_append] at hkb
  obtain ⟨hk, _, hdis2⟩ := hkb
  refine ⟨hk, fun q hq => ⟨?_, ?_, ?_⟩⟩
  · intro e; subst e; exact hi (by simp [hq])
  · intro hqa; exact hdis hqa (by simp [hq])
  · intro hqb; exact hdis2 hq hqb

theorem nodup_of_nodeAt? :
    ∀ (p : List Nat) (t n : Node), t.ids.Nodup → t.nodeAt? p = some n → n.ids.Nodup
  | [], t, n, hn, h => by
    simp only [Node.nodeAt?, Option.some.injEq] at h
    rw [← h]; exact hn
  | i :: p, t, n, hn, h => by
    rw [Node.srcAt?_cons] at h
    cases hk : t.Kids[i]? with
    | none => simp [hk] at h
    | some k =>
      simp only [hk, Option.some_bind] at h
      obtain ⟨a, b, hab, _⟩ := split_of_getElem? t.Kids i k hk
      rw [ids_eq, hab] at hn
      exact nodup_of_nodeAt? p k n (nodup_split t.id a b k hn).1 h

/-- With distinct identities, the node at a path is the node that its identity
refers to. -/
theorem find?_of_nodeAt? :
    ∀ (p : List Nat) (t n : Node), t.ids.Nodup → t.nodeAt? p = some n →
      t.find? n.id = some n
  | [], t, n, _, h => by
    simp only [Node.nodeAt?, Option.some.injEq] at h
    rw [← h]; exact find?_self t
  | i :: p, ⟨i0, nm, ty, ks⟩, n, hn, h => by
    rw [Node.srcAt?_cons] at h
    cases hk : ks[i]? with
    | none => simp [hk] at h
    | some k =>
      simp only [hk, Option.some_bind] at h
      obtain ⟨a, b, hab, _⟩ := split_of_getElem? ks i k hk
      subst hab
      simp only [Node.ids] at hn
      obtain ⟨hkn, hdis⟩ := nodup_split i0 a b k hn
      have hq := hdis n.id (ids_of_nodeAt? p k n h n.id (id_mem_ids n))
      have hi : ¬ i0 = n.id := fun e => hq.1 e.symm
      simp only [Node.find?, hi, if_false]
      rw [findL?_split n.id k b a hq.2.1 hq.2.2]
      exact find?_of_nodeAt? p k n hkn h

/-- With distinct identities, replacing the children of the node that an
identity refers to changes the node at its path and nothing else. -/
theorem setKids_of_nodeAt? (new : List Node) :
    ∀ (p : List Nat) (t n : Node), t.ids.Nodup → t.nodeAt? p = some n →
      t.setKids n.id new = Node.updateAt (fun x => { x with Kids := new }) p t
  | [], t, n, _, h => by
    simp only [Node.nodeAt?, Option.some.injEq] at h
    subst h
    cases t
    simp [Node.setKids, Node.updateAt]
  | i :: p, ⟨i0, nm, ty, ks⟩, n, hn, h => by
    rw [Node.srcAt?_cons] at h
    cases hk : ks[i]? with
    | none => simp [hk] at h
    | some k =>
      simp only [hk, Option.some_bind] at h
      obtain ⟨a, b, hab, hl⟩ := split_of_getElem? ks i k hk
      subst hab
      subst hl
      simp only [Node.ids] at hn
      obtain ⟨hkn, hdis⟩ := nodup_split i0 a b k hn
      have hq := hdis n.id (ids_of_nodeAt? p k n h n.id (id_mem_ids n))
      have hi : ¬ i0 = n.id := fun e => hq.1 e.symm
      simp only [Node.setKids, hi, if_false, Node.updateAt, modify_split]
      rw [setKidsL_split n.id new k b a hq.2.1 hq.2.2, setKids_of_nodeAt? new p k n hkn h]

/-- With distinct identities, `Delete()` on the child `j` of the node at the path
`pp` erases that child from the children of its parent and changes nothing
else. -/
theorem deleteId_of_nodeAt? (j : Nat) :
    ∀ (pp : List Nat) (t n : Node), t.ids.Nodup → t.nodeAt? (pp ++ [j]) = some n →
      t.deleteId n.id = Node.updateAt (fun x => { x with Kids := x.Kids.eraseIdx j }) pp t
  | [], ⟨i0, nm, ty, ks⟩, n, hn, h => by
    simp only [List.nil_append, Node.srcAt?_cons] at h
    cases hk : ks[j]? with
    | none => simp [hk] at h
    | some k =>
      simp only [hk, Option.some_bind, Node.nodeAt?, Option.some.injEq] at h
      subst h
      obtain ⟨a, b, hab, hl⟩ := split_of_getElem? ks j k hk
      subst hab
      subst hl
      simp only [Node.ids] at hn
      obtain ⟨_, hdis⟩ := nodup_split i0 a b k hn
      have hq := hdis k.id (id_mem_ids k)
      simp only [Node.deleteId, Node.updateAt, eraseIdx_split]
      rw [deleteIdL_split_self k b a hq.2.1 hq.2.2]
  | i :: pp, ⟨i0, nm, ty, ks⟩, n, hn, h => by
    rw [List.cons_append, Node.srcAt?_cons] at h
    cases hk : ks[i]? with
    | none => simp [hk] at h
    | some k =>
      simp only [hk, Option.some_bind] at h
      obtain ⟨a, b, hab, hl⟩ := split_of_getElem? ks i k hk
      subst hab
      subst hl
      simp only [Node.ids] at hn
      obtain ⟨hkn, hdis⟩ := nodup_split i0 a b k hn
      have hq := hdis n.id (ids_of_nodeAt? _ k n h n.id (id_mem_ids n))
      have hne : k.id ≠ n.id := by
        cases hpp : pp ++ [j] with
        | nil => simp at hpp
        | cons i1 p1 =>
          rw [hpp] at h
          have hmem := ids_of_nodeAt?_cons i1 p1 k n h n.id (id_mem_ids n)
          rw [ids_eq, List.nodup_cons] at hkn
          intro e
          exact hkn.1 (e ▸ hmem)
      simp only [Node.deleteId, Node.updateAt, modify_split]
      rw [deleteIdL_split n.id k b hne a hq.2.1 hq.2.2, deleteId_of_nodeAt? j pp k n hkn h]

theorem idxOf_none_split (q : Nat) (k : Node) (b : List Node) (hk : k.id ≠ q) :
    ∀ (a : List Node), q ∉ Node.idsL a → q ∉ Node.idsL b → idxOf q (a ++ k :: b) = none
  | [], _, hb => by simp [idxOf, hk, idxOf_not_mem q b hb]
  | x :: a, ha, hb => by
    simp only [Node.idsL, List.mem_append, not_or] at ha
    have hx : ¬ x.id = q := fun e => ha.1 (e ▸ id_mem_ids x)
    simp [idxOf, hx, idxOf_none_split q k b hk a ha.2 hb]

/-- With distinct identities, `Parent()` and `IndexInParent()` of the child `j`
of the node at a path are that node and `j`. -/
theorem parentOf?_of_nodeAt? (j : Nat) (n : Node) :
    ∀ (pp : List Nat) (t pn : Node), t.ids.Nodup → t.nodeAt? pp = some pn →
      pn.Kids[j]? = some n → t.parentOf? n.id = some (pn, j)
  | [], ⟨i0, nm, ty, ks⟩, pn, hn, h, hj => by
    simp only [Node.nodeAt?, Option.some.injEq] at h
    subst h
    obtain ⟨a, b, hab, hl⟩ := split_of_getElem? ks j n hj
    subst hab
    subst hl
    simp only [Node.ids] at hn
    obtain ⟨_, hdis⟩ := nodup_split i0 a b n hn
    have hq := hdis n.id (id_mem_ids n)
    simp only [Node.parentOf?, idxOf_split n b a hq.2.1]
  | i :: pp, ⟨i0, nm, ty, ks⟩, pn, hn, h, hj => by
    have hfull : Node.nodeAt? ⟨i0, nm, ty, ks⟩ ((i :: pp) ++ [j]) = some n := by
      rw [Node.srcAt?_snoc _ pn _ _ h]; exact hj
    rw [Node.srcAt?_cons] at h
    rw [List.cons_append, Node.srcAt?_cons] at hfull
    cases hk : ks[i]? with
    | none => simp [hk] at h
    | some k =>
      simp only [hk, Option.some_bind] at h hfull
      obtain ⟨a, b, hab, hl⟩ := split_of_getElem? ks i k hk
      subst hab
      subst hl
      simp only [Node.ids] at hn
      obtain ⟨hkn, hdis⟩ := nodup_split i0 a b k hn
      have hq := hdis n.id (ids_of_nodeAt? _ k n hfull n.id (id_mem_ids n))
      have hne : k.id ≠ n.id := by
        cases hpp : pp ++ [j] with
        | nil => simp at hpp
        | cons i1 p1 =>
          rw [hpp] at hfull
          have hmem := ids_of_nodeAt?_cons i1 p1 k n hfull n.id (id_mem_ids n)
          rw [ids_eq, List.nodup_cons] at hkn
          intro e
          exact hkn.1 (e ▸ hmem)
      simp only [Node.parentOf?, idxOf_none_split n.id k b hne a hq.2.1 hq.2.2]
      rw [parentOfL?_split n.id k b a hq.2.1 hq.2.2]
      exact parentOf?_of_nodeAt? j n pp k pn hkn h hj

/-! ## Theorems: a synchronised view, path by path -/

theorem MirrorsL_getElem? :
    ∀ (vs : List TreeView) (ss : List Node) (i : Nat), MirrorsL vs ss = true →
      (∀ x, vs[i]? = some x → ∃ n, ss[i]? = some n ∧ Mirrors x n = true) ∧
      (∀ n, ss[i]? = some n → ∃ x, vs[i]? = some x ∧ Mirrors x n = true)
  | [], [], i, _ => by simp
  | [], _ :: _, i, h => by simp [MirrorsL] at h
  | _ :: _, [], i, h => by simp [MirrorsL] at h
  | v :: vs, s :: ss, 0, h => by
    simp only [MirrorsL, Bool.and_eq_true] at h
    simp [h.1]
  | v :: vs, s :: ss, i + 1, h => by
    simp only [MirrorsL, Bool.and_eq_true] at h
    simpa using MirrorsL_getElem? vs ss i h.2

theorem MirrorsL_length :
    ∀ (vs : List TreeView) (ss : List Node), MirrorsL vs ss = true → vs.length = ss.length
  | [], [], _ => rfl
  | [], _ :: _, h => by simp [MirrorsL] at h
  | _ :: _, [], h => by simp [MirrorsL] at h
  | v :: vs, s :: ss, h => by
    simp only [MirrorsL, Bool.and_eq_true] at h
    simp [MirrorsL_length vs ss h.2]

theorem Mirrors_root (v : TreeView) (s : Node) (h : Mirrors v s = true) :
    v.Nm = "tv_" ++ s.Nm ∧ v.SyncNode = some s.id ∧ MirrorsL v.Kids s.Kids = true := by
  rw [Mirrors_eq] at h
  simp only [Bool.and_eq_true, beq_iff_eq] at h
  exact ⟨h.1.1, h.1.2, h.2⟩

/-- In a synchronised view, the view node at a path mirrors the source node at
the same path. -/
theorem Mirrors_nodeAt? :
    ∀ (p : List Nat) (v x : TreeView) (s : Node), Mirrors v s = true →
      v.nodeAt? p = some x → ∃ n, s.nodeAt? p = some n ∧ Mirrors x n = true
  | [], v, x, s, hm, h => by
    simp only [TreeView.nodeAt?, Option.some.injEq] at h
    subst h
    exact ⟨s, rfl, hm⟩
  | i :: p, v, x, s, hm, h => by
    rw [TreeView.nodeAt?_cons] at h
    cases hk : v.Kids[i]? with
    | none => simp [hk] at h
    | some k =>
      simp only [hk, Option.some_bind] at h
      obtain ⟨n0, hn0, hm0⟩ := (MirrorsL_getElem? v.Kids s.Kids i (Mirrors_root v s hm).2.2).1 k hk
      obtain ⟨n, hn, hmn⟩ := Mirrors_nodeAt? p k x n0 hm0 h
      exact ⟨n, by simp [Node.srcAt?_cons, hn0, hn], hmn⟩

/-- In a synchronised view, every source node has its view node at the same
path. -/
theorem Mirrors_nodeAt?_src :
    ∀ (p : List Nat) (v : TreeView) (s n : Node), Mirrors v s = true →
      s.nodeAt? p = some n → ∃ x, v.nodeAt? p = some x ∧ Mirrors x n = true
  | [], v, s, n, hm, h => by
    simp only [Node.nodeAt?, Option.some.injEq] at h
    subst h
    exact ⟨v, rfl, hm⟩
  | i :: p, v, s, n, hm, h => by
    rw [Node.srcAt?_cons] at h
    cases hk : s.Kids[i]? with
    | none => simp [hk] at h
    | some k =>
      simp only [hk, Option.some_bind] at h
      obtain ⟨x0, hx0, hm0⟩ := (MirrorsL_getElem? v.Kids s.Kids i (Mirrors_root v s hm).2.2).2 k hk
      obtain ⟨x, hx, hmx⟩ := Mirrors_nodeAt?_src p x0 k n hm0 h
      exact ⟨x, by simp [TreeView.nodeAt?_cons, hx0, hx], hmx⟩

/-- The facts about a non-root node of a synchronised view over a source tree
with distinct identities: the source node and the source parent are at the
same paths, the view nodes point to them, and the pointers lead back to
them. -/
theorem synced_node (w : World) (pp : List Nat) (k : Nat) (v : TreeView)
    (hm : Mirrors w.view w.src = true) (hn : w.src.ids.Nodup)
    (hv : w.view.nodeAt? (pp ++ [k]) = some v) :
    ∃ n pn tvp, w.src.nodeAt? (pp ++ [k]) = some n ∧ w.src.nodeAt? pp = some pn ∧
      pn.Kids[k]? = some n ∧ w.view.nodeAt? pp = some tvp ∧ tvp.Kids[k]? = some v ∧
      Mirrors v n = true ∧ Mirrors tvp pn = true ∧
      v.SyncNode = some n.id ∧ tvp.SyncNode = some pn.id ∧
      w.src.find? n.id = some n ∧ w.src.find? pn.id = some pn ∧
      w.src.parentOf? n.id = some (pn, k) ∧ w.view.SyncNode = some w.src.id := by
  obtain ⟨n, hsn, hmn⟩ := Mirrors_nodeAt? _ _ _ _ hm hv
  rw [TreeView.nodeAt?_append] at hv
  cases htvp : w.view.nodeAt? pp with
  | none => simp [htvp] at hv
  | some tvp =>
    obtain ⟨pn, hspn, hmp⟩ := Mirrors_nodeAt? _ _ _ _ hm htvp
    have hkv : tvp.Kids[k]? = some v := by
      rw [← TreeView.nodeAt?_snoc _ _ _ _ htvp, TreeView.nodeAt?_append]; exact hv
    have hkn : pn.Kids[k]? = some n := by
      rw [← Node.srcAt?_snoc _ _ _ _ hspn]; exact hsn
    exact ⟨n, pn, tvp, hsn, hspn, hkn, rfl, hkv, hmn, hmp, (Mirrors_root _ _ hmn).2.1,
      (Mirrors_root _ _ hmp).2.1, find?_of_nodeAt? _ _ _ hn hsn, find?_of_nodeAt? _ _ _ hn hspn,
      parentOf?_of_nodeAt? k n pp _ pn hn hspn hkn, (Mirrors_root _ _ hm).2.1⟩

/-- When the root view points to the root of the source tree, the
resynchronisation succeeds: the source is unchanged, the view mirrors it and
one resynchronisation is counted. -/
theorem SendChangeEventReSync_mirrors (w : World) (tv : List Nat)
    (hroot : w.view.SyncNode = some w.src.id) :
    ∃ w1, SendChangeEventReSync w tv = .ok w1 ∧ w1.src = w.src ∧ w1.nextId = w.nextId ∧
      w1.resyncs = w.resyncs + 1 ∧ w1.OpenDepth = w.OpenDepth ∧
      Mirrors w1.view w.src = true := by
  refine ⟨{ w with
      view := (SyncToSrcOn w.OpenDepth false false w.src w.view w.view.ViewIndex 0).1,
      changed := w.changed + (SyncToSrcOn w.OpenDepth false false w.src w.view w.view.ViewIndex 0).2.2,
      resyncs := w.resyncs + 1 }, ?_, rfl, rfl, rfl, rfl, ?_⟩
  · simp only [SendChangeEventReSync, ReSync, SyncToSrc, hroot, find?_self]
  · exact SyncToSrcOn_mirrors w.OpenDepth false w.src false w.view _ 0 hroot

theorem updateAt_SyncNode (f : TreeView → TreeView) (hf : ∀ x, (f x).SyncNode = x.SyncNode) :
    ∀ (p : List Nat) (t : TreeView), (TreeView.updateAt f p t).SyncNode = t.SyncNode
  | [], t => hf t
  | _ :: _, _ => rfl

theorem SelectAction_frame (w : World) (p : List Nat) :
    (SelectAction w p).src = w.src ∧ (SelectAction w p).nextId = w.nextId ∧
    (SelectAction w p).view.SyncNode = w.view.SyncNode := by
  refine ⟨rfl, rfl, ?_⟩
  simp only [SelectAction]
  rw [updateAt_SyncNode (fun x => { x with Selected := true }) (fun _ => rfl),
    (unselectAll_fields w.view).2.2.1]

theorem Close_frame (w : World) (p : List Nat) :
    (Close w p).src = w.src ∧ (Close w p).nextId = w.nextId ∧
    (Close w p).view.SyncNode = w.view.SyncNode :=
  ⟨rfl, rfl, updateAt_SyncNode (fun x => { x with Closed := true }) (fun _ => rfl) p w.view⟩

theorem MoveDown_frame (w : World) (p : List Nat) :
    (MoveDown w p).1.src = w.src ∧ (MoveDown w p).1.nextId = w.nextId ∧
    (MoveDown w p).1.view.SyncNode = w.view.SyncNode := by
  unfold MoveDown
  split
  · split
    · exact SelectAction_frame w _
    · exact ⟨rfl, rfl, rfl⟩
  · exact ⟨rfl, rfl, rfl⟩

theorem MoveUp_frame (w : World) (p : List Nat) :
    (MoveUp w p).1.src = w.src ∧ (MoveUp w p).1.nextId = w.nextId ∧
    (MoveUp w p).1.view.SyncNode = w.view.SyncNode := by
  unfold MoveUp
  split
  · split
    · exact SelectAction_frame w _
    · exact ⟨rfl, rfl, rfl⟩
  · exact ⟨rfl, rfl, rfl⟩

theorem deleteId_id (q : Nat) (t : Node) : (t.deleteId q).id = t.id := by
  cases t; simp [Node.deleteId]

/-! ## Theorems: a resynchronisation after the removal of one source node -/

/-- The selected names of a list of view trees, in pre-order. -/
theorem selectedL_append (a b : List TreeView) :
    ((TreeView.preorderL (a ++ b)).filter (fun v => v.Selected)).map (fun v => v.Nm) =
      ((TreeView.preorderL a).filter (fun v => v.Selected)).map (fun v => v.Nm) ++
        ((TreeView.preorderL b).filter (fun v => v.Selected)).map (fun v => v.Nm) := by
  rw [preorderL_append, List.filter_append, List.map_append]

theorem selectedL_cons (k : TreeView) (ks : List TreeView) :
    ((TreeView.preorderL (k :: ks)).filter (fun v => v.Selected)).map (fun v => v.Nm) =
      k.selectedNames ++
        ((TreeView.preorderL ks).filter (fun v => v.Selected)).map (fun v => v.Nm) := by
  simp only [TreeView.preorderL, List.filter_append, List.map_append, TreeView.selectedNames]

theorem selectedNames_eq (t : TreeView) :
    t.selectedNames = (if t.Selected then [t.Nm] else []) ++
      ((TreeView.preorderL t.Kids).filter (fun v => v.Selected)).map (fun v => v.Nm) := by
  simp only [TreeView.selectedNames]
  rw [selected_eq, List.map_append]
  cases t.Selected <;> rfl

mutual
/-- Views that consist of the same nodes have the same selected names. -/
theorem sameNodes_selectedNames :
    ∀ (a b : TreeView), sameNodes a b = true → a.selectedNames = b.selectedNames
  | ⟨nm, tx, vi, cl, se, sn, ks⟩, b, h => by
    rw [sameNodes_eq] at h
    simp only [Bool.and_eq_true, beq_iff_eq] at h
    rw [selectedNames_eq, selectedNames_eq b]
    have ih := sameNodesL_selectedNames ks b.Kids h.2
    simp only at h ih ⊢
    rw [ih, h.1.1.1.1, h.1.1.2]
theorem sameNodesL_selectedNames :
    ∀ (a b : List TreeView), sameNodesL a b = true →
      ((TreeView.preorderL a).filter (fun v => v.Selected)).map (fun v => v.Nm) =
        ((TreeView.preorderL b).filter (fun v => v.Selected)).map (fun v => v.Nm)
  | [], [], _ => rfl
  | [], _ :: _, h => by simp [sameNodesL] at h
  | _ :: _, [], h => by simp [sameNodesL] at h
  | x :: xs, y :: ys, h => by
    simp only [sameNodesL, Bool.and_eq_true] at h
    rw [selectedL_cons, selectedL_cons, sameNodes_selectedNames x y h.1,
      sameNodesL_selectedNames xs ys h.2]
end

/-- `takeByName` passes over the children with other names. -/
theorem takeByName_skip (nm : String) (y : TreeView) (rest : List TreeView) (hy : y.Nm = nm) :
    ∀ (pre : List TreeView), nm ∉ pre.map (fun k => k.Nm) →
      takeByName nm (pre ++ y :: rest) = some (y, pre ++ rest)
  | [], _ => by simp [takeByName, hy]
  | x :: pre, h => by
    simp only [List.map_cons, List.mem_cons, not_or] at h
    have hx : ¬ x.Nm = nm := fun e => h.1 e.symm
    have ih := takeByName_skip nm y rest hy pre h.2
    rw [List.cons_append]
    generalize pre ++ y :: rest = z at ih ⊢
    simp only [takeByName, hx, if_false, ih]
    rfl

/-- The pass of `ConfigChildren` over the names of children that are all there,
after children with other names: the children are kept and the others are
left over. -/
theorem configGo_skip :
    ∀ (b pre : List TreeView), (∀ y, y ∈ b → y.Nm ∉ pre.map (fun k => k.Nm)) →
      configGo (b.map (fun k => k.Nm)) (pre ++ b) = (b, false, pre)
  | [], pre, _ => by simp [configGo]
  | y :: b, pre, h => by
    have h1 := takeByName_skip y.Nm y b rfl pre (h y (List.mem_cons_self _ _))
    have h2 := configGo_skip b pre (fun z hz => h z (List.mem_cons_of_mem _ hz))
    simp only [List.map_cons, configGo, h1, h2]

theorem configGo_head :
    ∀ (a : List TreeView) (cfg : List String) (pool : List TreeView),
      configGo (a.map (fun k => k.Nm) ++ cfg) (a ++ pool) =
        (a ++ (configGo cfg pool).1, (configGo cfg pool).2.1, (configGo cfg pool).2.2)
  | [], cfg, pool => rfl
  | x :: a, cfg, pool => by
    have ih := configGo_head a cfg pool
    rw [List.map_cons, List.cons_append, List.cons_append]
    generalize a.map (fun k => k.Nm) ++ cfg = c at ih ⊢
    generalize a ++ pool = q at ih ⊢
    simp only [configGo, takeByName, if_true, ih]
    rfl

/-- `ConfigChildren` with the names of all children but one, whose name no later
child has: the other children are kept as they are, and the list is reported
as modified. -/
theorem ConfigChildren_erase (a b : List TreeView) (x : TreeView)
    (hx : x.Nm ∉ b.map (fun k => k.Nm)) :
    ConfigChildren (a ++ x :: b) ((a ++ b).map (fun k => k.Nm)) = (a ++ b, true) := by
  have h := configGo_skip b [x] (fun y hy e => by
    simp only [List.map_cons, List.map_nil, List.mem_singleton] at e
    exact hx (by rw [← e]; exact List.mem_map_of_mem _ hy))
  simp only [ConfigChildren, List.map_append, configGo_head, List.singleton_append] at h ⊢
  simp [h]

/-- The child loop on two lists that start with lists of the same length. -/
theorem syncKids_append (OD : Int) (init : Bool) :
    ∀ (a : List Node) (va : List TreeView) (rest : List Node) (vrest : List TreeView)
      (i d : Int), va.length = a.length →
      syncKids OD init (a ++ rest) (va ++ vrest) i d =
        ((syncKids OD init a va i d).1 ++
            (syncKids OD init rest vrest (syncKids OD init a va i d).2.1 d).1,
          (syncKids OD init rest vrest (syncKids OD init a va i d).2.1 d).2.1,
          (syncKids OD init a va i d).2.2 +
            (syncKids OD init rest vrest (syncKids OD init a va i d).2.1 d).2.2)
  | [], [], rest, vrest, i, d, _ => by simp [syncKids]
  | [], _ :: _, _, _, _, _, h => by simp at h
  | _ :: _, [], _, _, _, _, h => by simp at h
  | s :: a, v :: va, rest, vrest, i, d, h => by
    have ih := syncKids_append OD init a va rest vrest
      (SyncToSrcOn OD init true s { v with SyncNode := some s.id } i d).2.1 d (by simpa using h)
    rw [List.cons_append, List.cons_append]
    generalize a ++ rest = z at ih ⊢
    generalize va ++ vrest = vz at ih ⊢
    simp only [syncKids, ih, Nat.add_assoc, List.cons_append]

theorem MirrorsL_append :
    ∀ (va : List TreeView) (a : List Node) (vb : List TreeView) (b : List Node),
      va.length = a.length →
      (MirrorsL (va ++ vb) (a ++ b) = true ↔ MirrorsL va a = true ∧ MirrorsL vb b = true)
  | [], [], vb, b, _ => by simp [MirrorsL]
  | [], _ :: _, _, _, h => by simp at h
  | _ :: _, [], _, _, h => by simp at h
  | v :: va, s :: a, vb, b, h => by
    have ih := MirrorsL_append va a vb b (by simpa using h)
    rw [List.cons_append, List.cons_append]
    generalize va ++ vb = z at ih ⊢
    generalize a ++ b = y at ih ⊢
    simp only [MirrorsL, Bool.and_eq_true, ih, and_assoc]

theorem Node.updateAt_fields (f : Node → Node) (hf : ∀ x, (f x).id = x.id ∧ (f x).Nm = x.Nm) :
    ∀ (p : List Nat) (t : Node),
      (Node.updateAt f p t).id = t.id ∧ (Node.updateAt f p t).Nm = t.Nm
  | [], t => hf t
  | _ :: _, _ => ⟨rfl, rfl⟩

theorem Mirrors_set_SyncNode (v : TreeView) (s : Node) (h : Mirrors v s = true) :
    ({ v with SyncNode := some s.id } : TreeView) = v := by
  have hv := (Mirrors_root v s h).2.1
  cases v
  simp only [TreeView.mk.injEq, true_and, and_true]
  exact hv.symm

/-- A resynchronisation after the source node at the path `pp ++ [k]` has been
removed, in a view that mirrored the source tree, the view child `k` of the
view node at `pp` having a name that its siblings do not have: the selected
names are those of the view without that child, and exactly one
`TreeViewChanged` is issued (at the view node at `pp`). -/
theorem SyncToSrcOn_erase (OD : Int) (init : Bool) (k : Nat) :
    ∀ (pp : List Nat) (s : Node) (tv par : TreeView) (hp : Bool) (i d : Int),
      Mirrors tv s = true → tv.nodeAt? pp = some par → k < par.Kids.length →
      (par.Kids.map (fun x => x.Nm)).Nodup →
      (SyncToSrcOn OD init hp
          (Node.updateAt (fun x => { x with Kids := x.Kids.eraseIdx k }) pp s)
          tv i d).1.selectedNames =
        (TreeView.updateAt (fun x => { x with Kids := x.Kids.eraseIdx k }) pp tv).selectedNames ∧
      (SyncToSrcOn OD init hp
          (Node.updateAt (fun x => { x with Kids := x.Kids.eraseIdx k }) pp s) tv i d).2.2 = 1
  | [], ⟨id, nm, ty, ks⟩, tv, par, hp, i, d, hm, hpar, hk, hnd => by
    simp only [TreeView.nodeAt?, Option.some.injEq] at hpar
    subst hpar
    obtain ⟨hnm, _, hml⟩ := Mirrors_root _ _ hm
    simp only at hnm hml
    obtain ⟨va, vb, hab, hl⟩ := split_of_getElem? tv.Kids k _ (List.getElem?_eq_getElem hk)
    generalize tv.Kids[k] = x at hab
    have hks : k < ks.length := by rw [← MirrorsL_length _ _ hml]; exact hk
    obtain ⟨a, b, hab2, hl2⟩ := split_of_getElem? ks k _ (List.getElem?_eq_getElem hks)
    generalize ks[k] = n at hab2
    subst hab2
    rw [hab] at hml hnd
    have hml2 := (MirrorsL_append va a (x :: vb) (n :: b) (by rw [hl, hl2])).1 hml
    simp only [MirrorsL, Bool.and_eq_true] at hml2
    have hmab : MirrorsL (va ++ vb) (a ++ b) = true :=
      (MirrorsL_append va a vb b (by rw [hl, hl2])).2 ⟨hml2.1, hml2.2.2⟩
    have hxn : x.Nm ∉ vb.map (fun k => k.Nm) := by
      rw [List.map_append, List.map_cons] at hnd
      have := (List.nodup_append.1 hnd).2.1
      exact (List.nodup_cons.1 this).1
    have hcfg : ConfigChildren tv.Kids ((a ++ b).map (fun s => "tv_" ++ s.Nm)) =
        (va ++ vb, true) := by
      rw [← MirrorsL_names _ _ hmab, hab]
      exact ConfigChildren_erase va vb x hxn
    have he : (a ++ n :: b).eraseIdx k = a ++ b := by rw [← hl2]; exact eraseIdx_split a b n
    have hev : tv.Kids.eraseIdx k = va ++ vb := by rw [hab, ← hl]; exact eraseIdx_split va vb x
    have hf := SyncToSrcOn_fields OD init hp ⟨id, nm, ty, a ++ b⟩ tv i d
    have hst := syncKids_stable OD init (a ++ b) (va ++ vb) (i + 1) (d + 1) hmab
    simp only [hcfg] at hf
    simp only [Node.updateAt, he]
    constructor
    · rw [selectedNames_eq, hf.2.2.2.1, hf.1, hf.2.2.2.2.2.1,
        ← sameNodesL_selectedNames _ _ hst.2, selectedNames_eq (TreeView.updateAt _ [] tv)]
      simp only [TreeView.updateAt, hev, hnm]
    · rw [hf.2.2.2.2.2.2, hst.1]
      rfl
  | j :: p, ⟨id, nm, ty, ks⟩, tv, par, hp, i, d, hm, hpar, hk, hnd => by
    obtain ⟨hnm, _, hml⟩ := Mirrors_root _ _ hm
    simp only at hnm hml
    rw [TreeView.nodeAt?_cons] at hpar
    cases hvj : tv.Kids[j]? with
    | none => simp [hvj] at hpar
    | some vj =>
      simp only [hvj, Option.some_bind] at hpar
      obtain ⟨sj, hsj, hmj⟩ := (MirrorsL_getElem? tv.Kids ks j hml).1 vj hvj
      obtain ⟨va, vb, hab, hl⟩ := split_of_getElem? tv.Kids j vj hvj
      obtain ⟨a, b, hab2, hl2⟩ := split_of_getElem? ks j sj hsj
      subst hab2
      rw [hab] at hml
      have hml2 := (MirrorsL_append va a (vj :: vb) (sj :: b) (by rw [hl, hl2])).1 hml
      simp only [MirrorsL, Bool.and_eq_true] at hml2
      have hg := Node.updateAt_fields (fun x => { x with Kids := x.Kids.eraseIdx k })
        (fun _ => ⟨rfl, rfl⟩) p sj
      have hmod : (a ++ sj :: b).modify
          (Node.updateAt (fun x => { x with Kids := x.Kids.eraseIdx k }) p) j =
          a ++ Node.updateAt (fun x => { x with Kids := x.Kids.eraseIdx k }) p sj :: b := by
        rw [← hl2]; exact modify_split _ a b sj
      have hmodv : tv.Kids.modify
          (TreeView.updateAt (fun x => { x with Kids := x.Kids.eraseIdx k }) p) j =
          va ++ TreeView.updateAt (fun x => { x with Kids := x.Kids.eraseIdx k }) p vj :: vb := by
        rw [hab, ← hl]; exact modify_split _ va vb vj
      have hnames : (a ++ Node.updateAt (fun x => { x with Kids := x.Kids.eraseIdx k }) p sj :: b).map
          (fun s => "tv_" ++ s.Nm) = tv.Kids.map (fun k => k.Nm) := by
        rw [hab, MirrorsL_names _ _ hml]
        simp only [List.map_append, List.map_cons, hg.2]
      have hcfg := ConfigChildren_same tv.Kids _ hnames.symm
      have hf := SyncToSrcOn_fields OD init hp
        ⟨id, nm, ty, a ++ Node.updateAt (fun x => { x with Kids := x.Kids.eraseIdx k }) p sj :: b⟩
        tv i d
      simp only [hcfg] at hf
      have hsa := syncKids_stable OD init a va (i + 1) (d + 1) hml2.1
      have hvjs : ({ vj with SyncNode := some sj.id } : TreeView) = vj :=
        Mirrors_set_SyncNode vj sj hml2.2.1
      have ih := SyncToSrcOn_erase OD init k p sj vj par true
        (syncKids OD init a va (i + 1) (d + 1)).2.1 (d + 1) hml2.2.1 hpar hk hnd
      have hsb := syncKids_stable OD init b vb
        (SyncToSrcOn OD init true
          (Node.updateAt (fun x => { x with Kids := x.Kids.eraseIdx k }) p sj) vj
          (syncKids OD init a va (i + 1) (d + 1)).2.1 (d + 1)).2.1 (d + 1) hml2.2.2
      have hsk := syncKids_append OD init a va
        (Node.updateAt (fun x => { x with Kids := x.Kids.eraseIdx k }) p sj :: b) (vj :: vb)
        (i + 1) (d + 1) (by rw [hl, hl2])
      rw [← hab] at hsk
      simp only [syncKids, hg.1, hvjs] at hsk
      simp only [Node.updateAt, hmod]
      constructor
      · rw [selectedNames_eq, hf.2.2.2.1, hf.1, hf.2.2.2.2.2.1, hsk,
          selectedNames_eq (TreeView.updateAt _ (j :: p) tv)]
        simp only [TreeView.updateAt, hmodv, selectedL_append, selectedL_cons, ih.1,
          ← sameNodesL_selectedNames _ _ hsa.2, ← sameNodesL_selectedNames _ _ hsb.2, hnm]
      · rw [hf.2.2.2.2.2.2, hsk]
        simp only [hsa.1, ih.2, hsb.1]
        rfl

/-! ## Theorems: `DeleteNode` -/

/-- `DeleteNode` on a non-root node removes the node in the world in which the
selection has been moved. -/
theorem DeleteNode_eq (w : World) (pp : List Nat) (k : Nat) (v : TreeView)
    (hv : w.view.nodeAt? (pp ++ [k]) = some v) :
    DeleteNode w (pp ++ [k]) =
      (match v.SyncNode with
       | some sn =>
         SendChangeEventReSync
           { selectionMoved w (pp ++ [k]) with
             src := (selectionMoved w (pp ++ [k])).src.deleteId sn } (pp ++ [k])
       | none =>
         .ok (TreeViewChanged
           { selectionMoved w (pp ++ [k]) with
             view := TreeView.updateAt (fun x => { x with Kids := x.Kids.eraseIdx k }) pp
               (selectionMoved w (pp ++ [k])).view })) := by
  have hr : IsRoot (pp ++ [k]) = false := by simp [IsRoot]
  have hl : (pp ++ [k]).getLast? = some k := by simp
  have hd : (pp ++ [k]).dropLast = pp := by simp
  unfold DeleteNode
  rw [hr, hv, hl, hd]
  rfl

theorem selectionMoved_frame (w : World) (tv : List Nat) :
    (selectionMoved w tv).src = w.src ∧ (selectionMoved w tv).nextId = w.nextId ∧
    (selectionMoved w tv).view.SyncNode = w.view.SyncNode := by
  unfold selectionMoved
  split
  · exact ⟨(MoveDown_frame _ _).1.trans (Close_frame _ _).1,
      (MoveDown_frame _ _).2.1.trans (Close_frame _ _).2.1,
      (MoveDown_frame _ _).2.2.trans (Close_frame _ _).2.2⟩
  · exact ⟨(MoveUp_frame _ _).1.trans (Close_frame _ _).1,
      (MoveUp_frame _ _).2.1.trans (Close_frame _ _).2.1,
      (MoveUp_frame _ _).2.2.trans (Close_frame _ _).2.2⟩

theorem TreeView.updateAt_append (f : TreeView → TreeView) :
    ∀ (p q : List Nat) (t : TreeView),
      TreeView.updateAt f (p ++ q) t = TreeView.updateAt (TreeView.updateAt f q) p t
  | [], q, t => rfl
  | i :: p, q, t => by
    have : TreeView.updateAt f (p ++ q) = TreeView.updateAt (TreeView.updateAt f q) p :=
      funext (TreeView.updateAt_append f p q)
    show TreeView.updateAt f (i :: (p ++ q)) t = _
    simp only [TreeView.updateAt, this]

/-- The parent of an updated node: only its child at the index of the node
changes. -/
theorem TreeView.nodeAt?_updateAt_parent (f : TreeView → TreeView) (pp : List Nat) (k : Nat)
    (t par : TreeView) (hp : t.nodeAt? pp = some par) :
    (TreeView.updateAt f (pp ++ [k]) t).nodeAt? pp =
      some { par with Kids := par.Kids.modify f k } := by
  rw [TreeView.updateAt_append, TreeView.nodeAt?_updateAt, hp]
  rfl

/-- An update of the child `k` leaves the sibling at another index as it is. -/
theorem TreeView.nodeAt?_updateAt_sibling (f : TreeView → TreeView) (pp : List Nat) (k j : Nat)
    (t par : TreeView) (hp : t.nodeAt? pp = some par) (hjk : k ≠ j) :
    (TreeView.updateAt f (pp ++ [k]) t).nodeAt? (pp ++ [j]) = par.Kids[j]? := by
  rw [TreeView.nodeAt?_snoc _ _ _ _ (TreeView.nodeAt?_updateAt_parent f pp k t par hp)]
  exact List.getElem?_modify_ne f par.Kids hjk

theorem selected_modify_same (g : TreeView → TreeView) (a b : List TreeView) (k : TreeView)
    (h : ((g k).preorder.filter (fun v => v.Selected)).map (fun v => v.Nm) =
      (k.preorder.filter (fun v => v.Selected)).map (fun v => v.Nm)) :
    ((TreeView.preorderL (a ++ g k :: b)).filter (fun v => v.Selected)).map (fun v => v.Nm) =
      ((TreeView.preorderL (a ++ k :: b)).filter (fun v => v.Selected)).map (fun v => v.Nm) := by
  simp only [preorderL_append, TreeView.preorderL, List.filter_append, List.map_append, h]

/-- An update that keeps the name, the selection state and the children of the
node leaves the selection of the view as it is. -/
theorem selectedNames_updateAt (f : TreeView → TreeView)
    (hf : ∀ x, (f x).Nm = x.Nm ∧ (f x).Selected = x.Selected ∧ (f x).Kids = x.Kids) :
    ∀ (p : List Nat) (t : TreeView),
      (TreeView.updateAt f p t).selectedNames = t.selectedNames
  | [], t => by
    simp only [TreeView.updateAt, TreeView.selectedNames]
    rw [selected_eq (f t), selected_eq t, (hf t).2.1, (hf t).2.2]
    cases t.Selected <;> simp [(hf t).1]
  | i :: p, t => by
    simp only [TreeView.updateAt, TreeView.selectedNames]
    rw [selected_eq, selected_eq t]
    simp only [List.map_append]
    congr 1
    · cases t.Selected <;> rfl
    · cases hk : t.Kids[i]? with
      | none =>
        rw [List.modify_eq_self]
        simpa using hk
      | some k =>
        obtain ⟨a, b, hab, hl⟩ := split_of_getElem? t.Kids i k hk
        rw [hab, ← hl, modify_split]
        exact selected_modify_same _ a b k (selectedNames_updateAt f hf p k)

theorem Close_selectedNames (w : World) (tv : List Nat) :
    (Close w tv).view.selectedNames = w.view.selectedNames :=
  selectedNames_updateAt (fun x => { x with Closed := true }) (fun _ => ⟨rfl, rfl, rfl⟩) tv w.view

/-! ## Theorems: the selection step of `DeleteNode` -/

mutual
theorem Mirrors_unselectAll :
    ∀ (t : TreeView) (s : Node), Mirrors t s = true → Mirrors t.unselectAll s = true
  | ⟨nm, tx, vi, cl, se, sn, ks⟩, s, h => by
    rw [Mirrors_eq] at h ⊢
    simp only [Bool.and_eq_true, beq_iff_eq] at h ⊢
    exact ⟨h.1, MirrorsL_unselectAll ks s.Kids h.2⟩
theorem MirrorsL_unselectAll :
    ∀ (ts : List TreeView) (ss : List Node), MirrorsL ts ss = true →
      MirrorsL (TreeView.unselectAllL ts) ss = true
  | [], [], _ => rfl
  | [], _ :: _, h => by simp [MirrorsL] at h
  | _ :: _, [], h => by simp [MirrorsL] at h
  | t :: ts, s :: ss, h => by
    simp only [MirrorsL, Bool.and_eq_true] at h
    simp only [TreeView.unselectAllL, MirrorsL, Bool.and_eq_true]
    exact ⟨Mirrors_unselectAll t s h.1, MirrorsL_unselectAll ts ss h.2⟩
end

theorem MirrorsL_modify (g : TreeView → TreeView)
    (hg : ∀ x s, Mirrors x s = true → Mirrors (g x) s = true) :
    ∀ (ts : List TreeView) (ss : List Node) (i : Nat), MirrorsL ts ss = true →
      MirrorsL (ts.modify g i) ss = true
  | [], _, _, h => by simpa using h
  | _ :: _, [], _, h => by simp [MirrorsL] at h
  | t :: ts, s :: ss, 0, h => by
    simp only [MirrorsL, Bool.and_eq_true] at h
    simp only [List.modify_zero_cons, MirrorsL, Bool.and_eq_true]
    exact ⟨hg t s h.1, h.2⟩
  | t :: ts, s :: ss, i + 1, h => by
    simp only [MirrorsL, Bool.and_eq_true] at h
    simp only [List.modify_succ_cons, MirrorsL, Bool.and_eq_true]
    exact ⟨h.1, MirrorsL_modify g hg ts ss i h.2⟩

/-- An update of a view node that keeps its name, its sync node and its children
keeps the view a mirror of the source tree. -/
theorem Mirrors_updateAt (f : TreeView → TreeView)
    (hf : ∀ x, (f x).Nm = x.Nm ∧ (f x).SyncNode = x.SyncNode ∧ (f x).Kids = x.Kids) :
    ∀ (p : List Nat) (t : TreeView) (s : Node), Mirrors t s = true →
      Mirrors (TreeView.updateAt f p t) s = true
  | [], t, s, h => by
    rw [Mirrors_eq] at h ⊢
    simp only [TreeView.updateAt, (hf t).1, (hf t).2.1, (hf t).2.2]
    exact h
  | i :: p, t, s, h => by
    rw [Mirrors_eq] at h ⊢
    simp only [Bool.and_eq_true, beq_iff_eq] at h ⊢
    exact ⟨h.1, MirrorsL_modify _ (fun x s hx => Mirrors_updateAt f hf p x s hx) t.Kids s.Kids i h.2⟩

theorem map_Nm_modify (g : TreeView → TreeView) (hg : ∀ x, (g x).Nm = x.Nm) :
    ∀ (ts : List TreeView) (i : Nat),
      (ts.modify g i).map (fun x => x.Nm) = ts.map (fun x => x.Nm)
  | [], _ => by simp
  | t :: ts, 0 => by simp [hg t]
  | t :: ts, i + 1 => by simp [map_Nm_modify g hg ts i]

/-- Removing a view child in whose subtree nothing is selected leaves the
selection of the view as it is. -/
theorem selectedNames_erase (k : Nat) :
    ∀ (pp : List Nat) (t vk : TreeView), t.nodeAt? (pp ++ [k]) = some vk →
      vk.selectedNames = [] →
      (TreeView.updateAt (fun x => { x with Kids := x.Kids.eraseIdx k }) pp t).selectedNames =
        t.selectedNames
  | [], t, vk, h, hs => by
    have hk : t.Kids[k]? = some vk := by
      rw [← TreeView.nodeAt?_snoc t t [] k rfl]; exact h
    obtain ⟨a, b, hab, hl⟩ := split_of_getElem? t.Kids k vk hk
    rw [selectedNames_eq, selectedNames_eq t]
    simp only [TreeView.updateAt]
    rw [hab, ← hl, eraseIdx_split, selectedL_append, selectedL_append, selectedL_cons, hs,
      List.nil_append]
  | j :: p, t, vk, h, hs => by
    rw [List.cons_append, TreeView.nodeAt?_cons] at h
    cases hc : t.Kids[j]? with
    | none => simp [hc] at h
    | some c =>
      simp only [hc, Option.some_bind] at h
      obtain ⟨a, b, hab, hl⟩ := split_of_getElem? t.Kids j c hc
      have ih := selectedNames_erase k p c vk h hs
      rw [selectedNames_eq, selectedNames_eq t]
      simp only [TreeView.updateAt]
      rw [hab, ← hl, modify_split, selectedL_append, selectedL_append, selectedL_cons,
        selectedL_cons, ih]

/-- The view after `Close` on the child `k` and `SelectAction` on its sibling
`j`: the parent view still has children with the same names, nothing is
selected in the subtree of the child `k`, and the view still mirrors the
source tree when it did before. -/
theorem SelectAction_Close_spec (w : World) (pp : List Nat) (k j : Nat) (par vk : TreeView)
    (hp : w.view.nodeAt? pp = some par) (hk : par.Kids[k]? = some vk) (hjk : j ≠ k) :
    (∃ par2, (SelectAction (Close w (pp ++ [k])) (pp ++ [j])).view.nodeAt? pp = some par2 ∧
      par2.Kids.map (fun x => x.Nm) = par.Kids.map (fun x => x.Nm)) ∧
    (∃ vk2, (SelectAction (Close w (pp ++ [k])) (pp ++ [j])).view.nodeAt? (pp ++ [k]) = some vk2 ∧
      vk2.selectedNames = []) ∧
    (∀ s, Mirrors w.view s = true →
      Mirrors (SelectAction (Close w (pp ++ [k])) (pp ++ [j])).view s = true) := by
  have hcp : (Close w (pp ++ [k])).view.nodeAt? pp =
      some { par with Kids := par.Kids.modify (fun x => { x with Closed := true }) k } :=
    TreeView.nodeAt?_updateAt_parent (fun x => { x with Closed := true }) pp k w.view par hp
  have hup : (Close w (pp ++ [k])).view.unselectAll.nodeAt? pp =
      some ({ par with Kids := par.Kids.modify (fun x => { x with Closed := true }) k } :
        TreeView).unselectAll := by
    rw [unselectAll_nodeAt?, hcp]; rfl
  have hku : (({ par with Kids := par.Kids.modify (fun x => { x with Closed := true }) k } :
      TreeView).unselectAll).Kids =
      (par.Kids.modify (fun x => { x with Closed := true }) k).map TreeView.unselectAll :=
    (unselectAll_fields _).2.2.2
  refine ⟨⟨_, TreeView.nodeAt?_updateAt_parent _ pp j _ _ hup, ?_⟩, ?_, ?_⟩
  · simp only [hku]
    rw [map_Nm_modify (fun x => { x with Selected := true }) (fun _ => rfl), List.map_map]
    have : ((fun (x : TreeView) => x.Nm) ∘ TreeView.unselectAll) = (fun x => x.Nm) :=
      funext (fun x => (unselectAll_fields x).1)
    rw [this, map_Nm_modify (fun x => { x with Closed := true }) (fun _ => rfl)]
  · refine ⟨({ vk with Closed := true } : TreeView).unselectAll, ?_, ?_⟩
    · show (TreeView.updateAt _ (pp ++ [j]) _).nodeAt? (pp ++ [k]) = _
      rw [TreeView.nodeAt?_updateAt_sibling _ pp j k _ _ hup hjk, hku, List.getElem?_map,
        List.getElem?_modify_eq, hk]
      rfl
    · exact congrArg (List.map (fun v => v.Nm)) (unselectAll_selected _)
  · intro s hm
    exact Mirrors_updateAt (fun x => { x with Selected := true }) (fun _ => ⟨rfl, rfl, rfl⟩)
      (pp ++ [j]) _ s
      (Mirrors_unselectAll _ s
        (Mirrors_updateAt (fun x => { x with Closed := true }) (fun _ => ⟨rfl, rfl, rfl⟩)
          (pp ++ [k]) w.view s hm))

/-- The selection step of `DeleteNode` on the child `k` of the view node `par`:
`SelectAction` on the next sibling after `Close`, or on the previous sibling
when there is no next one. -/
theorem selectionMoved_eq (w : World) (pp : List Nat) (k : Nat) (par : TreeView)
    (hp : w.view.nodeAt? pp = some par) :
    (∀ nxt, par.Kids[k + 1]? = some nxt →
      selectionMoved w (pp ++ [k]) = SelectAction (Close w (pp ++ [k])) (pp ++ [k + 1])) ∧
    (par.Kids[k + 1]? = none → ∀ prv, 0 < k → par.Kids[k - 1]? = some prv →
      selectionMoved w (pp ++ [k]) = SelectAction (Close w (pp ++ [k])) (pp ++ [k - 1])) ∧
    (par.Kids[k + 1]? = none → k = 0 → selectionMoved w (pp ++ [k]) = Close w (pp ++ [k])) := by
  have hl : (pp ++ [k]).getLast? = some k := by simp
  have hd : (pp ++ [k]).dropLast = pp := by simp
  have hcp : (Close w (pp ++ [k])).view.nodeAt? pp =
      some { par with Kids := par.Kids.modify (fun x => { x with Closed := true }) k } :=
    TreeView.nodeAt?_updateAt_parent (fun x => { x with Closed := true }) pp k w.view par hp
  refine ⟨?_, ?_, ?_⟩
  · intro nxt hnxt
    have hlt : k + 1 < par.Kids.length := by
      rcases Nat.lt_or_ge (k + 1) par.Kids.length with h | h
      · exact h
      · rw [List.getElem?_eq_none h] at hnxt; cases hnxt
    have hmd : MoveDown (Close w (pp ++ [k])) (pp ++ [k]) =
        (SelectAction (Close w (pp ++ [k])) (pp ++ [k + 1]), true) := by
      simp only [MoveDown, hl, hd, hcp, List.length_modify, hlt, if_true]
    simp only [selectionMoved, hmd, if_true]
  · intro hnone prv hk hprv
    have hge : ¬ k + 1 < par.Kids.length := by
      intro h
      rw [List.getElem?_eq_getElem h] at hnone; cases hnone
    have hmd : MoveDown (Close w (pp ++ [k])) (pp ++ [k]) = (Close w (pp ++ [k]), false) := by
      simp only [MoveDown, hl, hd, hcp, List.length_modify, hge, if_false]
    have hmu : MoveUp (Close w (pp ++ [k])) (pp ++ [k]) =
        (SelectAction (Close w (pp ++ [k])) (pp ++ [k - 1]), true) := by
      simp only [MoveUp, hl, hd, hcp, hk, if_true]
    simp only [selectionMoved, hmd, hmu, Bool.false_eq_true, if_false]
  · intro hnone hk
    have hge : ¬ k + 1 < par.Kids.length := by
      intro h
      rw [List.getElem?_eq_getElem h] at hnone; cases hnone
    have hmd : MoveDown (Close w (pp ++ [k])) (pp ++ [k]) = (Close w (pp ++ [k]), false) := by
      simp only [MoveDown, hl, hd, hcp, List.length_modify, hge, if_false]
    have hmu : MoveUp (Close w (pp ++ [k])) (pp ++ [k]) = (Close w (pp ++ [k]), false) := by
      have hk0 : ¬ 0 < k := by omega
      simp only [MoveUp, hl, hd, hcp, hk0, if_false]
    simp only [selectionMoved, hmd, hmu, Bool.false_eq_true, if_false]

/-- The node that `DeleteNode` is about to remove is still in the view after
the selection step. -/
theorem selectionMoved_keeps_node (w : World) (pp : List Nat) (k : Nat) (v par : TreeView)
    (hv : w.view.nodeAt? (pp ++ [k]) = some v) (hp : w.view.nodeAt? pp = some par) :
    ∃ x, (selectionMoved w (pp ++ [k])).view.nodeAt? (pp ++ [k]) = some x := by
  have hkv : par.Kids[k]? = some v := by
    rw [← TreeView.nodeAt?_snoc _ _ _ _ hp]; exact hv
  have heq := selectionMoved_eq w pp k par hp
  cases hn : par.Kids[k + 1]? with
  | some nxt =>
    rw [heq.1 nxt hn]
    obtain ⟨x, hx, _⟩ := (SelectAction_Close_spec w pp k (k + 1) par v hp hkv (by omega)).2.1
    exact ⟨x, hx⟩
  | none =>
    rcases Nat.eq_zero_or_pos k with hk | hk
    · rw [heq.2.2 hn hk]
      exact ⟨_, by
        show (TreeView.updateAt _ (pp ++ [k]) w.view).nodeAt? (pp ++ [k]) = _
        rw [TreeView.nodeAt?_updateAt, hv]; rfl⟩
    · have hlt : k - 1 < par.Kids.length := by
        have : k < par.Kids.length := by
          rcases Nat.lt_or_ge k par.Kids.length with h | h
          · exact h
          · rw [List.getElem?_eq_none h] at hkv; cases hkv
        omega
      rw [heq.2.1 hn _ hk (List.getElem?_eq_getElem hlt)]
      obtain ⟨x, hx, _⟩ := (SelectAction_Close_spec w pp k (k - 1) par v hp hkv (by omega)).2.1
      exact ⟨x, hx⟩

/-- `DeleteNode` on the child `k` of the view node `par`, when its selection step
selects the sibling `j`: the final state.  For a node without a sync node the
sibling is the only selected node afterwards and one `TreeViewChanged` is
issued.  In a synchronised view whose source tree has distinct identities, the
children of `par` having distinct names, the sibling is the only selected node
after the resynchronisation, which is issued once and issues one
`TreeViewChanged` (at the parent view, whose child list changes). -/
theorem DeleteNode_selects (w : World) (pp : List Nat) (k j : Nat) (v par sib : TreeView)
    (hv : w.view.nodeAt? (pp ++ [k]) = some v) (hp : w.view.nodeAt? pp = some par)
    (hj : par.Kids[j]? = some sib) (hjk : j ≠ k)
    (hsel : selectionMoved w (pp ++ [k]) = SelectAction (Close w (pp ++ [k])) (pp ++ [j])) :
    (selectionMoved w (pp ++ [k])).view.selectedNames = [sib.Nm] ∧
    (v.SyncNode = none →
      ∃ w1, DeleteNode w (pp ++ [k]) = .ok w1 ∧ w1.view.selectedNames = [sib.Nm] ∧
        w1.changed = w.changed + 1 ∧ w1.resyncs = w.resyncs) ∧
    (Mirrors w.view w.src = true → w.src.ids.Nodup → (par.Kids.map (fun x => x.Nm)).Nodup →
      ∃ w1, DeleteNode w (pp ++ [k]) = .ok w1 ∧ w1.view.selectedNames = [sib.Nm] ∧
        w1.changed = w.changed + 1 ∧ w1.resyncs = w.resyncs + 1) := by
  have hkv : par.Kids[k]? = some v := by
    rw [← TreeView.nodeAt?_snoc _ _ _ _ hp]; exact hv
  have hklt : k < par.Kids.length := by
    rcases Nat.lt_or_ge k par.Kids.length with h | h
    · exact h
    · rw [List.getElem?_eq_none h] at hkv; cases hkv
  obtain ⟨⟨par2, hpar2, hnames⟩, ⟨vk2, hvk2, hnosel⟩, hmir⟩ :=
    SelectAction_Close_spec w pp k j par v hp hkv hjk
  have hsn : (SelectAction (Close w (pp ++ [k])) (pp ++ [j])).view.selectedNames = [sib.Nm] :=
    SelectAction_selectedNames _ _ sib (by
      rw [show (Close w (pp ++ [k])).view.nodeAt? (pp ++ [j]) = par.Kids[j]? from
        TreeView.nodeAt?_updateAt_sibling _ pp k j w.view par hp (Ne.symm hjk), hj])
  have her := selectedNames_erase k pp _ vk2 hvk2 hnosel
  refine ⟨by rw [hsel]; exact hsn, ?_, ?_⟩
  · intro hs
    refine ⟨_, by rw [DeleteNode_eq w pp k v hv, hs], ?_, ?_, ?_⟩
    · show (TreeView.updateAt _ pp (selectionMoved w (pp ++ [k])).view).selectedNames = _
      rw [hsel, her, hsn]
    · show (selectionMoved w (pp ++ [k])).changed + 1 = _
      rw [hsel]; rfl
    · show (selectionMoved w (pp ++ [k])).resyncs = _
      rw [hsel]; rfl
  · intro hm hn hnd
    obtain ⟨n, pn, tvp, hsnn, hspn, hkn, htvp, _, hmn, hmp, hvs, hps, hfn, hfp, hparent, hroot⟩ :=
      synced_node w pp k v hm hn hv
    have hdel : w.src.deleteId n.id =
        Node.updateAt (fun x => { x with Kids := x.Kids.eraseIdx k }) pp w.src :=
      deleteId_of_nodeAt? k pp w.src n hn hsnn
    have hlen : par2.Kids.length = par.Kids.length := by
      have := congrArg List.length hnames
      simpa using this
    have he := SyncToSrcOn_erase w.OpenDepth false k pp w.src
      (SelectAction (Close w (pp ++ [k])) (pp ++ [j])).view par2 false
      (SelectAction (Close w (pp ++ [k])) (pp ++ [j])).view.ViewIndex 0
      (hmir w.src hm) hpar2 (by rw [hlen]; exact hklt) (by rw [hnames]; exact hnd)
    have hroot2 : (SelectAction (Close w (pp ++ [k])) (pp ++ [j])).view.SyncNode =
        some (Node.updateAt (fun x => { x with Kids := x.Kids.eraseIdx k }) pp w.src).id := by
      rw [← hdel, deleteId_id, ← hroot, ← hsel]
      exact (selectionMoved_frame w (pp ++ [k])).2.2
    have hre : DeleteNode w (pp ++ [k]) = .ok
        { SelectAction (Close w (pp ++ [k])) (pp ++ [j]) with
          src := Node.updateAt (fun x => { x with Kids := x.Kids.eraseIdx k }) pp w.src,
          view := (SyncToSrcOn w.OpenDepth false false
            (Node.updateAt (fun x => { x with Kids := x.Kids.eraseIdx k }) pp w.src)
            (SelectAction (Close w (pp ++ [k])) (pp ++ [j])).view
            (SelectAction (Close w (pp ++ [k])) (pp ++ [j])).view.ViewIndex 0).1,
          changed := w.changed + (SyncToSrcOn w.OpenDepth false false
            (Node.updateAt (fun x => { x with Kids := x.Kids.eraseIdx k }) pp w.src)
            (SelectAction (Close w (pp ++ [k])) (pp ++ [j])).view
            (SelectAction (Close w (pp ++ [k])) (pp ++ [j])).view.ViewIndex 0).2.2,
          resyncs := w.resyncs + 1 } := by
      rw [DeleteNode_eq w pp k v hv, hvs, hsel]
      show SendChangeEventReSync { SelectAction (Close w (pp ++ [k])) (pp ++ [j]) with
        src := w.src.deleteId n.id } (pp ++ [k]) = _
      rw [hdel]
      simp only [SendChangeEventReSync, ReSync, SyncToSrc, hroot2, find?_self]
      rfl
    refine ⟨_, hre, ?_, ?_, rfl⟩
    · show (SyncToSrcOn _ _ _ _ _ _ _).1.selectedNames = _
      rw [he.1, her, hsn]
    · show w.changed + (SyncToSrcOn _ _ _ _ _ _ _).2.2 = _
      rw [he.2]

/-- `DeleteNode` on a non-root node of a synchronised view succeeds. -/
theorem DeleteNode_synced_ok (w : World) (pp : List Nat) (k : Nat) (v : TreeView)
    (hm : Mirrors w.view w.src = true) (hn : w.src.ids.Nodup)
    (hv : w.view.nodeAt? (pp ++ [k]) = some v) :
    ∃ w1, DeleteNode w (pp ++ [k]) = .ok w1 := by
  obtain ⟨n, pn, tvp, hsn, hspn, hkn, htvp, hkv, hmn, hmp, hvs, hps, hfn, hfp, hpar, hroot⟩ :=
    synced_node w pp k v hm hn hv
  have hfr := selectionMoved_frame w (pp ++ [k])
  obtain ⟨w1, hre, _⟩ := SendChangeEventReSync_mirrors
    { selectionMoved w (pp ++ [k]) with
      src := (selectionMoved w (pp ++ [k])).src.deleteId n.id } (pp ++ [k])
    (by simp only [hfr.2.2, hroot, deleteId_id, hfr.1])
  exact ⟨w1, by rw [DeleteNode_eq w pp k v hv, hvs]; exact hre⟩

/-! ## Claims on `DeleteNode` -/

/-- C11 (counterexample): in the view of `{A: [B, C]}` nothing is selected, so
`tv_B` is not the current selection; `DeleteNode` on `tv_B` nevertheless moves
the selection: afterwards `tv_C` is the selected node. -/
theorem C11_selection_moves_from_unselected_node :
    worldABC.view.selectedNames = [] ∧
    ∃ w1, DeleteNode worldABC [0] = .ok w1 ∧ w1.view.selectedNames = ["tv_C"] :=
  ⟨by decide, _, rfl, by decide⟩

/-- C11 (amended): `DeleteNode` on a non-root view node moves the selection,
whether or not that node is the current selection: to its next sibling, or to
its previous sibling when there is no next one.  This happens before the
removal: the removal (the deletion of the sync node followed by the
resynchronisation, or the removal of the view child followed by
`TreeViewChanged`) starts from a world `w2` with the source tree untouched and
the node still in the view, in which that sibling is the only selected node.
When `DeleteNode` has returned, that sibling is the only selected node: for a
node without a sync node, and, after the resynchronisation, in a synchronised
view (the source tree having distinct identities and the children of the view
parent distinct names). -/
theorem C11_delete_moves_selection_first (w : World) (pp : List Nat) (k : Nat)
    (v par : TreeView) (hv : w.view.nodeAt? (pp ++ [k]) = some v)
    (hp : w.view.nodeAt? pp = some par) :
    (∃ w2 : World, w2.src = w.src ∧ (∃ x, w2.view.nodeAt? (pp ++ [k]) = some x) ∧
      (∀ nxt, par.Kids[k + 1]? = some nxt → w2.view.selectedNames = [nxt.Nm]) ∧
      (par.Kids[k + 1]? = none → ∀ prv, 0 < k → par.Kids[k - 1]? = some prv →
        w2.view.selectedNames = [prv.Nm]) ∧
      DeleteNode w (pp ++ [k]) =
        (match v.SyncNode with
         | some sn => SendChangeEventReSync { w2 with src := w2.src.deleteId sn } (pp ++ [k])
         | none =>
           .ok (TreeViewChanged { w2 with
             view := TreeView.updateAt (fun x => { x with Kids := x.Kids.eraseIdx k }) pp
               w2.view }))) ∧
    (v.SyncNode = none →
      ∃ w1, DeleteNode w (pp ++ [k]) = .ok w1 ∧
        (∀ nxt, par.Kids[k + 1]? = some nxt → w1.view.selectedNames = [nxt.Nm]) ∧
        (par.Kids[k + 1]? = none → ∀ prv, 0 < k → par.Kids[k - 1]? = some prv →
          w1.view.selectedNames = [prv.Nm])) ∧
    (Mirrors w.view w.src = true → w.src.ids.Nodup → (par.Kids.map (fun x => x.Nm)).Nodup →
      ∃ w1, DeleteNode w (pp ++ [k]) = .ok w1 ∧
        (∀ nxt, par.Kids[k + 1]? = some nxt → w1.view.selectedNames = [nxt.Nm]) ∧
        (par.Kids[k + 1]? = none → ∀ prv, 0 < k → par.Kids[k - 1]? = some prv →
          w1.view.selectedNames = [prv.Nm])) := by
  have heq := selectionMoved_eq w pp k par hp
  have hdn := fun nxt (h : par.Kids[k + 1]? = some nxt) =>
    DeleteNode_selects w pp k (k + 1) v par nxt hv hp h (by omega) (heq.1 nxt h)
  have hup := fun (h0 : par.Kids[k + 1]? = none) prv (hk : 0 < k)
      (h : par.Kids[k - 1]? = some prv) =>
    DeleteNode_selects w pp k (k - 1) v par prv hv hp h (by omega) (heq.2.1 h0 prv hk h)
  refine ⟨⟨selectionMoved w (pp ++ [k]), (selectionMoved_frame w (pp ++ [k])).1,
    selectionMoved_keeps_node w pp k v par hv hp, fun nxt h => (hdn nxt h).1,
    fun h0 prv hk h => (hup h0 prv hk h).1, DeleteNode_eq w pp k v hv⟩, ?_, ?_⟩
  · intro hs
    refine ⟨_, by rw [DeleteNode_eq w pp k v hv, hs], ?_, ?_⟩
    · intro nxt h
      obtain ⟨w1, h1, h2, _⟩ := (hdn nxt h).2.1 hs
      rw [DeleteNode_eq w pp k v hv, hs] at h1
      cases h1
      exact h2
    · intro h0 prv hk h
      obtain ⟨w1, h1, h2, _⟩ := (hup h0 prv hk h).2.1 hs
      rw [DeleteNode_eq w pp k v hv, hs] at h1
      cases h1
      exact h2
  · intro hm hn hnd
    obtain ⟨w1, hdel⟩ := DeleteNode_synced_ok w pp k v hm hn hv
    refine ⟨w1, hdel, ?_, ?_⟩
    · intro nxt h
      obtain ⟨w3, h1, h2, _⟩ := (hdn nxt h).2.2 hm hn hnd
      rw [hdel] at h1
      cases h1
      exact h2
    · intro h0 prv hk h
      obtain ⟨w3, h1, h2, _⟩ := (hup h0 prv hk h).2.2 hm hn hnd
      rw [hdel] at h1
      cases h1
      exact h2

/-- C11 (witness): `DeleteNode` on `tv_B` in the synchronised view of
`{A: [B, C]}`, where nothing is selected: the next sibling `tv_C` is the
selected node afterwards; and `DeleteNode` on the last child `y` of a view
without sync nodes: the previous sibling `x` is the selected node afterwards. -/
theorem C11_delete_moves_selection_first_witness :
    worldABC.view.nodeAt? ([] ++ [0]) = some tvB ∧ worldABC.view.nodeAt? [] = some viewABC ∧
    Mirrors worldABC.view worldABC.src = true ∧ worldABC.src.ids.Nodup ∧
    (viewABC.Kids.map (fun x => x.Nm)).Nodup ∧ worldABC.view.selectedNames = [] ∧
    (∃ w1, DeleteNode worldABC ([] ++ [0]) = .ok w1 ∧ w1.view.selectedNames = ["tv_C"]) ∧
    worldPlain.view.nodeAt? ([] ++ [1]) = some plainY ∧ plainY.SyncNode = none ∧
    (∃ w1, DeleteNode worldPlain ([] ++ [1]) = .ok w1 ∧ w1.view.selectedNames = ["x"]) := by
  obtain ⟨w1, h1, h2, _⟩ := (C11_delete_moves_selection_first worldABC [] 0 tvB viewABC
    rfl rfl).2.2 (by decide) (by decide) (by decide)
  obtain ⟨w3, h3, _, h4⟩ := (C11_delete_moves_selection_first worldPlain [] 1 plainY viewPlain
    rfl rfl).2.1 rfl
  exact ⟨rfl, rfl, by decide, by decide, by decide, by decide, ⟨w1, h1, h2 tvC rfl⟩,
    rfl, rfl, ⟨w3, h3, h4 rfl plainX (by decide) rfl⟩⟩

/-- C12: `DeleteNode` on a non-root node of a synchronised view (the source
tree having distinct node identities) succeeds, removes exactly the source
node of the view node, with its subtree, from the children of the source
parent and changes nothing else in the source tree; the remaining children
keep their order, and after the resynchronisation the view mirrors the
source tree, so the children of the view parent mirror the remaining source
children. -/
theorem C12_delete_removes_source_node (w : World) (pp : List Nat) (k : Nat) (v : TreeView)
    (hm : Mirrors w.view w.src = true) (hn : w.src.ids.Nodup)
    (hv : w.view.nodeAt? (pp ++ [k]) = some v) :
    ∃ n pn w1 tvp, w.src.nodeAt? (pp ++ [k]) = some n ∧ w.src.nodeAt? pp = some pn ∧
      v.SyncNode = some n.id ∧
      DeleteNode w (pp ++ [k]) = .ok w1 ∧
      w1.src = Node.updateAt (fun x => { x with Kids := x.Kids.eraseIdx k }) pp w.src ∧
      w1.src.nodeAt? pp = some { pn with Kids := pn.Kids.eraseIdx k } ∧
      Mirrors w1.view w1.src = true ∧
      w1.view.nodeAt? pp = some tvp ∧ MirrorsL tvp.Kids (pn.Kids.eraseIdx k) = true := by
  obtain ⟨n, pn, tvp, hsn, hspn, hkn, htvp, hkv, hmn, hmp, hvs, hps, hfn, hfp, hpar, hroot⟩ :=
    synced_node w pp k v hm hn hv
  have hfr := selectionMoved_frame w (pp ++ [k])
  obtain ⟨w1, hre, hsrc, _, _, _, hmir⟩ := SendChangeEventReSync_mirrors
    { selectionMoved w (pp ++ [k]) with
      src := (selectionMoved w (pp ++ [k])).src.deleteId n.id } (pp ++ [k])
    (by simp only [hfr.2.2, hroot, deleteId_id, hfr.1])
  have hsrc1 : w1.src =
      Node.updateAt (fun x => { x with Kids := x.Kids.eraseIdx k }) pp w.src := by
    rw [hsrc]
    simp only [hfr.1]
    exact deleteId_of_nodeAt? k pp w.src n hn hsn
  have hat : w1.src.nodeAt? pp = some { pn with Kids := pn.Kids.eraseIdx k } := by
    rw [hsrc1, Node.srcAt?_updateAt, hspn]; rfl
  have hmir1 : Mirrors w1.view w1.src = true := by rw [hsrc]; exact hmir
  obtain ⟨tvp1, htvp1, hmp1⟩ := Mirrors_nodeAt?_src pp w1.view w1.src _ hmir1 hat
  refine ⟨n, pn, w1, tvp1, hsn, hspn, hvs, ?_, hsrc1, hat, hmir1, htvp1,
    (Mirrors_root _ _ hmp1).2.2⟩
  rw [DeleteNode_eq w pp k v hv, hvs]
  exact hre

/-- C12 (witness): deleting `tv_B` in the view of `{A: [B, C]}` leaves `[C]` as
the children of `A`, and the view mirrors that source tree. -/
theorem C12_delete_removes_source_node_witness :
    Mirrors worldABC.view worldABC.src = true ∧ worldABC.src.ids.Nodup ∧
    worldABC.view.nodeAt? ([] ++ [0]) = some tvB ∧
    ∃ n pn w1 tvp, worldABC.src.nodeAt? ([] ++ [0]) = some n ∧
      worldABC.src.nodeAt? [] = some pn ∧
      tvB.SyncNode = some n.id ∧
      DeleteNode worldABC ([] ++ [0]) = .ok w1 ∧
      w1.src = Node.updateAt (fun x => { x with Kids := x.Kids.eraseIdx 0 }) [] worldABC.src ∧
      w1.src.nodeAt? [] = some { pn with Kids := pn.Kids.eraseIdx 0 } ∧
      Mirrors w1.view w1.src = true ∧
      w1.view.nodeAt? [] = some tvp ∧ MirrorsL tvp.Kids (pn.Kids.eraseIdx 0) = true :=
  ⟨by decide, by decide, rfl,
    C12_delete_removes_source_node worldABC [] 0 tvB (by decide) (by decide) rfl⟩

/-! ## Theorems: `Duplicate` -/

mutual
theorem sameContent_refl : ∀ (n : Node), Node.sameContent n n = true
  | ⟨i, nm, ty, ks⟩ => by
    rw [sameContent_eq]; simp [sameContentL_refl ks]
theorem sameContentL_refl : ∀ (ks : List Node), Node.sameContentL ks ks = true
  | [] => by simp [Node.sameContentL]
  | k :: ks => by simp [Node.sameContentL, sameContent_refl k, sameContentL_refl ks]
end

/-- The first index at which a predicate holds exists as soon as the predicate
holds somewhere, and the predicate holds at it. -/
theorem findIdx?_of_getElem? {α : Type} (p : α → Bool) :
    ∀ (l : List α) (i : Nat) (x : α), l[i]? = some x → p x = true →
      ∃ j y, l.findIdx? p = some j ∧ l[j]? = some y ∧ p y = true
  | [], i, x, h, _ => by simp at h
  | a :: l, i, x, h, hp => by
    by_cases ha : p a = true
    · exact ⟨0, a, by simp [List.findIdx?_cons, ha], by simp, ha⟩
    · cases i with
      | zero =>
        simp only [List.getElem?_cons_zero, Option.some.injEq] at h
        subst h; exact absurd hp ha
      | succ i =>
        obtain ⟨j, y, hj, hy, hpy⟩ := findIdx?_of_getElem? p l i x (by simpa using h) hp
        exact ⟨j + 1, y, by simp [List.findIdx?_cons, ha, List.findIdx?_succ, hj],
          by simpa using hy, hpy⟩

/-- The selected node after `SelectAction`. -/
theorem SelectAction_nodeAt? (w : World) (p : List Nat) (x : TreeView)
    (h : w.view.nodeAt? p = some x) :
    (SelectAction w p).view.nodeAt? p = some { x.unselectAll with Selected := true } := by
  simp only [SelectAction]
  rw [TreeView.nodeAt?_updateAt, unselectAll_nodeAt?, h]
  rfl

theorem take_split {α : Type} (a b : List α) (x y : α) :
    ((a ++ x :: b).take (a.length + 1) ++ y :: (a ++ x :: b).drop (a.length + 1)) =
      a ++ x :: y :: b := by
  induction a with
  | nil => simp
  | cons z a ih => simpa using ih

theorem set_split {α : Type} (a b : List α) (x y : α) :
    (a ++ x :: b).set a.length y = a ++ y :: b := by
  induction a with
  | nil => simp
  | cons z a ih => simp [ih]

/-- The effect of `DuplicateSync` on a non-root node of a synchronised view:
the clone of the source node, renamed, is inserted after the source node in
the children of the source parent, the view is resynchronised, and the first
child of the parent view with the name of the clone is selected. -/
theorem DuplicateSync_spec (w : World) (pp : List Nat) (k : Nat) (v : TreeView)
    (hm : Mirrors w.view w.src = true) (hn : w.src.ids.Nodup)
    (hv : w.view.nodeAt? (pp ++ [k]) = some v) :
    ∃ n pn w2 tvp2 j x, w.src.nodeAt? (pp ++ [k]) = some n ∧ w.src.nodeAt? pp = some pn ∧
      pn.Kids[k]? = some n ∧ v.SyncNode = some n.id ∧
      w2.src = Node.updateAt (fun y => { y with Kids := pn.Kids.take (k + 1) ++
        { (Node.clone w.nextId n).1 with Nm := n.Nm ++ "_Copy" } :: pn.Kids.drop (k + 1) })
        pp w.src ∧
      Mirrors w2.view w2.src = true ∧
      w2.view.nodeAt? pp = some tvp2 ∧
      ChildByName tvp2 ("tv_" ++ (n.Nm ++ "_Copy")) = some j ∧
      tvp2.Kids[j]? = some x ∧ x.Nm = "tv_" ++ (n.Nm ++ "_Copy") ∧
      DuplicateSync w (pp ++ [k]) = .ok (SelectAction w2 (pp ++ [j])) := by
  obtain ⟨n, pn, tvp, hsn, hspn, hkn, htvp, hkv, hmn, hmp, hvs, hps, hfn, hfp, hpar, hroot⟩ :=
    synced_node w pp k v hm hn hv
  have hk : k + 1 ≤ pn.Kids.length := by
    rcases Nat.lt_or_ge k pn.Kids.length with h | h
    · exact h
    · rw [List.getElem?_eq_none h] at hkn; cases hkn
  have hins := insertAt?_eq ({ (Node.clone w.nextId n).1 with Nm := n.Nm ++ "_Copy" } : Node)
    (k + 1) pn.Kids hk
  obtain ⟨w2, hre, hsrc, _, _, _, hmir⟩ := SendChangeEventReSync_mirrors
    { w with
      src := w.src.setKids pn.id (pn.Kids.take (k + 1) ++
        { (Node.clone w.nextId n).1 with Nm := n.Nm ++ "_Copy" } :: pn.Kids.drop (k + 1)),
      nextId := (Node.clone w.nextId n).2 } pp
    (by simp only [setKids_id, hroot])
  have hsrc2 : w2.src = Node.updateAt (fun y => { y with Kids := pn.Kids.take (k + 1) ++
      { (Node.clone w.nextId n).1 with Nm := n.Nm ++ "_Copy" } :: pn.Kids.drop (k + 1) })
      pp w.src := by
    rw [hsrc]
    exact setKids_of_nodeAt? _ pp w.src pn hn hspn
  have hat : w2.src.nodeAt? pp = some { pn with Kids := pn.Kids.take (k + 1) ++
      { (Node.clone w.nextId n).1 with Nm := n.Nm ++ "_Copy" } :: pn.Kids.drop (k + 1) } := by
    rw [hsrc2, Node.srcAt?_updateAt, hspn]; rfl
  have hmir2 : Mirrors w2.view w2.src = true := by rw [hsrc]; exact hmir
  obtain ⟨tvp2, htvp2, hmp2⟩ := Mirrors_nodeAt?_src pp w2.view w2.src _ hmir2 hat
  have hlen : (pn.Kids.take (k + 1)).length = k + 1 := by
    rw [List.length_take]; omega
  have hnew : (pn.Kids.take (k + 1) ++
      ({ (Node.clone w.nextId n).1 with Nm := n.Nm ++ "_Copy" } : Node) ::
        pn.Kids.drop (k + 1))[k + 1]? =
      some { (Node.clone w.nextId n).1 with Nm := n.Nm ++ "_Copy" } := by
    have := getElem?_split (pn.Kids.take (k + 1)) (pn.Kids.drop (k + 1))
      ({ (Node.clone w.nextId n).1 with Nm := n.Nm ++ "_Copy" } : Node)
    rw [hlen] at this
    exact this
  obtain ⟨x0, hx0, hmx0⟩ :=
    (MirrorsL_getElem? tvp2.Kids _ (k + 1) (Mirrors_root _ _ hmp2).2.2).2 _ hnew
  obtain ⟨j, x, hj, hx, hpx⟩ := findIdx?_of_getElem?
    (fun (y : TreeView) => y.Nm == "tv_" ++ (n.Nm ++ "_Copy")) tvp2.Kids (k + 1) x0 hx0
    (by simp [(Mirrors_root _ _ hmx0).1])
  refine ⟨n, pn, w2, tvp2, j, x, hsn, hspn, hkn, hvs, hsrc2, hmir2, htvp2, hj, hx,
    by simpa using hpx, ?_⟩
  have he : (pp ++ [k]).isEmpty = false := by simp
  have hd : (pp ++ [k]).dropLast = pp := by simp
  have hic : w.src.InsertChild pn.id
      { (Node.clone w.nextId n).1 with Nm := n.Nm ++ "_Copy" } (k + 1) =
      .ok (w.src.setKids pn.id (pn.Kids.take (k + 1) ++
        { (Node.clone w.nextId n).1 with Nm := n.Nm ++ "_Copy" } :: pn.Kids.drop (k + 1))) := by
    simp only [Node.InsertChild, hfp, hins]
  unfold DuplicateSync
  simp only [he, hd, hv, htvp, hvs, hps, hfn, hpar, hic, hre, htvp2]
  have hj2 : ChildByName tvp2 ("tv_" ++ (n.Nm ++ "_Copy")) = some j := hj
  simp only [Bool.false_eq_true, if_false, hj2]

/-- The effect of `Duplicate` on a non-root view node without a sync node: the
node is deselected and its copy, renamed, becomes its next sibling in the view
parent; one `TreeViewChanged` is issued. -/
theorem Duplicate_unsynced (w : World) (pp : List Nat) (k : Nat) (v par : TreeView)
    (hv : w.view.nodeAt? (pp ++ [k]) = some v) (hs : v.SyncNode = none)
    (hp : w.view.nodeAt? pp = some par) :
    par.Kids[k]? = some v ∧
    Duplicate w (pp ++ [k]) = .ok (TreeViewChanged { w with
      view := TreeView.updateAt (fun y => { y with Kids := par.Kids.take k ++
        { v with Selected := false } ::
        { v with Selected := false, Nm := v.Nm ++ "_Copy" } :: par.Kids.drop (k + 1) })
        pp w.view }) := by
  have hkv : par.Kids[k]? = some v := by
    rw [← TreeView.nodeAt?_snoc _ _ _ _ hp]; exact hv
  refine ⟨hkv, ?_⟩
  obtain ⟨a, b, hab, hl⟩ := split_of_getElem? par.Kids k v hkv
  have hr : IsRoot (pp ++ [k]) = false := by simp [IsRoot]
  have hla : (pp ++ [k]).getLast? = some k := by simp
  have hd : (pp ++ [k]).dropLast = pp := by simp
  have hset : par.Kids.set k { v with Selected := false } =
      a ++ { v with Selected := false } :: b := by
    rw [hab, ← hl, set_split]
  have hins := insertAt?_eq
    ({ v with Selected := false, Nm := v.Nm ++ "_Copy" } : TreeView) (k + 1)
    (a ++ { v with Selected := false } :: b) (by simp [hl])
  rw [← hl, take_split] at hins
  have hta : par.Kids.take k = a := by rw [hab, ← hl, List.take_left]
  have hdb : par.Kids.drop (k + 1) = b := by
    rw [hab, ← hl]; simp
  have hsome : v.SyncNode.isSome = false := by rw [hs]; rfl
  unfold Duplicate
  simp only [hr, hv, hd, hp, hla, hsome, Bool.false_eq_true, if_false, hset]
  rw [hl] at hins
  have hins2 : insertAt? (⟨v.Nm ++ "_Copy", v.Text, v.ViewIndex, v.Closed, false, v.SyncNode,
      v.Kids⟩ : TreeView) (k + 1) (a ++ { v with Selected := false } :: b) =
      some (a ++ { v with Selected := false } ::
        { v with Selected := false, Nm := v.Nm ++ "_Copy" } :: b) := hins
  simp only [hins2, hta, hdb]

theorem Duplicate_synced (w : World) (pp : List Nat) (k : Nat) (v par : TreeView) (sk : Nat)
    (hv : w.view.nodeAt? (pp ++ [k]) = some v) (hs : v.SyncNode = some sk)
    (hp : w.view.nodeAt? pp = some par) :
    Duplicate w (pp ++ [k]) = DuplicateSync w (pp ++ [k]) := by
  have hr : IsRoot (pp ++ [k]) = false := by simp [IsRoot]
  have hla : (pp ++ [k]).getLast? = some k := by simp
  have hd : (pp ++ [k]).dropLast = pp := by simp
  have hsome : v.SyncNode.isSome = true := by rw [hs]; rfl
  unfold Duplicate
  simp only [hr, hv, hd, hp, hla, hsome, Bool.false_eq_true, if_false, if_true]

/-! ## Claims on `Duplicate` -/

/-- C13: `Duplicate` on a non-root node at sibling index `k`.  In a
synchronised view (the source tree having distinct node identities) the source
parent gets, at index `k+1`, a deep clone of the source node (same type, same
subtree content) named `<name>_Copy`; the original stays at index `k` as it
was, the siblings before and after keep their order, and nothing else changes
in the source tree.  For a node without a sync node the same holds in the
children of the view parent: the copy, named `<name>_Copy` and with the same
children, is at index `k+1`, the original (deselected) keeps its name and
children at index `k`, and the other siblings keep their order. -/
theorem C13_duplicate_inserts_clone_after (w : World) (pp : List Nat) (k : Nat) (v : TreeView)
    (hv : w.view.nodeAt? (pp ++ [k]) = some v) :
    (Mirrors w.view w.src = true → w.src.ids.Nodup →
      ∃ n pn c w1, w.src.nodeAt? (pp ++ [k]) = some n ∧ w.src.nodeAt? pp = some pn ∧
        pn.Kids[k]? = some n ∧
        c.Nm = n.Nm ++ "_Copy" ∧ c.Typ = n.Typ ∧ Node.sameContentL c.Kids n.Kids = true ∧
        Duplicate w (pp ++ [k]) = .ok w1 ∧
        w1.src = Node.updateAt
          (fun y => { y with Kids := pn.Kids.take (k + 1) ++ c :: pn.Kids.drop (k + 1) })
          pp w.src ∧
        w1.src.nodeAt? (pp ++ [k]) = some n ∧ w1.src.nodeAt? (pp ++ [k + 1]) = some c) ∧
    (v.SyncNode = none → ∀ par, w.view.nodeAt? pp = some par →
      ∃ w1, Duplicate w (pp ++ [k]) = .ok w1 ∧ w1.src = w.src ∧
        w1.view = TreeView.updateAt (fun y => { y with Kids := par.Kids.take k ++
          { v with Selected := false } ::
          { v with Selected := false, Nm := v.Nm ++ "_Copy" } :: par.Kids.drop (k + 1) })
          pp w.view) := by
  constructor
  · intro hm hn
    obtain ⟨n, pn, w2, tvp2, j, x, hsn, hspn, hkn, hvs, hsrc2, _, _, _, _, _, hdup⟩ :=
      DuplicateSync_spec w pp k v hm hn hv
    obtain ⟨_, _, tvp, _, _, _, htvp, _, _, _, _, _, _, _, _, _⟩ := synced_node w pp k v hm hn hv
    have hk : k < pn.Kids.length := by
      rcases Nat.lt_or_ge k pn.Kids.length with h | h
      · exact h
      · rw [List.getElem?_eq_none h] at hkn; cases hkn
    have hlen : (pn.Kids.take (k + 1)).length = k + 1 := by
      rw [List.length_take]; omega
    have hat : (SelectAction w2 (pp ++ [j])).src.nodeAt? pp =
        some { pn with Kids := pn.Kids.take (k + 1) ++
          { (Node.clone w.nextId n).1 with Nm := n.Nm ++ "_Copy" } :: pn.Kids.drop (k + 1) } := by
      show w2.src.nodeAt? pp = _
      rw [hsrc2, Node.srcAt?_updateAt, hspn]; rfl
    refine ⟨n, pn, { (Node.clone w.nextId n).1 with Nm := n.Nm ++ "_Copy" },
      SelectAction w2 (pp ++ [j]), hsn, hspn, hkn, rfl, (clone_fields _ n).2.1, ?_, ?_, hsrc2,
      ?_, ?_⟩
    · show Node.sameContentL (Node.clone w.nextId n).1.Kids n.Kids = true
      rw [(clone_fields _ n).2.2]
      exact sameContentL_cloneL _ _ _ (sameContentL_refl n.Kids)
    · rw [Duplicate_synced w pp k v tvp n.id hv hvs htvp]; exact hdup
    · rw [Node.srcAt?_snoc _ _ _ _ hat]
      show (pn.Kids.take (k + 1) ++ _)[k]? = _
      rw [List.getElem?_append_left (by omega), List.getElem?_take_of_lt (by omega)]
      exact hkn
    · rw [Node.srcAt?_snoc _ _ _ _ hat]
      have := getElem?_split (pn.Kids.take (k + 1)) (pn.Kids.drop (k + 1))
        ({ (Node.clone w.nextId n).1 with Nm := n.Nm ++ "_Copy" } : Node)
      rw [hlen] at this
      exact this
  · intro hs par hp
    exact ⟨_, (Duplicate_unsynced w pp k v par hv hs hp).2, rfl, rfl⟩

/-- C13 (witness): `Duplicate` on `tv_C` in the view of `{A: [B, C]}` and on
the unsynchronised view node `x`. -/
theorem C13_duplicate_inserts_clone_after_witness :
    (∃ n pn c w1, worldABC.src.nodeAt? ([] ++ [1]) = some n ∧
        worldABC.src.nodeAt? [] = some pn ∧ pn.Kids[1]? = some n ∧
        c.Nm = n.Nm ++ "_Copy" ∧ c.Typ = n.Typ ∧ Node.sameContentL c.Kids n.Kids = true ∧
        Duplicate worldABC ([] ++ [1]) = .ok w1 ∧
        w1.src = Node.updateAt
          (fun y => { y with Kids := pn.Kids.take (1 + 1) ++ c :: pn.Kids.drop (1 + 1) })
          [] worldABC.src ∧
        w1.src.nodeAt? ([] ++ [1]) = some n ∧ w1.src.nodeAt? ([] ++ [1 + 1]) = some c) ∧
    (∃ w1, Duplicate worldPlain ([] ++ [0]) = .ok w1 ∧ w1.src = worldPlain.src ∧
        w1.view = TreeView.updateAt (fun y => { y with Kids := viewPlain.Kids.take 0 ++
          { plainX with Selected := false } ::
          { plainX with Selected := false, Nm := plainX.Nm ++ "_Copy" } :: viewPlain.Kids.drop (0 + 1) })
          [] worldPlain.view) :=
  ⟨(C13_duplicate_inserts_clone_after worldABC [] 1 tvC rfl).1 (by decide) (by decide),
    (C13_duplicate_inserts_clone_after worldPlain [] 0 plainX rfl).2 rfl viewPlain rfl⟩

/-- C14 (counterexample): `Duplicate` on `tv_C`, which has a sync node, in the
view of `{A: [B, C]}`: the duplicate `tv_C_Copy` is the selected node
afterwards. -/
theorem C14_synced_duplicate_is_selected :
    worldABC.view.nodeAt? [1] = some tvC ∧ tvC.SyncNode = some 3 ∧
    ∃ w1 c, Duplicate worldABC [1] = .ok w1 ∧ w1.view.nodeAt? [2] = some c ∧
      c.Nm = "tv_C_Copy" ∧ c.Selected = true ∧ w1.view.selectedNames = ["tv_C_Copy"] :=
  ⟨rfl, rfl, _, _, rfl, rfl, by decide, rfl, by decide⟩

/-- C14 (amended): `Duplicate` on a non-root node without a sync node does not
select the duplicate: the copy at the next sibling index is not selected (and
the original has been deselected).  A node with a sync node is handled by
`DuplicateSync`, which selects the duplicate. -/
theorem C14_unsynced_duplicate_not_selected (w : World) (pp : List Nat) (k : Nat)
    (v par : TreeView) (hv : w.view.nodeAt? (pp ++ [k]) = some v) (hs : v.SyncNode = none)
    (hp : w.view.nodeAt? pp = some par) :
    ∃ w1 c o, Duplicate w (pp ++ [k]) = .ok w1 ∧
      w1.view.nodeAt? (pp ++ [k + 1]) = some c ∧ c.Nm = v.Nm ++ "_Copy" ∧ c.Selected = false ∧
      w1.view.nodeAt? (pp ++ [k]) = some o ∧ o.Nm = v.Nm ∧ o.Selected = false := by
  obtain ⟨hkv, hdup⟩ := Duplicate_unsynced w pp k v par hv hs hp
  have hk : k < par.Kids.length := by
    rcases Nat.lt_or_ge k par.Kids.length with h | h
    · exact h
    · rw [List.getElem?_eq_none h] at hkv; cases hkv
  have hlen : (par.Kids.take k).length = k := by
    rw [List.length_take]; omega
  have hat : (TreeView.updateAt (fun y => { y with Kids := par.Kids.take k ++
        { v with Selected := false } ::
        { v with Selected := false, Nm := v.Nm ++ "_Copy" } :: par.Kids.drop (k + 1) })
        pp w.view).nodeAt? pp = some { par with Kids := par.Kids.take k ++
        { v with Selected := false } ::
        { v with Selected := false, Nm := v.Nm ++ "_Copy" } :: par.Kids.drop (k + 1) } := by
    rw [TreeView.nodeAt?_updateAt, hp]; rfl
  refine ⟨_, { v with Selected := false, Nm := v.Nm ++ "_Copy" }, { v with Selected := false },
    hdup, ?_, rfl, rfl, ?_, rfl, rfl⟩
  · show (TreeView.updateAt _ pp w.view).nodeAt? (pp ++ [k + 1]) = _
    rw [TreeView.nodeAt?_snoc _ _ _ _ hat]
    have := getElem?_split (par.Kids.take k ++ [{ v with Selected := false }])
      (par.Kids.drop (k + 1)) ({ v with Selected := false, Nm := v.Nm ++ "_Copy" } : TreeView)
    simp only [List.length_append, hlen, List.length_singleton, List.append_assoc,
      List.singleton_append] at this
    exact this
  · show (TreeView.updateAt _ pp w.view).nodeAt? (pp ++ [k]) = _
    rw [TreeView.nodeAt?_snoc _ _ _ _ hat]
    have := getElem?_split (par.Kids.take k)
      (({ v with Selected := false, Nm := v.Nm ++ "_Copy" } : TreeView) :: par.Kids.drop (k + 1))
      ({ v with Selected := false } : TreeView)
    rw [hlen] at this
    exact this

/-- C14 (witness): `Duplicate` on the selected, unsynchronised view node `x`. -/
theorem C14_unsynced_duplicate_not_selected_witness :
    worldPlain.view.nodeAt? ([] ++ [0]) = some plainX ∧ plainX.SyncNode = none ∧
    worldPlain.view.nodeAt? [] = some viewPlain ∧
    ∃ w1 c o, Duplicate worldPlain ([] ++ [0]) = .ok w1 ∧
      w1.view.nodeAt? ([] ++ [0 + 1]) = some c ∧ c.Nm = plainX.Nm ++ "_Copy" ∧
      c.Selected = false ∧
      w1.view.nodeAt? ([] ++ [0]) = some o ∧ o.Nm = plainX.Nm ∧ o.Selected = false :=
  ⟨rfl, rfl, rfl, C14_unsynced_duplicate_not_selected worldPlain [] 0 plainX viewPlain rfl rfl rfl⟩

/-- C15: after `DuplicateSync` on a non-root node of a synchronised view (the
source tree having distinct node identities) the parent view has a child named
`"tv_"` + the source name + `"_Copy"`, and that child is the selected node of
the view.  When the parent view has no sync node, `DuplicateSync` returns the
world unchanged, whether or not the node itself has a sync node. -/
theorem C15_DuplicateSync_selects_copy (w : World) (pp : List Nat) (k : Nat) (v : TreeView)
    (hv : w.view.nodeAt? (pp ++ [k]) = some v) :
    (Mirrors w.view w.src = true → w.src.ids.Nodup →
      ∃ n w1 j x, w.src.nodeAt? (pp ++ [k]) = some n ∧
        DuplicateSync w (pp ++ [k]) = .ok w1 ∧
        w1.view.nodeAt? (pp ++ [j]) = some x ∧ x.Nm = "tv_" ++ (n.Nm ++ "_Copy") ∧
        x.Selected = true ∧ w1.view.selectedNames = ["tv_" ++ (n.Nm ++ "_Copy")]) ∧
    (∀ par, w.view.nodeAt? pp = some par → par.SyncNode = none →
      DuplicateSync w (pp ++ [k]) = .ok w) := by
  constructor
  · intro hm hn
    obtain ⟨n, pn, w2, tvp2, j, x, hsn, _, _, _, _, _, htvp2, _, hx, hnm, hdup⟩ :=
      DuplicateSync_spec w pp k v hm hn hv
    have hxj : w2.view.nodeAt? (pp ++ [j]) = some x := by
      rw [TreeView.nodeAt?_snoc _ _ _ _ htvp2]; exact hx
    refine ⟨n, SelectAction w2 (pp ++ [j]), j, { x.unselectAll with Selected := true }, hsn, hdup,
      SelectAction_nodeAt? w2 _ x hxj, ?_, rfl, ?_⟩
    · show x.unselectAll.Nm = _
      rw [(unselectAll_fields x).1, hnm]
    · rw [SelectAction_selectedNames w2 _ x hxj, hnm]
  · intro par hp hps
    have he : (pp ++ [k]).isEmpty = false := by simp
    have hd : (pp ++ [k]).dropLast = pp := by simp
    unfold DuplicateSync
    simp only [he, hd, hv, hp, hps, Bool.false_eq_true, if_false]

/-- C15 (witness): `DuplicateSync` on `tv_C` in the view of `{A: [B, C]}`, on
`tv_B` under a parent view without a sync node, and on the node `x`, which has
no sync node, under a parent view without a sync node. -/
theorem C15_DuplicateSync_selects_copy_witness :
    (∃ n w1 j x, worldABC.src.nodeAt? ([] ++ [1]) = some n ∧
        DuplicateSync worldABC ([] ++ [1]) = .ok w1 ∧
        w1.view.nodeAt? ([] ++ [j]) = some x ∧ x.Nm = "tv_" ++ (n.Nm ++ "_Copy") ∧
        x.Selected = true ∧ w1.view.selectedNames = ["tv_" ++ (n.Nm ++ "_Copy")]) ∧
    DuplicateSync worldNilParent ([] ++ [0]) = .ok worldNilParent ∧
    (plainX.SyncNode = none ∧ DuplicateSync worldPlain ([] ++ [0]) = .ok worldPlain) :=
  ⟨(C15_DuplicateSync_selects_copy worldABC [] 1 tvC rfl).1 (by decide) (by decide),
    (C15_DuplicateSync_selects_copy worldNilParent [] 0 tvB rfl).2 worldNilParent.view
      rfl rfl,
    rfl, (C15_DuplicateSync_selects_copy worldPlain [] 0 plainX rfl).2 viewPlain rfl rfl⟩

/-! ## Theorems: `PasteAtSync` -/

theorem hasChildNamed_iff (n : Node) (nm : String) :
    n.hasChildNamed nm = true ↔ nm ∈ n.Kids.map (fun c => c.Nm) := by
  simp only [Node.hasChildNamed, List.any_eq_true, beq_iff_eq, List.mem_map]

theorem pasteCopies_congr :
    ∀ (ns : List Node) (ex ex2 : List String), (∀ x, x ∈ ex ↔ x ∈ ex2) →
      pasteCopies ex ns = pasteCopies ex2 ns
  | [], _, _, _ => rfl
  | n :: ns, ex, ex2, h => by
    have hd : (if n.Nm ∈ ex then n.Nm ++ "_Copy" else n.Nm) =
        (if n.Nm ∈ ex2 then n.Nm ++ "_Copy" else n.Nm) := by
      by_cases hx : n.Nm ∈ ex
      · rw [if_pos hx, if_pos ((h _).1 hx)]
      · rw [if_neg hx, if_neg (fun h2 => hx ((h _).2 h2))]
    simp only [pasteCopies, hd]
    congr 1
    apply pasteCopies_congr ns
    intro x
    simp only [List.mem_cons, h x]

theorem pasteCopies_length :
    ∀ (ns : List Node) (ex : List String), (pasteCopies ex ns).length = ns.length
  | [], _ => rfl
  | n :: ns, ex => by simp [pasteCopies, pasteCopies_length ns]

theorem pasteName_copy (mod : DropMods) (pn ns : Node) (hmod : mod ≠ DropMods.DropMove) :
    pasteName mod pn ns =
      if ns.Nm ∈ pn.Kids.map (fun c => c.Nm) then ns.Nm ++ "_Copy" else ns.Nm := by
  unfold pasteName
  by_cases h : ns.Nm ∈ pn.Kids.map (fun c => c.Nm)
  · rw [if_pos h, if_pos ⟨hmod, (hasChildNamed_iff pn ns.Nm).2 h⟩]
  · rw [if_neg h, if_neg (fun h2 => h ((hasChildNamed_iff pn ns.Nm).1 h2.2))]

theorem pasteName_move (pn ns : Node) : pasteName DropMods.DropMove pn ns = ns.Nm := by
  simp [pasteName]

theorem insertAt?_mid {α : Type} (x : α) (a b : List α) :
    insertAt? x a.length (a ++ b) = some (a ++ x :: b) := by
  rw [insertAt?_eq x a.length (a ++ b) (by simp)]
  simp

/-- One round of the loop of `PasteAtSync`, when the path of the node is in the
payload and the parent is in the tree with `myidx + i` children before the
insertion point. -/
theorem pasteStep_eq (tag : String) (mod : DropMods) (parent : Nat) (sroot : Option Nat)
    (myidx : Nat) (pl : List String) (i : Nat) (ns src pn : Node) (a b : List Node)
    (orgpath : String) (hpl : pl[i]? = some orgpath) (hpn : src.find? parent = some pn)
    (hk : pn.Kids = a ++ b) (ha : a.length = myidx + i) :
    pasteStep tag mod parent sroot myidx pl i ns src =
      if mod = DropMods.DropMove ∧
          (src.setKids parent (a ++ { ns with Nm := pasteName mod pn ns } :: b)).PathFrom
            ns.id sroot = orgpath then
        .ok ((src.setKids parent (a ++ { ns with Nm := pasteName mod pn ns } :: b)).setName
          ns.id (pasteName mod pn ns ++ tag), pasteName mod pn ns ++ tag)
      else .ok (src.setKids parent (a ++ { ns with Nm := pasteName mod pn ns } :: b),
        pasteName mod pn ns) := by
  have hins : insertAt? ({ ns with Nm := pasteName mod pn ns } : Node) (myidx + i) pn.Kids =
      some (a ++ { ns with Nm := pasteName mod pn ns } :: b) := by
    rw [hk, ← ha]; exact insertAt?_mid _ a b
  unfold pasteStep
  simp only [hpl, hpn, Node.InsertChild, hins]

/-- The loop of `PasteAtSync` in a drop mode other than move: the payload
nodes, named by `pasteCopies`, are put in payload order at the insertion
point. -/
theorem pasteLoop_copy (tag : String) (mod : DropMods) (parent : Nat) (sroot : Option Nat)
    (myidx : Nat) (pl : List String) (hmod : mod ≠ DropMods.DropMove) :
    ∀ (nodes : List Node) (i : Nat) (src pn : Node) (A N B : List Node),
      src.find? parent = some pn → pn.Kids = A ++ N ++ B → A.length = myidx → N.length = i →
      i + nodes.length ≤ pl.length →
      ∃ r, pasteLoop tag mod parent sroot myidx pl i nodes src = .ok r ∧ r.1.id = src.id ∧
        r.1.find? parent = some { pn with
          Kids := A ++ N ++ pasteCopies (pn.Kids.map (fun c => c.Nm)) nodes ++ B }
  | [], i, src, pn, A, N, B, hpn, hk, _, _, _ => by
    refine ⟨(src, none), rfl, rfl, ?_⟩
    have hnil : A ++ N ++ pasteCopies (pn.Kids.map (fun c => c.Nm)) [] ++ B = pn.Kids := by
      simp [pasteCopies, hk]
    rw [hnil, hpn]
    cases pn; rfl
  | ns :: rest, i, src, pn, A, N, B, hpn, hk, hA, hN, hpl => by
    have hi : i < pl.length := by simp only [List.length_cons] at hpl; omega
    have hstep := pasteStep_eq tag mod parent sroot myidx pl i ns src pn (A ++ N) B pl[i]
      (List.getElem?_eq_getElem hi) hpn hk (by simp [hA, hN])
    rw [if_neg (fun h => hmod h.1)] at hstep
    have hpn1 : (src.setKids parent (A ++ N ++ { ns with Nm := pasteName mod pn ns } :: B)).find?
        parent = some { pn with
          Kids := A ++ (N ++ [{ ns with Nm := pasteName mod pn ns }]) ++ B } := by
      rw [find?_setKids, hpn]; simp
    obtain ⟨r, hr, hid, hfind⟩ := pasteLoop_copy tag mod parent sroot myidx pl hmod rest (i + 1)
      _ _ A (N ++ [{ ns with Nm := pasteName mod pn ns }]) B hpn1 rfl hA (by simp [hN])
      (by simp only [List.length_cons] at hpl; omega)
    refine ⟨(r.1, if rest.isEmpty then some (pasteName mod pn ns) else r.2), ?_, ?_, ?_⟩
    · simp only [pasteLoop, hstep, hr]
    · rw [hid, setKids_id]
    · rw [hfind]
      have hc : pasteCopies (List.map (fun c => c.Nm)
          (A ++ (N ++ [{ ns with Nm := pasteName mod pn ns }]) ++ B)) rest =
          pasteCopies (pasteName mod pn ns :: pn.Kids.map (fun c => c.Nm)) rest := by
        apply pasteCopies_congr
        intro x
        simp only [hk, List.map_append, List.mem_append, List.mem_cons, List.map_cons,
          List.map_nil, List.not_mem_nil, or_false]
        tauto
      simp only [hc]
      simp only [pasteCopies, ← pasteName_copy mod pn ns hmod, List.append_assoc,
        List.singleton_append]

/-- The part of `PasteAtSync` after the loop: when the loop has succeeded and
the root view points to the root of the source tree, the resynchronisation and
the selection succeed, and the source tree is the one that the loop has
built. -/
theorem PasteAtSync_ok (tag : String) (w : World) (pp : List Nat) (k : Nat) (v : TreeView)
    (md : List MimeData) (mod : DropMods) (rel sk : Nat) (pn : Node) (r : Node × Option String)
    (hv : w.view.nodeAt? (pp ++ [k]) = some v) (hvs : v.SyncNode = some sk)
    (hpar : w.src.parentOf? sk = some (pn, k))
    (hroot : w.view.SyncNode = some w.src.id)
    (hloop : pasteLoop tag mod pn.id w.view.SyncNode (k + rel) (NodesFromMimeData w.nextId md).2.1
      0 (NodesFromMimeData w.nextId md).1 w.src = .ok r)
    (hid : r.1.id = w.src.id) :
    ∃ w1, PasteAtSync tag w (pp ++ [k]) md mod rel = .ok w1 ∧ w1.src = r.1 ∧
      w1.resyncs = w.resyncs + 1 := by
  have he : (pp ++ [k]).isEmpty = false := by simp
  have hd : (pp ++ [k]).dropLast = pp := by simp
  obtain ⟨w2, hre, hsrc, _, hrs, _, _⟩ := SendChangeEventReSync_mirrors
    { w with src := r.1, nextId := (NodesFromMimeData w.nextId md).2.2 } pp
    (by simp only [hroot, hid])
  unfold PasteAtSync
  simp only [hv, hvs, hpar, hloop, he, hd, hre, Bool.false_eq_true, if_false]
  split
  · exact ⟨w2, rfl, hsrc, hrs⟩
  · split
    · exact ⟨w2, rfl, hsrc, hrs⟩
    · split
      · exact ⟨w2, rfl, hsrc, hrs⟩
      · exact ⟨_, rfl, hsrc, hrs⟩

/-! ## Theorems: new node objects and `PasteAtSync` in move mode -/

mutual
theorem setName_setKids (q p : Nat) (nm : String) (new : List Node) :
    ∀ (t : Node), q ∉ t.ids →
      (t.setKids p new).setName q nm = t.setKids p (Node.setNameL q nm new)
  | ⟨i, nm0, ty, ks⟩, h => by
    simp only [Node.ids, List.mem_cons, not_or] at h
    have hi : ¬ i = q := fun e => h.1 e.symm
    by_cases hp : i = p
    · simp only [Node.setKids, hp, if_true, Node.setName]
      rw [if_neg (hp ▸ hi)]
    · simp only [Node.setKids, hp, if_false, Node.setName, hi,
        setNameL_setKidsL q p nm new ks h.2]
theorem setNameL_setKidsL (q p : Nat) (nm : String) (new : List Node) :
    ∀ (ks : List Node), q ∉ Node.idsL ks →
      Node.setNameL q nm (Node.setKidsL p new ks) = Node.setKidsL p (Node.setNameL q nm new) ks
  | [], _ => rfl
  | k :: ks, h => by
    simp only [Node.idsL, List.mem_append, not_or] at h
    simp only [Node.setKidsL, Node.setNameL, setName_setKids q p nm new k h.1,
      setNameL_setKidsL q p nm new ks h.2]
end

mutual
theorem ids_setKids_subset (p : Nat) (new : List Node) :
    ∀ (t : Node) (x : Nat), x ∈ (t.setKids p new).ids → x ∈ t.ids ∨ x ∈ Node.idsL new
  | ⟨i, nm0, ty, ks⟩, x, h => by
    by_cases hp : i = p
    · simp only [Node.setKids, hp, if_true, Node.ids, List.mem_cons] at h ⊢
      rcases h with h | h
      · exact Or.inl (Or.inl h)
      · exact Or.inr h
    · simp only [Node.setKids, hp, if_false, Node.ids, List.mem_cons] at h ⊢
      rcases h with h | h
      · exact Or.inl (Or.inl h)
      · rcases idsL_setKidsL_subset p new ks x h with h2 | h2
        · exact Or.inl (Or.inr h2)
        · exact Or.inr h2
theorem idsL_setKidsL_subset (p : Nat) (new : List Node) :
    ∀ (ks : List Node) (x : Nat), x ∈ Node.idsL (Node.setKidsL p new ks) →
      x ∈ Node.idsL ks ∨ x ∈ Node.idsL new
  | [], x, h => by simp [Node.setKidsL, Node.idsL] at h
  | k :: ks, x, h => by
    simp only [Node.setKidsL, Node.idsL, List.mem_append] at h ⊢
    rcases h with h | h
    · rcases ids_setKids_subset p new k x h with h2 | h2
      · exact Or.inl (Or.inl h2)
      · exact Or.inr h2
    · rcases idsL_setKidsL_subset p new ks x h with h2 | h2
      · exact Or.inl (Or.inr h2)
      · exact Or.inr h2
end

mutual
theorem ids_of_find? (p : Nat) :
    ∀ (t n : Node) (x : Nat), t.find? p = some n → x ∈ n.ids → x ∈ t.ids
  | ⟨i, nm0, ty, ks⟩, n, x, h, hx => by
    by_cases hp : i = p
    · simp only [Node.find?, hp, if_true, Option.some.injEq] at h
      rw [← h, ← hp] at hx; exact hx
    · simp only [Node.find?, hp, if_false] at h
      simp only [Node.ids, List.mem_cons]
      exact Or.inr (idsL_of_findL? p ks n x h hx)
theorem idsL_of_findL? (p : Nat) :
    ∀ (ks : List Node) (n : Node) (x : Nat), Node.findL? p ks = some n → x ∈ n.ids →
      x ∈ Node.idsL ks
  | [], n, x, h, _ => by simp [Node.findL?] at h
  | k :: ks, n, x, h, hx => by
    simp only [Node.idsL, List.mem_append]
    simp only [Node.findL?] at h
    cases hk : Node.find? p k with
    | some m =>
      rw [hk] at h
      simp only [Option.some.injEq] at h
      exact Or.inl (ids_of_find? p k n x (by rw [hk, h]) hx)
    | none =>
      rw [hk] at h
      exact Or.inr (idsL_of_findL? p ks n x h hx)
end

theorem setName_self (n : Node) (nm : String) : n.setName n.id nm = { n with Nm := nm } := by
  cases n; simp [Node.setName]

theorem idsL_mono_left (a b : List Node) (x : Nat) (h : x ∈ Node.idsL a) :
    x ∈ Node.idsL (a ++ b) := by
  rw [idsL_append]; exact List.mem_append_left _ h

theorem idsL_mono_right (a b : List Node) (x : Nat) (h : x ∈ Node.idsL b) :
    x ∈ Node.idsL (a ++ b) := by
  rw [idsL_append]; exact List.mem_append_right _ h

/-- One round of the loop of `PasteAtSync` in move mode, for a payload node that
is a new object: the node is put at the insertion point under its own name,
or under its name with the tag when its path equals the original path. -/
theorem pasteStep_move (tag : String) (parent : Nat) (sroot : Option Nat)
    (myidx : Nat) (pl : List String) (i : Nat) (ns src pn : Node) (a b : List Node)
    (orgpath : String) (hpl : pl[i]? = some orgpath) (hpn : src.find? parent = some pn)
    (hk : pn.Kids = a ++ b) (ha : a.length = myidx + i) (hq : ns.id ∉ src.ids) :
    ∃ r, pasteStep tag DropMods.DropMove parent sroot myidx pl i ns src = .ok r ∧
      r.1.id = src.id ∧
      r.1.find? parent = some { pn with Kids := a ++ { ns with Nm := r.2 } :: b } ∧
      r.2 = (if (src.setKids parent (a ++ ns :: b)).PathFrom ns.id sroot = orgpath
        then ns.Nm ++ tag else ns.Nm) ∧
      (∀ x, x ∈ r.1.ids → x ∈ src.ids ∨ x ∈ ns.ids) := by
  have hstep := pasteStep_eq tag DropMods.DropMove parent sroot myidx pl i ns src pn a b orgpath
    hpl hpn hk ha
  rw [pasteName_move] at hstep
  have hkid : ({ ns with Nm := ns.Nm } : Node) = ns := by cases ns; rfl
  rw [hkid] at hstep
  have hsub : ∀ (nm : String) (x : Nat),
      x ∈ (src.setKids parent (a ++ { ns with Nm := nm } :: b)).ids → x ∈ src.ids ∨ x ∈ ns.ids := by
    intro nm x hx
    rcases ids_setKids_subset parent _ src x hx with h | h
    · exact Or.inl h
    · rw [idsL_append, idsL_cons] at h
      simp only [List.mem_append] at h
      rcases h with h | h | h
      · exact Or.inl (ids_of_find? parent src pn x hpn (by
          rw [ids_eq, hk]; exact List.mem_cons_of_mem _ (idsL_mono_left a b x h)))
      · exact Or.inr (by rw [ids_eq] at h ⊢; exact h)
      · exact Or.inl (ids_of_find? parent src pn x hpn (by
          rw [ids_eq, hk]; exact List.mem_cons_of_mem _ (idsL_mono_right a b x h)))
  have hqa : ns.id ∉ Node.idsL a := fun h => hq (ids_of_find? parent src pn _ hpn (by
    rw [ids_eq, hk]; exact List.mem_cons_of_mem _ (idsL_mono_left a b _ h)))
  have hqb : ns.id ∉ Node.idsL b := fun h => hq (ids_of_find? parent src pn _ hpn (by
    rw [ids_eq, hk]; exact List.mem_cons_of_mem _ (idsL_mono_right a b _ h)))
  by_cases hpath : (src.setKids parent (a ++ ns :: b)).PathFrom ns.id sroot = orgpath
  · rw [if_pos ⟨rfl, hpath⟩] at hstep
    rw [setName_setKids ns.id parent _ _ src hq, setNameL_split ns.id _ ns b a hqa hqb,
      setName_self] at hstep
    refine ⟨_, hstep, setKids_id _ _ _, ?_, by simp only [if_pos hpath], hsub _⟩
    rw [find?_setKids, hpn]; rfl
  · rw [if_neg (fun h => hpath h.2)] at hstep
    refine ⟨_, hstep, setKids_id _ _ _, ?_, by simp only [if_neg hpath], ?_⟩
    · rw [find?_setKids, hpn, hkid]; rfl
    · intro x hx
      have := hsub ns.Nm x
      rw [hkid] at this
      exact this hx

/-- The loop of `PasteAtSync` in move mode, for payload nodes that are new
objects: the payload nodes are put in payload order at the insertion point,
each under its own name or under its name with the tag. -/
theorem pasteLoop_move (tag : String) (parent : Nat) (sroot : Option Nat)
    (myidx : Nat) (pl : List String) :
    ∀ (nodes : List Node) (i : Nat) (src pn : Node) (A N B : List Node),
      src.find? parent = some pn → pn.Kids = A ++ N ++ B → A.length = myidx → N.length = i →
      i + nodes.length ≤ pl.length →
      (∀ ns, ns ∈ nodes → ns.id ∉ src.ids) →
      nodes.Pairwise (fun x y => y.id ∉ x.ids) →
      ∃ r N2, pasteLoop tag DropMods.DropMove parent sroot myidx pl i nodes src = .ok r ∧
        r.1.id = src.id ∧
        r.1.find? parent = some { pn with Kids := A ++ N ++ N2 ++ B } ∧
        List.Forall₂ (fun m n => m.id = n.id ∧ m.Typ = n.Typ ∧ m.Kids = n.Kids ∧
          (m.Nm = n.Nm ∨ m.Nm = n.Nm ++ tag)) N2 nodes
  | [], i, src, pn, A, N, B, hpn, hk, _, _, _, _, _ => by
    refine ⟨(src, none), [], rfl, rfl, ?_, List.Forall₂.nil⟩
    rw [List.append_nil, ← hk, hpn]
    cases pn; rfl
  | ns :: rest, i, src, pn, A, N, B, hpn, hk, hA, hN, hpl, hfresh, hpair => by
    have hi : i < pl.length := by simp only [List.length_cons] at hpl; omega
    obtain ⟨r1, hstep, hid1, hfind1, hname, hsub⟩ := pasteStep_move tag parent sroot myidx pl i
      ns src pn (A ++ N) B pl[i] (List.getElem?_eq_getElem hi) hpn hk (by simp [hA, hN])
      (hfresh ns (List.mem_cons_self _ _))
    rw [List.pairwise_cons] at hpair
    have hpn1 : r1.1.find? parent =
        some { pn with Kids := A ++ (N ++ [{ ns with Nm := r1.2 }]) ++ B } := by
      rw [hfind1]; simp
    obtain ⟨r, N2, hr, hid, hfind, hall⟩ := pasteLoop_move tag parent sroot myidx pl rest (i + 1)
      r1.1 _ A (N ++ [{ ns with Nm := r1.2 }]) B hpn1 rfl hA (by simp [hN])
      (by simp only [List.length_cons] at hpl; omega)
      (fun ns2 h2 hx => by
        rcases hsub _ hx with h | h
        · exact hfresh ns2 (List.mem_cons_of_mem _ h2) h
        · exact hpair.1 ns2 h2 h)
      hpair.2
    refine ⟨(r.1, if rest.isEmpty then some r1.2 else r.2), { ns with Nm := r1.2 } :: N2, ?_, ?_,
      ?_, List.Forall₂.cons ⟨rfl, rfl, rfl, ?_⟩ hall⟩
    · simp only [pasteLoop, hstep, hr]
    · rw [hid, hid1]
    · rw [hfind]
      simp only [List.append_assoc, List.singleton_append]
    · show r1.2 = ns.Nm ∨ r1.2 = ns.Nm ++ tag
      rw [hname]
      split
      · exact Or.inr rfl
      · exact Or.inl rfl

mutual
/-- The copies that `Clone` makes are new objects: their identities are
distinct and lie between the first unused identity before and after. -/
theorem clone_ids :
    ∀ (m : Node) (next : Nat), next ≤ (Node.clone next m).2 ∧
      (Node.clone next m).1.ids.Nodup ∧
      ∀ x, x ∈ (Node.clone next m).1.ids → next ≤ x ∧ x < (Node.clone next m).2
  | ⟨i, nm, ty, ks⟩, next => by
    obtain ⟨h1, h2, h3⟩ := cloneL_ids ks (next + 1)
    simp only [Node.clone, Node.ids, List.nodup_cons, List.mem_cons]
    refine ⟨by omega, ⟨fun h => ?_, h2⟩, ?_⟩
    · have := (h3 next h).1; omega
    · intro x hx
      rcases hx with hx | hx
      · omega
      · have := h3 x hx; omega
theorem cloneL_ids :
    ∀ (ks : List Node) (next : Nat), next ≤ (Node.cloneL next ks).2 ∧
      (Node.idsL (Node.cloneL next ks).1).Nodup ∧
      ∀ x, x ∈ Node.idsL (Node.cloneL next ks).1 → next ≤ x ∧ x < (Node.cloneL next ks).2
  | [], next => by simp [Node.cloneL, Node.idsL]
  | k :: ks, next => by
    obtain ⟨h1, h2, h3⟩ := clone_ids k next
    obtain ⟨g1, g2, g3⟩ := cloneL_ids ks (Node.clone next k).2
    simp only [Node.cloneL, Node.idsL, List.mem_append]
    refine ⟨by omega, ?_, ?_⟩
    · rw [List.nodup_append]
      refine ⟨h2, g2, ?_⟩
      intro x hx hy
      have := h3 x hx
      have := g3 x hy
      omega
    · intro x hx
      rcases hx with hx | hx
      · have := h3 x hx; omega
      · have := g3 x hx; omega
end

/-- The nodes built from a payload are new objects: their identities are
distinct and lie between the first unused identity before and after. -/
theorem NodesFromMimeData_ids :
    ∀ (md : List MimeData) (next : Nat), next ≤ (NodesFromMimeData next md).2.2 ∧
      (Node.idsL (NodesFromMimeData next md).1).Nodup ∧
      ∀ x, x ∈ Node.idsL (NodesFromMimeData next md).1 →
        next ≤ x ∧ x < (NodesFromMimeData next md).2.2
  | [], next => by simp [NodesFromMimeData, SyncNodesFromMimeData, Node.idsL]
  | d :: md, next => by
    have ih := fun n => NodesFromMimeData_ids md n
    simp only [NodesFromMimeData] at ih ⊢
    cases hd : d.Typ with
    | TextPlain =>
      simp only [SyncNodesFromMimeData, hd]
      exact ih next
    | Other s =>
      simp only [SyncNodesFromMimeData, hd]
      exact ih next
    | DataJson =>
      simp only [SyncNodesFromMimeData, hd]
      cases hr : ReadNewJSON next d.Data with
      | error e => simp only [hr]; exact ih next
      | ok nki =>
        simp only [hr]
        have hc : ∃ m, nki = Node.clone next m := by
          unfold ReadNewJSON at hr
          split at hr
          · simp only [Except.ok.injEq] at hr
            exact ⟨_, hr.symm⟩
          · cases hr
        obtain ⟨m, rfl⟩ := hc
        obtain ⟨h1, h2, h3⟩ := clone_ids m next
        obtain ⟨g1, g2, g3⟩ := ih (Node.clone next m).2
        simp only [Node.idsL, List.mem_append]
        refine ⟨by omega, ?_, ?_⟩
        · rw [List.nodup_append]
          refine ⟨h2, g2, ?_⟩
          intro x hx hy
          have := h3 x hx
          have := g3 x hy
          omega
        · intro x hx
          rcases hx with hx | hx
          · have := h3 x hx; omega
          · have := g3 x hx; omega

theorem mem_idsL_of_mem (ks : List Node) (n : Node) (h : n ∈ ks) : n.id ∈ Node.idsL ks := by
  obtain ⟨i, hi⟩ := List.getElem?_of_mem h
  exact mem_idsL_of_getElem? ks i n hi _ (id_mem_ids n)

theorem pairwise_of_nodup_idsL :
    ∀ (ks : List Node), (Node.idsL ks).Nodup → ks.Pairwise (fun x y => y.id ∉ x.ids)
  | [], _ => List.Pairwise.nil
  | k :: ks, h => by
    rw [idsL_cons, List.nodup_append] at h
    refine List.Pairwise.cons ?_ (pairwise_of_nodup_idsL ks h.2.1)
    intro y hy hx
    exact h.2.2 hx (mem_idsL_of_mem ks y hy)

theorem getElem?_mid {α : Type} (a N b : List α) (i : Nat) (h : i < N.length) :
    (a ++ N ++ b)[a.length + i]? = N[i]? := by
  rw [List.append_assoc, List.getElem?_append_right (by omega)]
  simp only [Nat.add_sub_cancel_left]
  exact List.getElem?_append_left h

/-! ## Claims on `PasteAtSync` -/

/-- C16: `PasteAtSync` on a non-root node at sibling index `k` of a synchronised
view (the source tree having distinct node identities, `rel` being 0 or 1 and
the payload carrying a path for every node) succeeds, and the children of the
source parent become the children before index `k + rel`, the payload nodes in
payload order, and the children from index `k + rel` on: the `i`-th payload
node is the child at index `k + rel + i`.  In a drop mode other than move the
payload nodes are named by `pasteCopies`: a node gets `_Copy` appended exactly
when the parent has a child with its name at the time it is inserted.  In move
mode (the identities of the source tree being below the next unused one) every
payload node has its own name, or its name with the tag: `_Copy` is never
appended. -/
theorem C16_paste_names_and_positions (tag : String) (w : World) (pp : List Nat) (k : Nat)
    (v : TreeView) (md : List MimeData) (mod : DropMods) (rel : Nat)
    (hm : Mirrors w.view w.src = true) (hn : w.src.ids.Nodup)
    (hv : w.view.nodeAt? (pp ++ [k]) = some v) (hrel : rel ≤ 1)
    (hpl : (NodesFromMimeData w.nextId md).1.length ≤ (NodesFromMimeData w.nextId md).2.1.length) :
    ∃ n pn, w.src.nodeAt? (pp ++ [k]) = some n ∧ w.src.nodeAt? pp = some pn ∧
      (mod ≠ DropMods.DropMove →
        ∃ w1 p1, PasteAtSync tag w (pp ++ [k]) md mod rel = .ok w1 ∧
          w1.src.find? pn.id = some p1 ∧
          p1.Kids = pn.Kids.take (k + rel) ++
            pasteCopies (pn.Kids.map (fun c => c.Nm)) (NodesFromMimeData w.nextId md).1 ++
            pn.Kids.drop (k + rel) ∧
          ∀ i, i < (NodesFromMimeData w.nextId md).1.length → p1.Kids[k + rel + i]? =
            (pasteCopies (pn.Kids.map (fun c => c.Nm)) (NodesFromMimeData w.nextId md).1)[i]?) ∧
      (mod = DropMods.DropMove → (∀ x, x ∈ w.src.ids → x < w.nextId) →
        ∃ w1 p1 N, PasteAtSync tag w (pp ++ [k]) md mod rel = .ok w1 ∧
          w1.src.find? pn.id = some p1 ∧
          p1.Kids = pn.Kids.take (k + rel) ++ N ++ pn.Kids.drop (k + rel) ∧
          List.Forall₂ (fun m s => m.id = s.id ∧ m.Typ = s.Typ ∧ m.Kids = s.Kids ∧
            (m.Nm = s.Nm ∨ m.Nm = s.Nm ++ tag)) N (NodesFromMimeData w.nextId md).1 ∧
          ∀ i, i < N.length → p1.Kids[k + rel + i]? = N[i]?) := by
  obtain ⟨n, pn, tvp, hsn, hspn, hkn, htvp, hkv, hmn, hmp, hvs, hps, hfn, hfp, hpar, hroot⟩ :=
    synced_node w pp k v hm hn hv
  have hk : k < pn.Kids.length := by
    rcases Nat.lt_or_ge k pn.Kids.length with h | h
    · exact h
    · rw [List.getElem?_eq_none h] at hkn; cases hkn
  have hA : (pn.Kids.take (k + rel)).length = k + rel := by
    rw [List.length_take]; omega
  have hsplit : pn.Kids = pn.Kids.take (k + rel) ++ [] ++ pn.Kids.drop (k + rel) := by simp
  refine ⟨n, pn, hsn, hspn, ?_, ?_⟩
  · intro hmod
    obtain ⟨r, hr, hid, hfind⟩ := pasteLoop_copy tag mod pn.id w.view.SyncNode (k + rel)
      (NodesFromMimeData w.nextId md).2.1 hmod (NodesFromMimeData w.nextId md).1 0 w.src pn
      (pn.Kids.take (k + rel)) [] (pn.Kids.drop (k + rel)) hfp hsplit hA rfl (by simpa using hpl)
    obtain ⟨w1, hpaste, hsrc, _⟩ := PasteAtSync_ok tag w pp k v md mod rel n.id pn r hv hvs hpar
      hroot hr hid
    refine ⟨w1, _, hpaste, by rw [hsrc, hfind], by simp, ?_⟩
    intro i hi
    have := getElem?_mid (pn.Kids.take (k + rel))
      (pasteCopies (pn.Kids.map (fun c => c.Nm)) (NodesFromMimeData w.nextId md).1)
      (pn.Kids.drop (k + rel)) i (by rw [pasteCopies_length]; exact hi)
    rw [hA] at this
    simpa using this
  · intro hmod hnext
    subst hmod
    obtain ⟨g1, g2, g3⟩ := NodesFromMimeData_ids md w.nextId
    obtain ⟨r, N, hr, hid, hfind, hall⟩ := pasteLoop_move tag pn.id w.view.SyncNode (k + rel)
      (NodesFromMimeData w.nextId md).2.1 (NodesFromMimeData w.nextId md).1 0 w.src pn
      (pn.Kids.take (k + rel)) [] (pn.Kids.drop (k + rel)) hfp hsplit hA rfl (by simpa using hpl)
      (fun ns hns hx => by
        have h1 := g3 _ (mem_idsL_of_mem _ ns hns)
        have h2 := hnext _ hx
        omega)
      (pairwise_of_nodup_idsL _ g2)
    obtain ⟨w1, hpaste, hsrc, _⟩ := PasteAtSync_ok tag w pp k v md DropMods.DropMove rel n.id pn r
      hv hvs hpar hroot hr hid
    refine ⟨w1, _, N, hpaste, by rw [hsrc, hfind], by simp, hall, ?_⟩
    intro i hi
    have := getElem?_mid (pn.Kids.take (k + rel)) N (pn.Kids.drop (k + rel)) i hi
    rw [hA] at this
    simpa using this

/-- C16 (witness): the payload of `B` pasted after `tv_C` in the view of
`{A: [B, C]}`, in copy mode and in move mode. -/
theorem C16_paste_names_and_positions_witness :
    Mirrors worldABC.view worldABC.src = true ∧ worldABC.src.ids.Nodup ∧
    worldABC.view.nodeAt? ([] ++ [1]) = some tvC ∧
    (∃ w1 p1, PasteAtSync "_MOVED" worldABC ([] ++ [1]) mdB DropMods.DropCopy 1 = .ok w1 ∧
      w1.src.find? 1 = some p1 ∧ p1.Kids.map (fun c => c.Nm) = ["B", "C", "B_Copy"]) ∧
    (∃ w1 p1, PasteAtSync "_MOVED" worldABC ([] ++ [1]) mdB DropMods.DropMove 1 = .ok w1 ∧
      w1.src.find? 1 = some p1 ∧ p1.Kids.length = 3) := by
  obtain ⟨n, pn, hn, hpn, hcopy, _⟩ := C16_paste_names_and_positions "_MOVED" worldABC [] 1 tvC
    mdB DropMods.DropCopy 1 (by decide) (by decide) rfl (by decide) (by decide)
  obtain ⟨n2, pn2, hn2, hpn2, _, hmove⟩ := C16_paste_names_and_positions "_MOVED" worldABC [] 1 tvC
    mdB DropMods.DropMove 1 (by decide) (by decide) rfl (by decide) (by decide)
  have e1 : pn = srcABC := by
    have : some srcABC = some pn := hpn
    exact (Option.some.inj this).symm
  have e2 : pn2 = srcABC := by
    have : some srcABC = some pn2 := hpn2
    exact (Option.some.inj this).symm
  subst e1 e2
  refine ⟨by decide, by decide, rfl, ?_, ?_⟩
  · obtain ⟨w1, p1, h1, h2, h3, _⟩ := hcopy (by decide)
    exact ⟨w1, p1, h1, h2, by rw [h3]; decide⟩
  · obtain ⟨w1, p1, N, h1, h2, h3, h4, _⟩ := hmove rfl (by decide)
    refine ⟨w1, p1, h1, h2, ?_⟩
    rw [h3]
    have := h4.length_eq
    simp only [List.length_append, this]
    decide

/-! ## Theorems: the path of a node that has been inserted -/

mutual
theorem namesTo?_not_mem (q : Nat) : ∀ (t : Node), q ∉ t.ids → t.namesTo? q = none
  | ⟨i, nm, ty, ks⟩, h => by
    simp only [Node.ids, List.mem_cons, not_or] at h
    have hi : ¬ i = q := fun e => h.1 e.symm
    simp only [Node.namesTo?, hi, if_false]
    exact namesToL?_not_mem q ks h.2
theorem namesToL?_not_mem (q : Nat) :
    ∀ (ks : List Node), q ∉ Node.idsL ks → Node.namesToL? q ks = none
  | [], _ => rfl
  | k :: ks, h => by
    simp only [Node.idsL, List.mem_append, not_or] at h
    simp only [Node.namesToL?, namesTo?_not_mem q k h.1, namesToL?_not_mem q ks h.2]
end

theorem setKids_Nm (p : Nat) (new : List Node) (t : Node) : (t.setKids p new).Nm = t.Nm := by
  cases t with
  | mk i nm ty ks =>
    by_cases h : i = p <;> simp [Node.setKids, h]

/-- The names on the way to a node that is found first among the children. -/
theorem namesToL?_split (kid : Node) (b : List Node) :
    ∀ (a : List Node), kid.id ∉ Node.idsL a →
      Node.namesToL? kid.id (a ++ kid :: b) = some [kid.Nm]
  | [], _ => by
    have : kid.namesTo? kid.id = some [] := by cases kid; simp [Node.namesTo?]
    simp only [List.nil_append, Node.namesToL?, this]
  | x :: a, h => by
    simp only [Node.idsL, List.mem_append, not_or] at h
    have ih := namesToL?_split kid b a h.2
    rw [List.cons_append]
    generalize a ++ kid :: b = z at ih ⊢
    simp only [Node.namesToL?, namesTo?_not_mem kid.id x h.1, ih]

mutual
/-- The path of a new node that has become a child of the node `p`: the names
on the way to `p`, followed by the name of the new node, whatever its
siblings are. -/
theorem namesTo?_inserted (p : Nat) (kid : Node) (a b : List Node)
    (ha : kid.id ∉ Node.idsL a) :
    ∀ (t : Node), kid.id ∉ t.ids →
      (t.setKids p (a ++ kid :: b)).namesTo? kid.id =
        (t.namesTo? p).map (fun r => r ++ [kid.Nm])
  | ⟨i, nm, ty, ks⟩, h => by
    simp only [Node.ids, List.mem_cons, not_or] at h
    have hi : ¬ i = kid.id := fun e => h.1 e.symm
    by_cases hp : i = p
    · simp only [Node.setKids, hp, if_true, Node.namesTo?]
      rw [if_neg (hp ▸ hi), namesToL?_split kid b a ha]
      rfl
    · simp only [Node.setKids, hp, if_false, Node.namesTo?, hi]
      exact namesToL?_inserted p kid a b ha ks h.2
theorem namesToL?_inserted (p : Nat) (kid : Node) (a b : List Node)
    (ha : kid.id ∉ Node.idsL a) :
    ∀ (ks : List Node), kid.id ∉ Node.idsL ks →
      Node.namesToL? kid.id (Node.setKidsL p (a ++ kid :: b) ks) =
        (Node.namesToL? p ks).map (fun r => r ++ [kid.Nm])
  | [], _ => rfl
  | k :: ks, h => by
    simp only [Node.idsL, List.mem_append, not_or] at h
    have ih1 := namesTo?_inserted p kid a b ha k h.1
    have ih2 := namesToL?_inserted p kid a b ha ks h.2
    simp only [Node.setKidsL, Node.namesToL?, ih1, setKids_Nm]
    cases hk : Node.namesTo? p k with
    | none => simp only [Option.map_none', ih2]
    | some r => simp only [Option.map_some', List.cons_append]
end

mutual
/-- New children of the node `p` leave the way to `p` as it is. -/
theorem namesTo?_setKids_self (p : Nat) (new : List Node) :
    ∀ (t : Node), (t.setKids p new).namesTo? p = t.namesTo? p
  | ⟨i, nm, ty, ks⟩ => by
    by_cases hp : i = p
    · simp only [Node.setKids, hp, if_true, Node.namesTo?]
    · simp only [Node.setKids, hp, if_false, Node.namesTo?]
      exact namesToL?_setKidsL_self p new ks
theorem namesToL?_setKidsL_self (p : Nat) (new : List Node) :
    ∀ (ks : List Node), Node.namesToL? p (Node.setKidsL p new ks) = Node.namesToL? p ks
  | [] => rfl
  | k :: ks => by
    simp only [Node.setKidsL, Node.namesToL?, namesTo?_setKids_self p new k, setKids_Nm,
      namesToL?_setKidsL_self p new ks]
end

theorem pasteMoved_congr (tag : String) (path path2 : Node → String) (pl : List String) :
    ∀ (nodes : List Node) (i : Nat), (∀ ns, ns ∈ nodes → path ns = path2 ns) →
      pasteMoved tag path pl i nodes = pasteMoved tag path2 pl i nodes
  | [], _, _ => rfl
  | ns :: rest, i, h => by
    simp only [pasteMoved, h ns (List.mem_cons_self _ _),
      pasteMoved_congr tag path path2 pl rest (i + 1) (fun x hx => h x (List.mem_cons_of_mem _ hx))]

theorem setName_id (q : Nat) (nm : String) (t : Node) : (t.setName q nm).id = t.id := by
  cases t with
  | mk i n ty ks =>
    by_cases h : i = q <;> simp [Node.setName, h]

/-- One round of the loop of `DropDeleteSourceSync` with a sync root succeeds
and keeps the root of the source tree. -/
theorem dropDeleteStep_ok (tag : String) (q : Nat) (d : MimeData) (src : Node) :
    ∃ src1, dropDeleteStep tag (some q) d src = .ok src1 ∧ src1.id = src.id := by
  unfold dropDeleteStep
  split
  · exact ⟨src, rfl, rfl⟩
  · simp only
    split
    · refine ⟨_, rfl, ?_⟩
      rw [setName_id]
      split
      · exact deleteId_id _ _
      · rfl
    · refine ⟨_, rfl, ?_⟩
      split
      · exact deleteId_id _ _
      · rfl

theorem dropDeleteLoop_ok (tag : String) (q : Nat) :
    ∀ (md : List MimeData) (src : Node),
      ∃ src1, dropDeleteLoop tag (some q) md src = .ok src1 ∧ src1.id = src.id
  | [], src => ⟨src, rfl, rfl⟩
  | d :: md, src => by
    obtain ⟨s1, h1, hid1⟩ := dropDeleteStep_ok tag q d src
    obtain ⟨s2, h2, hid2⟩ := dropDeleteLoop_ok tag q md s1
    exact ⟨s2, by simp only [dropDeleteLoop, h1, h2], hid2.trans hid1⟩

/-! ## Claims on `DropDeleteSourceSync` -/

/-- C18 (counterexample): after `B` has been moved before itself in
`{A: [B, C]}`, the children are `B_MOVED` (the new node 4), `B` (node 2) and
`C`.  A node exists at the path `B` plus the tag; `DropDeleteSourceSync` with
the path `B` renames it to `B` and also deletes the node 2 at the path `B`. -/
theorem C18_tagged_node_renamed_and_source_deleted :
    ∃ w0 w1, PasteAtSync "_MOVED" worldABC [0] mdB DropMods.DropMove 0 = .ok w0 ∧
      w0.src.Kids.map (fun c => (c.id, c.Nm)) = [(4, "B_MOVED"), (2, "B"), (3, "C")] ∧
      (findPathFrom w0.src 1 ("B" ++ "_MOVED")).map (fun c => c.id) = some 4 ∧
      DropDeleteSourceSync "_MOVED" w0 [0] mdB = .ok w1 ∧
      w1.src.Kids.map (fun c => (c.id, c.Nm)) = [(4, "B"), (3, "C")] :=
  ⟨_, _, rfl, by decide, by decide, rfl, by decide⟩

/-! ## Theorems: the loop of `DropDeleteSourceSync` -/

/-- One round of the loop of `DropDeleteSourceSync` with a sync root: the two
steps on the path of a text entry. -/
theorem dropDeleteStep_eq (tag : String) (q : Nat) (d : MimeData) (src : Node) :
    dropDeleteStep tag (some q) d src = .ok (dropEntry tag q d src) := by
  unfold dropDeleteStep dropEntry renameTagged deletePath
  by_cases h : d.Typ = MimeType.TextPlain
  · simp only [h, ne_eq, not_true_eq_false, if_false, if_true]
    cases h1 : findPathFrom src q d.Data with
    | none =>
      simp only
      cases h2 : findPathFrom src q (d.Data ++ tag) <;> simp only
    | some sn =>
      simp only
      cases h2 : findPathFrom (src.deleteId sn.id) q (d.Data ++ tag) <;> simp only
  · simp only [h, ne_eq, not_false_eq_true, if_true, if_false]

/-- The loop of `DropDeleteSourceSync` with a sync root handles the entries of
the payload one after the other, each on the tree that the entries before it
have left. -/
theorem dropDeleteLoop_eq (tag : String) (q : Nat) :
    ∀ (md : List MimeData) (src : Node),
      dropDeleteLoop tag (some q) md src = .ok (md.foldl (fun s d => dropEntry tag q d s) src)
  | [], _ => rfl
  | d :: md, src => by
    simp only [dropDeleteLoop, dropDeleteStep_eq, List.foldl_cons, dropDeleteLoop_eq tag q md]

mutual
theorem ids_deleteId_sublist (q : Nat) : ∀ (t : Node), (t.deleteId q).ids.Sublist t.ids
  | ⟨i, nm, ty, ks⟩ => by
    simp only [Node.deleteId, Node.ids]
    exact (idsL_deleteIdL_sublist q ks).cons₂ i
theorem idsL_deleteIdL_sublist (q : Nat) :
    ∀ (ks : List Node), (Node.idsL (Node.deleteIdL q ks)).Sublist (Node.idsL ks)
  | [] => List.Sublist.refl _
  | k :: ks => by
    by_cases hk : k.id = q
    · simp only [Node.deleteIdL, hk, if_true, Node.idsL]
      exact (idsL_deleteIdL_sublist q ks).trans (List.sublist_append_right _ _)
    · simp only [Node.deleteIdL, hk, if_false, Node.idsL]
      exact (ids_deleteId_sublist q k).append (idsL_deleteIdL_sublist q ks)
end

/-- With distinct identities, `SetName` on the node that an identity refers to
changes the name of the node at its path and nothing else. -/
theorem setName_of_nodeAt? (new : String) :
    ∀ (p : List Nat) (t n : Node), t.ids.Nodup → t.nodeAt? p = some n →
      t.setName n.id new = Node.updateAt (fun x => { x with Nm := new }) p t
  | [], t, n, _, h => by
    simp only [Node.nodeAt?, Option.some.injEq] at h
    subst h
    cases t
    simp [Node.setName, Node.updateAt]
  | i :: p, ⟨i0, nm, ty, ks⟩, n, hn, h => by
    rw [Node.srcAt?_cons] at h
    cases hk : ks[i]? with
    | none => simp [hk] at h
    | some k =>
      simp only [hk, Option.some_bind] at h
      obtain ⟨a, b, hab, hl⟩ := split_of_getElem? ks i k hk
      subst hab
      subst hl
      simp only [Node.ids] at hn
      obtain ⟨hkn, hdis⟩ := nodup_split i0 a b k hn
      have hq := hdis n.id (ids_of_nodeAt? p k n h n.id (id_mem_ids n))
      have hi : ¬ i0 = n.id := fun e => hq.1 e.symm
      simp only [Node.setName, hi, if_false, Node.updateAt, modify_split]
      rw [setNameL_split n.id new k b a hq.2.1 hq.2.2, setName_of_nodeAt? new p k n hkn h]

theorem dropEntry_id (tag : String) (q : Nat) (d : MimeData) (src : Node) :
    (dropEntry tag q d src).id = src.id := by
  unfold dropEntry renameTagged deletePath
  split
  · split
    · rw [setName_id]
      split
      · exact deleteId_id _ _
      · rfl
    · split
      · exact deleteId_id _ _
      · rfl
  · rfl

theorem foldl_dropEntry_id (tag : String) (q : Nat) :
    ∀ (md : List MimeData) (src : Node),
      (md.foldl (fun s d => dropEntry tag q d s) src).id = src.id
  | [], _ => rfl
  | d :: md, src => by
    rw [List.foldl_cons, foldl_dropEntry_id tag q md, dropEntry_id]

/-- The two steps for a path, in a source tree with distinct identities: the
first erases the node found at the path from the children of its parent and
changes nothing else; the second changes the name of the node found at the
path plus the tag and nothing else. -/
theorem drop_steps (tag : String) (q : Nat) (path : String) (src : Node) (hn : src.ids.Nodup) :
    (∀ sn pq j, findPathFrom src q path = some sn → src.nodeAt? (pq ++ [j]) = some sn →
      deletePath q path src =
        Node.updateAt (fun x => { x with Kids := x.Kids.eraseIdx j }) pq src) ∧
    (findPathFrom src q path = none → deletePath q path src = src) ∧
    (deletePath q path src).ids.Nodup ∧
    (∀ sn2 p2, findPathFrom src q (path ++ tag) = some sn2 → src.nodeAt? p2 = some sn2 →
      renameTagged tag q path src =
        Node.updateAt (fun x => { x with Nm := lastSegment path }) p2 src) ∧
    (findPathFrom src q (path ++ tag) = none → renameTagged tag q path src = src) := by
  refine ⟨?_, ?_, ?_, ?_, ?_⟩
  · intro sn pq j h1 h2
    simp only [deletePath, h1]
    exact deleteId_of_nodeAt? j pq src sn hn h2
  · intro h1
    simp only [deletePath, h1]
  · unfold deletePath
    split
    · exact hn.sublist (ids_deleteId_sublist _ src)
    · exact hn
  · intro sn2 p2 h1 h2
    simp only [renameTagged, h1]
    exact setName_of_nodeAt? _ p2 src sn2 hn h2
  · intro h1
    simp only [renameTagged, h1]

/-! ## The amended claim on `DropDeleteSourceSync` -/

/-- C18 (amended): `DropDeleteSourceSync`, the root view pointing to the root of
the source tree, succeeds, resynchronises once, and leaves the source tree
that results from handling the entries of the payload one after the other
(`dropEntry`): an entry of another type than text is ignored; for a text entry
with a path, first the node found at the path, if any, is deleted, then the
node found at the path plus the tag in the resulting tree, if any, is renamed
to the last segment of the path.  In a source tree with distinct identities
the deletion erases exactly that node from the children of its parent, the
renaming changes exactly the name of that node, and both happen for the same
path when both nodes exist: the deletion is not skipped when a tagged node
exists.  A path for which neither node exists changes nothing. -/
theorem C18_drop_deletes_then_renames (tag : String) (w : World) (tv : List Nat)
    (md : List MimeData) (hroot : w.view.SyncNode = some w.src.id) :
    (∃ w1, DropDeleteSourceSync tag w tv md = .ok w1 ∧
      w1.src = md.foldl (fun s d => dropEntry tag w.src.id d s) w.src ∧
      w1.resyncs = w.resyncs + 1 ∧ Mirrors w1.view w1.src = true) ∧
    (∀ q d src, d.Typ ≠ MimeType.TextPlain → dropEntry tag q d src = src) ∧
    (∀ q d src, d.Typ = MimeType.TextPlain → src.ids.Nodup →
      (∀ sn pq j sn2 p2, findPathFrom src q d.Data = some sn →
        src.nodeAt? (pq ++ [j]) = some sn →
        findPathFrom (Node.updateAt (fun x => { x with Kids := x.Kids.eraseIdx j }) pq src) q
          (d.Data ++ tag) = some sn2 →
        (Node.updateAt (fun x => { x with Kids := x.Kids.eraseIdx j }) pq src).nodeAt? p2 =
          some sn2 →
        dropEntry tag q d src =
          Node.updateAt (fun x => { x with Nm := lastSegment d.Data }) p2
            (Node.updateAt (fun x => { x with Kids := x.Kids.eraseIdx j }) pq src)) ∧
      (∀ sn pq j, findPathFrom src q d.Data = some sn → src.nodeAt? (pq ++ [j]) = some sn →
        findPathFrom (Node.updateAt (fun x => { x with Kids := x.Kids.eraseIdx j }) pq src) q
          (d.Data ++ tag) = none →
        dropEntry tag q d src =
          Node.updateAt (fun x => { x with Kids := x.Kids.eraseIdx j }) pq src) ∧
      (∀ sn2 p2, findPathFrom src q d.Data = none →
        findPathFrom src q (d.Data ++ tag) = some sn2 → src.nodeAt? p2 = some sn2 →
        dropEntry tag q d src =
          Node.updateAt (fun x => { x with Nm := lastSegment d.Data }) p2 src) ∧
      (findPathFrom src q d.Data = none → findPathFrom src q (d.Data ++ tag) = none →
        dropEntry tag q d src = src)) := by
  refine ⟨?_, ?_, ?_⟩
  · have hloop := dropDeleteLoop_eq tag w.src.id md w.src
    obtain ⟨w1, hre, hsrc, _, hrs, _, hmir⟩ := SendChangeEventReSync_mirrors
      { w with src := md.foldl (fun s d => dropEntry tag w.src.id d s) w.src } tv
      (by simp only [hroot, foldl_dropEntry_id])
    refine ⟨w1, ?_, hsrc, hrs, by rw [hsrc]; exact hmir⟩
    simp only [DropDeleteSourceSync, hroot, hloop, hre]
  · intro q d src h
    simp only [dropEntry, h, if_false]
  · intro q d src h hn
    have h1 := drop_steps tag q d.Data src hn
    refine ⟨?_, ?_, ?_, ?_⟩
    · intro sn pq j sn2 p2 hf hat hf2 hat2
      have he := h1.1 sn pq j hf hat
      have hn2 := h1.2.2.1
      rw [he] at hn2
      simp only [dropEntry, h, if_true, he]
      exact (drop_steps tag q d.Data _ hn2).2.2.2.1 sn2 p2 hf2 hat2
    · intro sn pq j hf hat hf2
      have he := h1.1 sn pq j hf hat
      have hn2 := h1.2.2.1
      rw [he] at hn2
      simp only [dropEntry, h, if_true, he]
      exact (drop_steps tag q d.Data _ hn2).2.2.2.2 hf2
    · intro sn2 p2 hf hf2 hat2
      simp only [dropEntry, h, if_true, h1.2.1 hf]
      exact h1.2.2.2.1 sn2 p2 hf2 hat2
    · intro hf hf2
      simp only [dropEntry, h, if_true, h1.2.1 hf]
      exact h1.2.2.2.2 hf2

/-- C18 (witness): in the source tree with the children `B_MOVED`, `B` and `C`,
`DropDeleteSourceSync` with the payload of `B` (the path `B` and a document,
which is ignored) deletes the node `B` at the path, at index 1, and renames
the tagged node, then at index 0, to `B`: the children are the former
`B_MOVED`, now named `B`, and `C`. -/
theorem C18_drop_deletes_then_renames_witness :
    worldMoved.view.SyncNode = some worldMoved.src.id ∧
    worldMoved.src.Kids.map (fun c => (c.id, c.Nm)) = [(4, "B_MOVED"), (2, "B"), (3, "C")] ∧
    (∃ w1, DropDeleteSourceSync "_MOVED" worldMoved [0] mdB = .ok w1 ∧
      w1.src.Kids.map (fun c => (c.id, c.Nm)) = [(4, "B"), (3, "C")] ∧
      w1.resyncs = worldMoved.resyncs + 1 ∧ Mirrors w1.view w1.src = true) ∧
    dropEntry "_MOVED" 1 { Typ := MimeType.TextPlain, Data := "B" } worldMoved.src =
      Node.updateAt (fun x => { x with Nm := lastSegment "B" }) [0]
        (Node.updateAt (fun x => { x with Kids := x.Kids.eraseIdx 1 }) [] worldMoved.src) := by
  have h := C18_drop_deletes_then_renames "_MOVED" worldMoved [0] mdB rfl
  obtain ⟨w1, h1, h2, h3, h4⟩ := h.1
  refine ⟨rfl, by decide, ⟨w1, h1, ?_, h3, h4⟩, ?_⟩
  · rw [h2]; decide
  · exact (h.2.2 1 { Typ := MimeType.TextPlain, Data := "B" } worldMoved.src rfl
      (by decide)).1 srcLeaf [] 1 (Node.mk 4 "B_MOVED" "Node" []) [0] rfl rfl rfl rfl

/-! ## Theorems: `CutSync` -/

theorem noSel_iff (t : TreeView) :
    t.preorder.filter (fun v => v.Selected) = [] ↔
      t.Selected = false ∧ (TreeView.preorderL t.Kids).filter (fun v => v.Selected) = [] := by
  rw [selected_eq]
  cases t.Selected <;> simp

theorem noSelL_cons (k : TreeView) (ks : List TreeView) :
    (TreeView.preorderL (k :: ks)).filter (fun v => v.Selected) = [] ↔
      k.preorder.filter (fun v => v.Selected) = [] ∧
        (TreeView.preorderL ks).filter (fun v => v.Selected) = [] := by
  simp only [TreeView.preorderL, List.filter_append, List.append_eq_nil]

theorem takeByName_noSel (nm : String) :
    ∀ (l : List TreeView) (k : TreeView) (r : List TreeView),
      takeByName nm l = some (k, r) →
      (TreeView.preorderL l).filter (fun v => v.Selected) = [] →
      k.preorder.filter (fun v => v.Selected) = [] ∧
        (TreeView.preorderL r).filter (fun v => v.Selected) = []
  | [], k, r, h, _ => by simp [takeByName] at h
  | x :: xs, k, r, h, hl => by
    rw [noSelL_cons] at hl
    unfold takeByName at h
    by_cases hx : x.Nm = nm
    · simp only [hx, if_true, Option.some.injEq, Prod.mk.injEq] at h
      rw [← h.1, ← h.2]; exact hl
    · simp only [hx, if_false] at h
      cases hrec : takeByName nm xs with
      | none => simp [hrec] at h
      | some q =>
        obtain ⟨y, rest⟩ := q
        simp only [hrec, Option.some.injEq, Prod.mk.injEq] at h
        obtain ⟨h1, h2⟩ := takeByName_noSel nm xs y rest hrec hl.2
        rw [← h.1, ← h.2, noSelL_cons]
        exact ⟨h1, hl.1, h2⟩

theorem configGo_noSel :
    ∀ (cfg : List String) (pool : List TreeView),
      (TreeView.preorderL pool).filter (fun v => v.Selected) = [] →
      (TreeView.preorderL (configGo cfg pool).1).filter (fun v => v.Selected) = []
  | [], pool, _ => rfl
  | nm :: rest, pool, h => by
    unfold configGo
    cases ht : takeByName nm pool with
    | none =>
      simp only
      rw [noSelL_cons]
      exact ⟨rfl, configGo_noSel rest pool h⟩
    | some q =>
      obtain ⟨k, pool1⟩ := q
      simp only
      obtain ⟨h1, h2⟩ := takeByName_noSel nm pool k pool1 ht h
      rw [noSelL_cons]
      exact ⟨h1, configGo_noSel rest pool1 h2⟩

mutual
/-- Synchronising a view in which no node is selected selects no node. -/
theorem SyncToSrcOn_noSel (OD : Int) (init : Bool) :
    ∀ (sk : Node) (hp : Bool) (tv : TreeView) (i d : Int),
      tv.preorder.filter (fun v => v.Selected) = [] →
      (SyncToSrcOn OD init hp sk tv i d).1.preorder.filter (fun v => v.Selected) = []
  | ⟨id, nm, ty, ks⟩, hp, tv, i, d, h => by
    rw [noSel_iff] at h
    have hf := SyncToSrcOn_fields OD init hp ⟨id, nm, ty, ks⟩ tv i d
    have ih := syncKids_noSel OD init ks
      (ConfigChildren tv.Kids (ks.map (fun s => "tv_" ++ s.Nm))).1 (i + 1) (d + 1)
      (configGo_noSel _ _ h.2)
    rw [noSel_iff, hf.2.2.2.1, hf.2.2.2.2.2.1]
    exact ⟨h.1, ih⟩
theorem syncKids_noSel (OD : Int) (init : Bool) :
    ∀ (sks : List Node) (vks : List TreeView) (i d : Int),
      (TreeView.preorderL vks).filter (fun v => v.Selected) = [] →
      (TreeView.preorderL (syncKids OD init sks vks i d).1).filter (fun v => v.Selected) = []
  | [], vks, i, d, h => by simpa [syncKids] using h
  | _ :: _, [], i, d, _ => by simp [syncKids, TreeView.preorderL]
  | sk :: sks, vk :: vks, i, d, h => by
    rw [noSelL_cons] at h
    have h1 := SyncToSrcOn_noSel OD init sk true { vk with SyncNode := some sk.id } i d
      (by rw [noSel_iff] at h ⊢; exact h.1)
    have h2 := syncKids_noSel OD init sks vks
      (SyncToSrcOn OD init true sk { vk with SyncNode := some sk.id } i d).2.1 d h.2
    simp only [syncKids]
    rw [noSelL_cons]
    exact ⟨h1, h2⟩
end

mutual
theorem deleteId_eq_prune (p : Nat) : ∀ (t : Node), t.deleteId p = t.prune [p]
  | ⟨i, nm, ty, ks⟩ => by
    simp only [Node.deleteId, Node.prune, deleteIdL_eq_pruneL p ks]
theorem deleteIdL_eq_pruneL (p : Nat) :
    ∀ (ks : List Node), Node.deleteIdL p ks = Node.pruneL [p] ks
  | [] => rfl
  | k :: ks => by
    simp only [Node.deleteIdL, Node.pruneL, List.mem_singleton, deleteId_eq_prune p k,
      deleteIdL_eq_pruneL p ks]
end

theorem prune_id (S : List Nat) (t : Node) : (t.prune S).id = t.id := by
  cases t; rfl

mutual
theorem prune_prune (T S : List Nat) : ∀ (t : Node), (t.prune T).prune S = t.prune (T ++ S)
  | ⟨i, nm, ty, ks⟩ => by
    simp only [Node.prune, pruneL_pruneL T S ks]
theorem pruneL_pruneL (T S : List Nat) :
    ∀ (ks : List Node), Node.pruneL S (Node.pruneL T ks) = Node.pruneL (T ++ S) ks
  | [] => rfl
  | k :: ks => by
    by_cases hT : k.id ∈ T
    · simp only [Node.pruneL, hT, if_true, List.mem_append, true_or, pruneL_pruneL T S ks]
    · by_cases hS : k.id ∈ S
      · simp only [Node.pruneL, hT, if_false, prune_id, hS, if_true, List.mem_append, or_true,
          pruneL_pruneL T S ks]
      · simp only [Node.pruneL, hT, if_false, prune_id, hS, List.mem_append, or_self,
          prune_prune T S k, pruneL_pruneL T S ks]
end

mutual
theorem ids_prune (S : List Nat) :
    ∀ (t : Node) (x : Nat), x ∈ Node.idsL (t.prune S).Kids → x ∉ S
  | ⟨_, _, _, ks⟩, x, h => idsL_pruneL S ks x h
theorem idsL_pruneL (S : List Nat) :
    ∀ (ks : List Node) (x : Nat), x ∈ Node.idsL (Node.pruneL S ks) → x ∉ S
  | [], x, h => by simp [Node.pruneL, Node.idsL] at h
  | k :: ks, x, h => by
    by_cases hk : k.id ∈ S
    · simp only [Node.pruneL, hk, if_true] at h
      exact idsL_pruneL S ks x h
    · simp only [Node.pruneL, hk, if_false, idsL_cons, List.mem_append] at h
      rcases h with h | h
      · rw [ids_eq, prune_id] at h
        simp only [List.mem_cons] at h
        rcases h with h | h
        · rw [h]; exact hk
        · exact ids_prune S k x h
      · exact idsL_pruneL S ks x h
end

mutual
theorem prune_nil : ∀ (t : Node), t.prune [] = t
  | ⟨i, nm, ty, ks⟩ => by simp only [Node.prune, pruneL_nil ks]
theorem pruneL_nil : ∀ (ks : List Node), Node.pruneL [] ks = ks
  | [] => rfl
  | k :: ks => by
    simp only [Node.pruneL, List.not_mem_nil, if_false, prune_nil k, pruneL_nil ks]
end

/-- The loop of `CutSync` on pointers that are all set: the source tree without
the nodes pointed to. -/
theorem deleteAll_prune :
    ∀ (l : List (Option Nat)) (src : Node), l.all (fun o => o.isSome) = true →
      deleteAll l src = .ok (src.prune (l.filterMap id))
  | [], src, _ => by
    simp only [deleteAll, List.filterMap_nil, prune_nil]
  | none :: rest, src, h => by simp at h
  | some sn :: rest, src, h => by
    have hr : rest.all (fun o => o.isSome) = true := by simpa using h
    simp only [deleteAll, List.filterMap_cons, id_eq]
    rw [deleteAll_prune rest _ hr, deleteId_eq_prune, prune_prune]
    rfl

theorem SendChangeEventReSync_eq (w : World) (tv : List Nat)
    (hroot : w.view.SyncNode = some w.src.id) :
    SendChangeEventReSync w tv = .ok { w with
      view := (SyncToSrcOn w.OpenDepth false false w.src w.view w.view.ViewIndex 0).1,
      changed := w.changed + (SyncToSrcOn w.OpenDepth false false w.src w.view w.view.ViewIndex 0).2.2,
      resyncs := w.resyncs + 1 } := by
  simp only [SendChangeEventReSync, ReSync, SyncToSrc, hroot, find?_self]

/-! ## Claims on `CutSync` -/

mutual
/-- Pruning depends only on which identities are in the list. -/
theorem prune_congr (S T : List Nat) (h : ∀ s, s ∈ S ↔ s ∈ T) :
    ∀ (t : Node), t.prune S = t.prune T
  | ⟨i, nm, ty, ks⟩ => by
    simp only [Node.prune, pruneL_congr S T h ks]
theorem pruneL_congr (S T : List Nat) (h : ∀ s, s ∈ S ↔ s ∈ T) :
    ∀ (ks : List Node), Node.pruneL S ks = Node.pruneL T ks
  | [] => rfl
  | k :: ks => by
    by_cases hk : k.id ∈ S
    · have hk2 : k.id ∈ T := (h _).1 hk
      simp only [Node.pruneL, hk, hk2, if_true, pruneL_congr S T h ks]
    · have hk2 : k.id ∉ T := fun e => hk ((h _).2 e)
      simp only [Node.pruneL, hk, hk2, if_false, prune_congr S T h k, pruneL_congr S T h ks]
end

/-- The sync nodes of the selected view nodes, as a set: a pointer is among
them exactly when a selected node of the view has it as its sync node. -/
theorem mem_SelectedSyncNodes (w : World) (s : Nat) :
    s ∈ (SelectedSyncNodes w).filterMap id ↔
      ∃ x, x ∈ w.view.preorder ∧ x.Selected = true ∧ x.SyncNode = some s := by
  simp only [SelectedSyncNodes, SelectedViews, List.mem_filterMap, List.mem_map, List.mem_filter,
    id_eq]
  constructor
  · rintro ⟨o, ⟨x, ⟨hx, hs⟩, rfl⟩, ho⟩
    exact ⟨x, hx, hs, ho⟩
  · rintro ⟨x, hx, hs, ho⟩
    exact ⟨_, ⟨x, ⟨hx, hs⟩, rfl⟩, ho⟩

/-- C19: `CutSync`, when the root view points to the root of the source tree and
every selected view node has a sync node other than that root, succeeds.  The
source tree afterwards is the tree before without the sync nodes of the view
nodes that were selected at the call, whichever list names them: each of them
is removed, with its subtree, from the children of its parent, every other
node stays in its order, and none of them is in the source tree any more.  No
view node is selected afterwards, the view mirrors the source tree, and
exactly one resynchronisation has been issued, however many nodes were
selected. -/
theorem C19_cut_deletes_selected (w : World) (tv : List Nat)
    (hroot : w.view.SyncNode = some w.src.id)
    (hsel : ∀ x, x ∈ w.view.preorder → x.Selected = true →
      ∃ s, x.SyncNode = some s ∧ s ≠ w.src.id) :
    ∃ w1, CutSync w tv = .ok w1 ∧
      (∀ (S : List Nat),
        (∀ s, s ∈ S ↔ ∃ x, x ∈ w.view.preorder ∧ x.Selected = true ∧ x.SyncNode = some s) →
        w1.src = w.src.prune S) ∧
      (∀ x, x ∈ w.view.preorder → x.Selected = true → ∀ s, x.SyncNode = some s →
        s ∉ w1.src.ids) ∧
      w1.view.selectedNames = [] ∧ (∀ x, x ∈ w1.view.preorder → x.Selected = false) ∧
      w1.resyncs = w.resyncs + 1 ∧ Mirrors w1.view w1.src = true := by
  have hall : (SelectedSyncNodes w).all (fun o => o.isSome) = true := by
    simp only [SelectedSyncNodes, SelectedViews, List.all_eq_true, List.mem_map, List.mem_filter]
    rintro o ⟨x, ⟨hx, hs⟩, rfl⟩
    obtain ⟨s, h1, _⟩ := hsel x hx hs
    rw [h1]; rfl
  have hdel := deleteAll_prune (SelectedSyncNodes w) w.src hall
  have hroot1 : (UnselectAll w).view.SyncNode =
      some (w.src.prune ((SelectedSyncNodes w).filterMap id)).id := by
    rw [prune_id, ← hroot]
    exact (unselectAll_fields w.view).2.2.1
  have hre := SendChangeEventReSync_eq
    { UnselectAll w with src := w.src.prune ((SelectedSyncNodes w).filterMap id) } tv hroot1
  have hno : (SyncToSrcOn w.OpenDepth false false
      (w.src.prune ((SelectedSyncNodes w).filterMap id)) w.view.unselectAll
      w.view.unselectAll.ViewIndex 0).1.preorder.filter (fun v => v.Selected) = [] :=
    SyncToSrcOn_noSel _ _ _ _ _ _ _ (unselectAll_selected w.view)
  have hcut : CutSync w tv = SendChangeEventReSync
      { UnselectAll w with src := w.src.prune ((SelectedSyncNodes w).filterMap id) } tv := by
    simp only [CutSync]
    rw [show (UnselectAll w).src = w.src from rfl, hdel]
  rw [hcut, hre]
  refine ⟨_, rfl, ?_, ?_, ?_, ?_, rfl, ?_⟩
  · intro S hS
    show w.src.prune _ = w.src.prune S
    exact prune_congr _ _ (fun s => by rw [mem_SelectedSyncNodes, hS]) w.src
  · intro x hx hs s hxs
    show s ∉ (w.src.prune _).ids
    obtain ⟨s2, h1, hne⟩ := hsel x hx hs
    have hs2 : s2 = s := by rw [h1] at hxs; exact Option.some.inj hxs
    subst hs2
    rw [ids_eq, prune_id]
    simp only [List.mem_cons, not_or]
    refine ⟨hne, fun hmem => ?_⟩
    exact ids_prune _ w.src s2 hmem ((mem_SelectedSyncNodes w s2).2 ⟨x, hx, hs, h1⟩)
  · exact congrArg (List.map (fun v => v.Nm)) hno
  · intro x hx
    have := List.filter_eq_nil_iff.1 hno x hx
    simpa using this
  · exact SyncToSrcOn_mirrors _ _ _ _ _ _ _ hroot1

/-- C19 (witness): `CutSync` in the view of `{A: [B, C]}` with `tv_B` and `tv_C`
selected: `B` and `C` are deleted, the root stays alone, nothing is selected
and one resynchronisation is issued. -/
theorem C19_cut_deletes_selected_witness :
    worldSelBC.view.SyncNode = some worldSelBC.src.id ∧
    (∀ x, x ∈ worldSelBC.view.preorder → x.Selected = true →
      ∃ s, x.SyncNode = some s ∧ s ≠ worldSelBC.src.id) ∧
    ∃ w1, CutSync worldSelBC [0] = .ok w1 ∧ w1.src = worldSelBC.src.prune [2, 3] ∧
      w1.src.Kids = [] ∧ w1.view.selectedNames = [] ∧
      w1.resyncs = worldSelBC.resyncs + 1 ∧ Mirrors w1.view w1.src = true := by
  have hsel : ∀ x, x ∈ worldSelBC.view.preorder → x.Selected = true →
      ∃ s, x.SyncNode = some s ∧ s ≠ worldSelBC.src.id := by
    intro x hx hs
    have hp : worldSelBC.view.preorder =
        [worldSelBC.view, { tvB with Selected := true }, { tvC with Selected := true }] := rfl
    rw [hp] at hx
    simp only [List.mem_cons, List.mem_singleton, List.not_mem_nil, or_false] at hx
    rcases hx with rfl | rfl | rfl
    · exact absurd hs (by decide)
    · exact ⟨2, rfl, by decide⟩
    · exact ⟨3, rfl, by decide⟩
  obtain ⟨w1, h1, hS, _, hn, _, hr, hm⟩ := C19_cut_deletes_selected worldSelBC [0] rfl hsel
  have hsrc : w1.src = worldSelBC.src.prune [2, 3] := by
    apply hS
    intro s
    have hp : worldSelBC.view.preorder =
        [worldSelBC.view, { tvB with Selected := true }, { tvC with Selected := true }] := rfl
    rw [hp]
    constructor
    · intro h
      simp only [List.mem_cons, List.mem_singleton, List.not_mem_nil, or_false] at h
      rcases h with rfl | rfl
      · exact ⟨{ tvB with Selected := true }, by simp, rfl, rfl⟩
      · exact ⟨{ tvC with Selected := true }, by simp, rfl, rfl⟩
    · rintro ⟨x, hx, hs, hxs⟩
      simp only [List.mem_cons, List.mem_singleton, List.not_mem_nil, or_false] at hx
      rcases hx with rfl | rfl | rfl
      · exact absurd hs (by decide)
      · cases hxs; simp
      · cases hxs; simp
  exact ⟨rfl, hsel, w1, h1, hsrc, by rw [hsrc]; rfl, hn, hr, hm⟩

/-! ## Theorems: `PasteChildrenSync` -/

/-- The loop of `PasteChildrenSync`: the nodes are appended, in order, to the
children of the source node `sk`. -/
theorem addChildren_spec (sk : Nat) :
    ∀ (nodes : List Node) (src n : Node), src.find? sk = some n →
      ∃ src1, addChildren sk nodes src = .ok src1 ∧ src1.id = src.id ∧
        src1.find? sk = some { n with Kids := n.Kids ++ nodes }
  | [], src, n, h => by
    refine ⟨src, rfl, rfl, ?_⟩
    rw [h, List.append_nil]
    cases n; rfl
  | ns :: rest, src, n, h => by
    have h1 : (src.setKids sk (n.Kids ++ [ns])).find? sk =
        some { n with Kids := n.Kids ++ [ns] } := by
      rw [find?_setKids, h]; rfl
    obtain ⟨src1, hadd, hid, hfind⟩ := addChildren_spec sk rest _ _ h1
    refine ⟨src1, ?_, by rw [hid, setKids_id], ?_⟩
    · simp only [addChildren, h, hadd]
    · rw [hfind]
      simp only [List.append_assoc, List.singleton_append]

/-- The effect of `PasteChildrenSync` on a view node with a sync node, the root
view pointing to the root of the source tree. -/
theorem PasteChildrenSync_spec (w : World) (tv : List Nat) (v : TreeView) (sk : Nat) (n : Node)
    (md : List MimeData) (mod : DropMods)
    (hv : w.view.nodeAt? tv = some v) (hs : v.SyncNode = some sk)
    (hn : w.src.find? sk = some n) (hroot : w.view.SyncNode = some w.src.id) :
    ∃ w1, PasteChildrenSync w tv md mod = .ok w1 ∧
      w1.src.find? sk = some { n with Kids := n.Kids ++ (NodesFromMimeData w.nextId md).1 } ∧
      w1.resyncs = w.resyncs + 1 ∧ Mirrors w1.view w1.src = true := by
  obtain ⟨src1, hadd, hid, hfind⟩ :=
    addChildren_spec sk (NodesFromMimeData w.nextId md).1 w.src n hn
  obtain ⟨w1, hre, hsrc, _, hrs, _, hmir⟩ := SendChangeEventReSync_mirrors
    { w with src := src1, nextId := (NodesFromMimeData w.nextId md).2.2 } tv
    (by simp only [hroot, hid])
  refine ⟨w1, ?_, by rw [hsrc]; exact hfind, hrs, by rw [hsrc]; exact hmir⟩
  simp only [PasteChildrenSync, hv, hs, hadd, hre]

/-- The payload that `MimeDataSync` makes for a source node is read back as one
new node with the content of that node. -/
theorem MimeDataSync_decode (w0 : World) (tv0 : List Nat) (v0 : TreeView) (p : Nat) (x : Node)
    (next : Nat) (hv : w0.view.nodeAt? tv0 = some v0) (hs : v0.SyncNode = some p)
    (hx : w0.src.find? p = some x) :
    ∃ md0 m, MimeDataSync w0 tv0 [] = .ok md0 ∧ (NodesFromMimeData next md0).1 = [m] ∧
      Node.sameContent m x = true := by
  obtain ⟨m, next1, hread, hsame⟩ := ReadNewJSON_WriteNewJSON next x
  refine ⟨[{ Typ := MimeType.TextPlain, Data := w0.src.PathFrom p w0.view.SyncNode },
    { Typ := MimeType.DataJson, Data := String.mk x.encode }], m, ?_, ?_, hsame⟩
  · simp only [MimeDataSync, hv, hs, hx, WriteNewJSON, List.nil_append, List.singleton_append]
  · simp only [NodesFromMimeData, SyncNodesFromMimeData, hread]

/-! ## Claims on `PasteChildrenSync` -/

/-- C20: `PasteChildrenSync` on a view node with a sync node (the root view
pointing to the root of the source tree), in every drop mode: the children of
the sync node afterwards are its previous children followed by the nodes
read from the payload, in payload order; the node is otherwise as before, and
one resynchronisation is issued.  With the payload that `MimeDataSync` makes
for a source node `x` (as the copy step of `CutSync` does), the node appended
is one new node with the name, type and subtree of `x`. -/
theorem C20_paste_children_appends (w : World) (tv : List Nat) (v : TreeView) (sk : Nat)
    (n : Node) (mod : DropMods)
    (hv : w.view.nodeAt? tv = some v) (hs : v.SyncNode = some sk)
    (hn : w.src.find? sk = some n) (hroot : w.view.SyncNode = some w.src.id) :
    (∀ md, ∃ w1 n1, PasteChildrenSync w tv md mod = .ok w1 ∧ w1.src.find? sk = some n1 ∧
      n1.Kids = n.Kids ++ (NodesFromMimeData w.nextId md).1 ∧
      n1.id = n.id ∧ n1.Nm = n.Nm ∧ n1.Typ = n.Typ ∧
      w1.resyncs = w.resyncs + 1 ∧ Mirrors w1.view w1.src = true) ∧
    (∀ (w0 : World) (tv0 : List Nat) (v0 : TreeView) (p : Nat) (x : Node),
      w0.view.nodeAt? tv0 = some v0 → v0.SyncNode = some p → w0.src.find? p = some x →
      ∃ md0 m w1 n1, MimeDataSync w0 tv0 [] = .ok md0 ∧
        PasteChildrenSync w tv md0 mod = .ok w1 ∧ w1.src.find? sk = some n1 ∧
        n1.Kids = n.Kids ++ [m] ∧ Node.sameContent m x = true) := by
  constructor
  · intro md
    obtain ⟨w1, h1, h2, h3, h4⟩ := PasteChildrenSync_spec w tv v sk n md mod hv hs hn hroot
    exact ⟨w1, _, h1, h2, rfl, rfl, rfl, rfl, h3, h4⟩
  · intro w0 tv0 v0 p x hv0 hs0 hx
    obtain ⟨md0, m, hmd, hdec, hsame⟩ := MimeDataSync_decode w0 tv0 v0 p x w.nextId hv0 hs0 hx
    obtain ⟨w1, h1, h2, _, _⟩ := PasteChildrenSync_spec w tv v sk n md0 mod hv hs hn hroot
    exact ⟨md0, m, w1, _, hmd, h1, h2, by rw [hdec], hsame⟩

/-- C20 (witness): the payload of `B` pasted into the children of `C` in
`{A: [B, C]}`. -/
theorem C20_paste_children_appends_witness :
    worldABC.view.nodeAt? [1] = some tvC ∧ tvC.SyncNode = some 3 ∧
    worldABC.src.find? 3 = some (Node.mk 3 "C" "Node" []) ∧
    worldABC.view.SyncNode = some worldABC.src.id ∧
    (∃ w1 n1, PasteChildrenSync worldABC [1] mdB DropMods.DropMove = .ok w1 ∧
      w1.src.find? 3 = some n1 ∧
      n1.Kids = (Node.mk 3 "C" "Node" []).Kids ++ (NodesFromMimeData worldABC.nextId mdB).1 ∧
      n1.id = (Node.mk 3 "C" "Node" []).id ∧ n1.Nm = (Node.mk 3 "C" "Node" []).Nm ∧
      n1.Typ = (Node.mk 3 "C" "Node" []).Typ ∧
      w1.resyncs = worldABC.resyncs + 1 ∧ Mirrors w1.view w1.src = true) ∧
    (NodesFromMimeData worldABC.nextId mdB).1 = [Node.mk 4 "B" "Node" []] :=
  ⟨rfl, rfl, rfl, rfl,
    (C20_paste_children_appends worldABC [1] tvC 3 (Node.mk 3 "C" "Node" []) DropMods.DropMove
      rfl rfl rfl rfl).1 mdB, rfl⟩

/-! ## Theorems: payloads -/

/-- The paths that `SyncNodesFromMimeData` returns are the text entries of the
payload, all of them, whatever happens to the documents. -/
theorem SyncNodesFromMimeData_paths :
    ∀ (md : List MimeData) (next : Nat),
      (SyncNodesFromMimeData next md).2.1 =
        (md.filter (fun d => decide (d.Typ = MimeType.TextPlain))).map (fun d => d.Data)
  | [], _ => rfl
  | d :: md, next => by
    cases hd : d.Typ with
    | TextPlain =>
      simp only [SyncNodesFromMimeData, hd, List.filter_cons, decide_True, if_true, List.map_cons,
        SyncNodesFromMimeData_paths md next]
    | Other s =>
      simp [SyncNodesFromMimeData, hd, List.filter_cons, SyncNodesFromMimeData_paths md next]
    | DataJson =>
      simp only [SyncNodesFromMimeData, hd]
      cases hr : ReadNewJSON next d.Data with
      | error e =>
        simp [hr, List.filter_cons, hd, SyncNodesFromMimeData_paths md next]
      | ok nki =>
        simp [hr, List.filter_cons, hd, SyncNodesFromMimeData_paths md nki.2]

/-! ## Theorems: `MimeDataSync` and its encoder -/

theorem MimeDataSync_eq_With (w : World) (tv : List Nat) (md : List MimeData) :
    MimeDataSync w tv md = MimeDataSyncWith WriteNewJSON w tv md := rfl

theorem countType_append (t : MimeType) (a b : List MimeData) :
    countType t (a ++ b) = countType t a + countType t b := by
  simp [countType, List.filter_append]

/-- One call of `MimeDataSync` on a view node whose sync node is in the source
tree: the result, by the outcome of the encoder. -/
theorem MimeDataSyncWith_spec (write : Node → Except String String) (w : World) (tv : List Nat)
    (md : List MimeData) (v : TreeView) (p : Nat) (n : Node)
    (hv : w.view.nodeAt? tv = some v) (hs : v.SyncNode = some p)
    (hn : w.src.find? p = some n) :
    (∀ buf, write n = .ok buf → MimeDataSyncWith write w tv md =
      .ok (md ++ [{ Typ := MimeType.TextPlain, Data := w.src.PathFrom p w.view.SyncNode },
        { Typ := MimeType.DataJson, Data := buf }])) ∧
    (∀ e, write n = .error e → MimeDataSyncWith write w tv md =
      .ok (md ++ [{ Typ := MimeType.TextPlain, Data := w.src.PathFrom p w.view.SyncNode }])) := by
  constructor
  · intro buf hb
    simp only [MimeDataSyncWith, hv, hs, hn, hb, List.append_assoc, List.singleton_append]
  · intro e he
    simp only [MimeDataSyncWith, hv, hs, hn, he]

theorem MimeDataSyncWith_counts (write : Node → Except String String) (w : World) (tv : List Nat)
    (md : List MimeData) (v : TreeView) (p : Nat) (n : Node)
    (hv : w.view.nodeAt? tv = some v) (hs : v.SyncNode = some p)
    (hn : w.src.find? p = some n) :
    ∃ md1, MimeDataSyncWith write w tv md = .ok md1 ∧ md <+: md1 ∧
      countType MimeType.TextPlain md1 = countType MimeType.TextPlain md + 1 ∧
      (∀ buf, write n = .ok buf →
        countType MimeType.DataJson md1 = countType MimeType.DataJson md + 1) ∧
      (∀ e, write n = .error e →
        countType MimeType.DataJson md1 = countType MimeType.DataJson md) := by
  have h := MimeDataSyncWith_spec write w tv md v p n hv hs hn
  cases hw : write n with
  | ok buf =>
    refine ⟨_, h.1 buf hw, List.prefix_append _ _, ?_, fun _ _ => ?_, fun e he => (by cases he)⟩
    · rw [countType_append]; rfl
    · rw [countType_append]; rfl
  | error e =>
    refine ⟨_, h.2 e hw, List.prefix_append _ _, ?_, fun b hb => (by cases hb), fun _ _ => ?_⟩
    · rw [countType_append]; rfl
    · rw [countType_append]; rfl

/-- The payload built for several nodes, each with its sync node in the source
tree: it is built, it has one text entry more for each node, and at most one
document entry more for each node; exactly one for each node when the encoder
fails on no node. -/
theorem mimeDataAll_counts (write : Node → Except String String) (w : World) :
    ∀ (tvs : List (List Nat)) (md : List MimeData),
      (∀ tv, tv ∈ tvs → ∃ v p n, w.view.nodeAt? tv = some v ∧ v.SyncNode = some p ∧
        w.src.find? p = some n) →
      ∃ md1, mimeDataAll write w tvs md = .ok md1 ∧ md <+: md1 ∧
        countType MimeType.TextPlain md1 = countType MimeType.TextPlain md + tvs.length ∧
        countType MimeType.DataJson md1 ≤ countType MimeType.DataJson md + tvs.length ∧
        ((∀ n, ∃ buf, write n = .ok buf) →
          countType MimeType.DataJson md1 = countType MimeType.DataJson md + tvs.length)
  | [], md, _ => ⟨md, rfl, List.prefix_refl _, rfl, Nat.le_refl _, fun _ => rfl⟩
  | tv :: rest, md, h => by
    obtain ⟨v, p, n, hv, hs, hn⟩ := h tv (List.mem_cons_self _ _)
    obtain ⟨mdx, hx, hpre, ht, hj, hj0⟩ := MimeDataSyncWith_counts write w tv md v p n hv hs hn
    obtain ⟨md1, h1, hpre1, ht1, hj1, hall⟩ := mimeDataAll_counts write w rest mdx
      (fun t ht => h t (List.mem_cons_of_mem _ ht))
    refine ⟨md1, ?_, hpre.trans hpre1, ?_, ?_, ?_⟩
    · simp only [mimeDataAll, hx, h1]
    · rw [ht1, ht, List.length_cons]; omega
    · rw [List.length_cons]
      cases hw : write n with
      | ok buf => have := hj buf hw; omega
      | error e => have := hj0 e hw; omega
    · intro hw
      have h2 := hall hw
      obtain ⟨buf, hb⟩ := hw n
      have := hj buf hb
      rw [List.length_cons]; omega

/-! ## Claims on the payloads -/

/-- `MimeDataSync` on a view node whose sync node is in the source tree appends
the text entry with the path of the sync node from the sync root and, after
it, the document entry with the encoding when the encoder succeeds; when the
encoder fails only the text entry is appended.  The entries already in the
payload are unchanged.  With the encoder of the model, which always succeeds,
the two entries are appended.  A payload built for `k` such nodes from the
empty payload has exactly `k` text entries and at most `k` document entries:
exactly `k` when the encoder fails on no node. -/
theorem MimeDataSync_entries (write : Node → Except String String) (w : World)
    (tv : List Nat) (md : List MimeData) (v : TreeView) (p : Nat) (n : Node)
    (hv : w.view.nodeAt? tv = some v) (hs : v.SyncNode = some p)
    (hn : w.src.find? p = some n) :
    (∀ buf, write n = .ok buf → MimeDataSyncWith write w tv md =
      .ok (md ++ [{ Typ := MimeType.TextPlain, Data := w.src.PathFrom p w.view.SyncNode },
        { Typ := MimeType.DataJson, Data := buf }])) ∧
    (∀ e, write n = .error e → MimeDataSyncWith write w tv md =
      .ok (md ++ [{ Typ := MimeType.TextPlain, Data := w.src.PathFrom p w.view.SyncNode }])) ∧
    MimeDataSync w tv md =
      .ok (md ++ [{ Typ := MimeType.TextPlain, Data := w.src.PathFrom p w.view.SyncNode },
        { Typ := MimeType.DataJson, Data := String.mk n.encode }]) ∧
    (∀ (tvs : List (List Nat)),
      (∀ t, t ∈ tvs → ∃ v p n, w.view.nodeAt? t = some v ∧ v.SyncNode = some p ∧
        w.src.find? p = some n) →
      ∃ md1, mimeDataAll write w tvs [] = .ok md1 ∧
        countType MimeType.TextPlain md1 = tvs.length ∧
        countType MimeType.DataJson md1 ≤ tvs.length ∧
        ((∀ n, ∃ buf, write n = .ok buf) → countType MimeType.DataJson md1 = tvs.length)) := by
  have h := MimeDataSyncWith_spec write w tv md v p n hv hs hn
  refine ⟨h.1, h.2, ?_, ?_⟩
  · rw [MimeDataSync_eq_With]
    exact (MimeDataSyncWith_spec WriteNewJSON w tv md v p n hv hs hn).1 _ rfl
  · intro tvs hres
    obtain ⟨md1, h1, _, ht, hj, hall⟩ := mimeDataAll_counts write w tvs [] hres
    refine ⟨md1, h1, ?_, ?_, fun hw => ?_⟩
    · rw [ht]; exact Nat.zero_add _
    · exact le_trans hj (le_of_eq (Nat.zero_add _))
    · rw [hall hw]; exact Nat.zero_add _

/-- C22: the payload `mdSkew` has the pairs (`X`, a document that cannot be
read) and (`B`, the document of `B`).  `SyncNodesFromMimeData` skips the first
document and returns the single node `B`, but it returns both paths: the path
at index 0 is `X`, the path of the skipped pair, not the path `B` of the pair
that produced the node at index 0. -/
theorem C22_paths_lose_pairing :
    (SyncNodesFromMimeData 4 mdSkew).1.map (fun n => n.Nm) = ["B"] ∧
    (SyncNodesFromMimeData 4 mdSkew).2.1 = ["X", "B"] ∧
    (SyncNodesFromMimeData 4 mdSkew).2.1[0]? = some "X" := by
  decide

/-! ## Claims on `Label` and `UpdateReadOnly` -/

/-- C23: `Label` of a view node with a sync node (that is in the source tree) is
the label of the sync node when it has one, else the name of the sync node;
without a sync node it is the text of the view node when that is not empty,
else the name of the view node. -/
theorem C23_label_priority (deref : Nat → Option Node) (ToLabeler : Node → Option String)
    (tv : TreeView) :
    (∀ p sn lbl, tv.SyncNode = some p → deref p = some sn → ToLabeler sn = some lbl →
      Label deref ToLabeler tv = .ok lbl) ∧
    (∀ p sn, tv.SyncNode = some p → deref p = some sn → ToLabeler sn = none →
      Label deref ToLabeler tv = .ok sn.Nm) ∧
    (tv.SyncNode = none → tv.Text ≠ "" → Label deref ToLabeler tv = .ok tv.Text) ∧
    (tv.SyncNode = none → tv.Text = "" → Label deref ToLabeler tv = .ok tv.Nm) := by
  refine ⟨?_, ?_, ?_, ?_⟩
  · intro p sn lbl h1 h2 h3
    simp only [Label, h1, h2, h3]
  · intro p sn h1 h2 h3
    simp only [Label, h1, h2, h3]
  · intro h1 h2
    simp only [Label, h1, h2, ne_eq, not_false_eq_true, if_true]
  · intro h1 h2
    simp only [Label, h1, h2, ne_eq, not_true_eq_false, if_false]

/-- C23 (witness): the label of `tv_B` with and without a Labeler text of `B`,
and the labels of view nodes without a sync node. -/
theorem C23_label_priority_witness :
    Label derefABC (fun _ => some "Bee") tvB = .ok "Bee" ∧
    Label derefABC (fun _ => none) tvB = .ok "B" ∧
    Label noNodes (fun _ => none) { plainX with Text := "shown" } = .ok "shown" ∧
    Label noNodes (fun _ => none) plainX = .ok "x" :=
  ⟨(C23_label_priority derefABC (fun _ => some "Bee") tvB).1 2 srcLeaf "Bee" rfl rfl rfl,
    (C23_label_priority derefABC (fun _ => none) tvB).2.1 2 srcLeaf rfl rfl rfl,
    (C23_label_priority noNodes (fun _ => none) { plainX with Text := "shown" }).2.2.1 rfl
      (by decide),
    (C23_label_priority noNodes (fun _ => none) plainX).2.2.2 rfl rfl⟩

theorem StateIs_set (flag : Nat) (st : List Nat) : StateIs flag (SetState true flag st) = true := by
  simp [StateIs, SetState]

theorem StateIs_clear (flag other : Nat) (st : List Nat) :
    StateIs flag (SetState false other st) = (StateIs flag st && decide (flag ≠ other)) := by
  simp only [StateIs, SetState, Bool.false_eq_true, if_false, List.contains_eq_any_beq,
    List.any_filter]
  rw [Bool.eq_iff_iff]
  simp only [List.any_eq_true, Bool.and_eq_true, bne_iff_ne, ne_eq, beq_iff_eq,
    decide_eq_true_eq]
  constructor
  · rintro ⟨x, hx, h1, h2⟩
    exact ⟨⟨x, hx, h2⟩, fun e => h1 (h2.symm.trans e)⟩
  · rintro ⟨⟨x, hx, h2⟩, h1⟩
    exact ⟨x, hx, fun e => h1 (h2.trans e), h2⟩

/-- C26 (code bug): `UpdateReadOnly` does not return whether the node is
read-only, and does not make the read-only state follow the sync node.  With
the flags `Disabled = 0` and `ReadOnly = 1`: a read-only view node without a
sync node is still read-only after the call, and the call returns false; a
read-only view node with a sync node is still read-only after the call, and
the call returns true, when the sync node has no `ReadOnly` property, and also
when its property converts to false. -/
theorem C26_read_only_state_is_kept :
    plainX.SyncNode = none ∧
    (UpdateReadOnly 0 1 (fun _ => none) plainX [1]).2 = false ∧
    StateIs 1 (UpdateReadOnly 0 1 (fun _ => none) plainX [1]).1 = true ∧
    tvB.SyncNode = some 2 ∧
    (UpdateReadOnly 0 1 (fun _ => none) tvB [1]).2 = true ∧
    StateIs 1 (UpdateReadOnly 0 1 (fun _ => none) tvB [1]).1 = true ∧
    (UpdateReadOnly 0 1 (fun _ => some (false, true)) tvB [1]).2 = true ∧
    StateIs 1 (UpdateReadOnly 0 1 (fun _ => some (false, true)) tvB [1]).1 = true := by
  decide

/-- The result of `UpdateReadOnly`: false, with the state as it was, for a view
node without a sync node; with a sync node, whether the flag `ReadOnly` is set
after the call, which is the case exactly when the property converts to true
without error or the flag was set before (the flags `Disabled` and `ReadOnly`
being different). -/
theorem UpdateReadOnly_result (Disabled ReadOnly : Nat)
    (Property : Nat → Option (Bool × Bool)) (tv : TreeView) (st : List Nat) :
    (tv.SyncNode = none → UpdateReadOnly Disabled ReadOnly Property tv st = (st, false)) ∧
    (∀ p, tv.SyncNode = some p →
      (UpdateReadOnly Disabled ReadOnly Property tv st).2 =
        StateIs ReadOnly (UpdateReadOnly Disabled ReadOnly Property tv st).1 ∧
      ((UpdateReadOnly Disabled ReadOnly Property tv st).2 = true ↔
        (Property p = some (true, true) ∨ (StateIs ReadOnly st = true ∧ ReadOnly ≠ Disabled)))) := by
  constructor
  · intro h
    simp only [UpdateReadOnly, h]
  · intro p h
    refine ⟨by simp only [UpdateReadOnly, h], ?_⟩
    simp only [UpdateReadOnly, h]
    cases hp : Property p with
    | none =>
      simp [StateIs_clear]
    | some r =>
      obtain ⟨bo, en⟩ := r
      cases bo <;> cases en <;> simp [StateIs_clear, StateIs_set]

/-! ## Claims on the generated tables -/

/-- C28: the generated tables of `abilities` are consistent: `_AbilitiesValues`
is 0, 1, ..., 15 in order; `AbilitiesN` is 16, the highest value plus one;
`_AbilitiesValueMap` and `_AbilitiesMap` have 16 entries each, with distinct
keys, and are inverse to each other; `_AbilitiesMap` and `_AbilitiesDescMap`
have an entry for exactly the 16 values. -/
theorem C28_abilities_tables_consistent :
    _AbilitiesValues = List.range 16 ∧ AbilitiesN = 16 ∧
    (∀ v ∈ _AbilitiesValues, v < AbilitiesN) ∧ AbilitiesN - 1 ∈ _AbilitiesValues ∧
    _AbilitiesValueMap.length = 16 ∧ (_AbilitiesValueMap.map (fun e => e.1)).Nodup ∧
    (_AbilitiesValueMap.map (fun e => e.2)).Nodup ∧
    _AbilitiesMap.map (fun e => e.1) = _AbilitiesValues ∧
    (_AbilitiesMap.map (fun e => e.2)).Nodup ∧
    (∀ e ∈ _AbilitiesValueMap, mapGet _AbilitiesMap e.2 = some e.1) ∧
    (∀ e ∈ _AbilitiesMap, mapGet _AbilitiesValueMap e.2 = some e.1) ∧
    _AbilitiesDescMap.map (fun e => e.1) = _AbilitiesValues := by
  refine ⟨by decide, rfl, by decide, by decide, rfl, by decide, by decide, by decide, by decide,
    by decide, by decide, by decide⟩

/-! ## Theorems: page paths -/

theorem dropWhile_slash_head (x : Char) (t : List Char) (hx : x ≠ chSlash) :
    (x :: t).dropWhile (fun c => c == chSlash) = x :: t := by
  rw [List.dropWhile_cons_of_neg]
  simpa using hx

theorem takeWhile_noslash :
    ∀ (l : List Char), chSlash ∉ l → l.takeWhile (fun c => c != chSlash) = l
  | [], _ => rfl
  | x :: l, h => by
    simp only [List.mem_cons, not_or] at h
    rw [List.takeWhile_cons_of_pos (by simpa using fun e => h.1 e.symm), takeWhile_noslash l h.2]

theorem takeWhile_stop :
    ∀ (a b : List Char), chSlash ∉ a →
      (a ++ chSlash :: b).takeWhile (fun c => c != chSlash) = a
  | [], b, _ => by simp
  | x :: a, b, h => by
    simp only [List.mem_cons, not_or] at h
    rw [List.cons_append,
      List.takeWhile_cons_of_pos (by simpa using fun e => h.1 e.symm), takeWhile_stop a b h.2]

/-- The base of a non-empty path without a slash is the path. -/
theorem Base_noslash (p : List Char) (hp : p ≠ []) (h : chSlash ∉ p) : Base p = p := by
  have hr : chSlash ∉ p.reverse := by simpa using h
  obtain ⟨x, t, hxt⟩ : ∃ x t, p.reverse = x :: t := by
    cases hrev : p.reverse with
    | nil => exact absurd (List.reverse_eq_nil_iff.1 hrev) hp
    | cons x t => exact ⟨x, t, rfl⟩
  have hx : x ≠ chSlash := by
    intro e
    apply hr
    rw [hxt, e]
    exact List.mem_cons_self _ _
  have hd : p.reverse.dropWhile (fun c => c == chSlash) = p.reverse := by
    rw [hxt]; exact dropWhile_slash_head x t hx
  have he : p.isEmpty = false := by
    cases p with
    | nil => exact absurd rfl hp
    | cons a l => rfl
  simp only [Base, he, Bool.false_eq_true, if_false, hd, List.reverse_reverse,
    takeWhile_noslash _ hr]

/-- The base of a path that ends in a slash and a non-empty name without a
slash is that name. -/
theorem Base_last (dir name : List Char) (hn : name ≠ []) (h : chSlash ∉ name) :
    Base (dir ++ chSlash :: name) = name := by
  have hr : chSlash ∉ name.reverse := by simpa using h
  obtain ⟨x, t, hxt⟩ : ∃ x t, name.reverse = x :: t := by
    cases hrev : name.reverse with
    | nil => exact absurd (List.reverse_eq_nil_iff.1 hrev) hn
    | cons x t => exact ⟨x, t, rfl⟩
  have hx : x ≠ chSlash := by
    intro e
    apply hr
    rw [hxt, e]
    exact List.mem_cons_self _ _
  have hrev : (dir ++ chSlash :: name).reverse = name.reverse ++ chSlash :: dir.reverse := by
    simp
  have hd : (dir ++ chSlash :: name).reverse.dropWhile (fun c => c == chSlash) =
      (dir ++ chSlash :: name).reverse := by
    rw [hrev, hxt]; exact dropWhile_slash_head x _ hx
  have he : (dir ++ chSlash :: name).isEmpty = false := by
    cases dir <;> rfl
  have hne : name.isEmpty = false := by
    cases name with
    | nil => exact absurd rfl hn
    | cons a l => rfl
  simp only [Base, he, Bool.false_eq_true, if_false, hd, List.reverse_reverse]
  rw [hrev, takeWhile_stop _ _ hr, List.reverse_reverse]
  simp only [hne, Bool.false_eq_true, if_false]

theorem splitSlash_of_noslash :
    ∀ (a : List Char), chSlash ∉ a → splitSlash a = [a]
  | [], _ => rfl
  | c :: a, h => by
    simp only [List.mem_cons, not_or] at h
    have hc : ¬ c = chSlash := fun e => h.1 e.symm
    simp only [splitSlash, hc, if_false, splitSlash_of_noslash a h.2]

theorem splitSlash_append (r : List Char) :
    ∀ (a : List Char), chSlash ∉ a → splitSlash (a ++ chSlash :: r) = a :: splitSlash r
  | [], _ => by simp [splitSlash]
  | c :: a, h => by
    simp only [List.mem_cons, not_or] at h
    have hc : ¬ c = chSlash := fun e => h.1 e.symm
    have ih := splitSlash_append r a h.2
    rw [List.cons_append]
    generalize a ++ chSlash :: r = y at ih ⊢
    simp only [splitSlash, hc, if_false, ih]

/-- No part of a path contains a slash. -/
theorem splitSlash_noslash :
    ∀ (cs : List Char) (s : List Char), s ∈ splitSlash cs → chSlash ∉ s
  | [], s, h => by
    simp only [splitSlash, List.mem_singleton] at h
    subst h; simp
  | c :: cs, s, h => by
    by_cases hc : c = chSlash
    · simp only [splitSlash, hc, if_true, List.mem_cons] at h
      rcases h with h | h
      · subst h; simp
      · exact splitSlash_noslash cs s h
    · simp only [splitSlash, hc, if_false] at h
      cases hs : splitSlash cs with
      | nil =>
        simp only [hs, List.mem_singleton] at h
        subst h
        simpa using fun e => hc e.symm
      | cons seg rest =>
        simp only [hs, List.mem_cons] at h
        rcases h with h | h
        · subst h
          have := splitSlash_noslash cs seg (by rw [hs]; exact List.mem_cons_self _ _)
          simp only [List.mem_cons, not_or]
          exact ⟨fun e => hc e.symm, this⟩
        · exact splitSlash_noslash cs s (by rw [hs]; exact List.mem_cons_of_mem _ h)

theorem splitSlash_ne_nil : ∀ (cs : List Char), splitSlash cs ≠ []
  | [] => by simp [splitSlash]
  | c :: cs => by
    by_cases hc : c = chSlash
    · simp [splitSlash, hc]
    · simp only [splitSlash, hc, if_false]
      cases splitSlash cs <;> simp

/-- Splitting what `strings.Join` made of parts without slashes gives the parts
back. -/
theorem splitSlash_joinSlash :
    ∀ (segs : List (List Char)), segs ≠ [] → (∀ s, s ∈ segs → chSlash ∉ s) →
      splitSlash (joinSlash segs) = segs
  | [], h, _ => absurd rfl h
  | [a], _, h => by
    simp only [joinSlash]
    exact splitSlash_of_noslash a (h a (List.mem_singleton.2 rfl))
  | a :: b :: rest, _, h => by
    simp only [joinSlash]
    rw [splitSlash_append _ a (h a (List.mem_cons_self _ _)),
      splitSlash_joinSlash (b :: rest) (by simp) (fun s hs => h s (List.mem_cons_of_mem _ hs))]

theorem trimPart_noslash (IsDigit : Char → Bool) (part : List Char) (h : chSlash ∉ part) :
    chSlash ∉ trimPart IsDigit part := by
  unfold trimPart
  split
  · exact fun hm => h ((List.dropWhile_suffix _).subset hm)
  · exact h

theorem dropWhile_head_not (f : Char → Bool) :
    ∀ (l : List Char) (c : Char), (l.dropWhile f).head? = some c → f c = false
  | [], c, h => by simp at h
  | x :: l, c, h => by
    by_cases hx : f x = true
    · rw [List.dropWhile_cons_of_pos hx] at h
      exact dropWhile_head_not f l c h
    · rw [List.dropWhile_cons_of_neg hx] at h
      simp only [List.head?_cons, Option.some.injEq] at h
      rw [← h]; simpa using hx

theorem dropWhile_leading (f : Char → Bool) :
    ∀ (a b : List Char), (∀ c, c ∈ a → f c = true) → (a ++ b).dropWhile f = b.dropWhile f
  | [], b, _ => rfl
  | x :: a, b, h => by
    rw [List.cons_append, List.dropWhile_cons_of_pos (h x (List.mem_cons_self _ _))]
    exact dropWhile_leading f a b (fun c hc => h c (List.mem_cons_of_mem _ hc))

/-! ## Claims on the page paths -/

/-- C27 (code bug): `Draft(p)` is not true exactly when the path `p` starts
with a dash, for it looks at the last element of the path: the path made of
`a`, a slash and `-b` does not start with a dash and is a draft; the path made
of `-a`, a slash and `b` starts with a dash and is not a draft. -/
theorem C27_draft_looks_at_last_element :
    Draft ("a/" ++ "-b") = true ∧ ("a/" ++ "-b" : String).data.head? ≠ some chDash ∧
    Draft "-a/b" = false ∧ ("-a/b" : String).data.head? = some chDash := by
  decide

/-- For a path that ends in a slash and a non-empty name without a slash,
`Draft` tells whether that name starts with a dash, whatever comes before;
for a path without a slash it tells whether the path starts with a dash. -/
theorem Draft_last_element :
    (∀ (p : List Char), chSlash ∉ p → Draft (String.mk p) = (p.head? == some chDash)) ∧
    (∀ (dir name : List Char), name ≠ [] → chSlash ∉ name →
      Draft (String.mk (dir ++ chSlash :: name)) = (name.head? == some chDash)) := by
  constructor
  · intro p h
    cases p with
    | nil => decide
    | cons a l =>
      simp only [Draft, Base_noslash (a :: l) (by simp) h]
  · intro dir name hn h
    simp only [Draft, Base_last dir name hn h]

/-- C25 (code bug): `Format` does not only remove prefixes made of digits and a
dash, for it trims every leading digit and dash of a part that has a dash
anywhere: the part `-a` does not start with digits followed by a dash, and
`Format` changes it to `a`; the parts `12ab-c` and `3d-models` do not either,
and `Format` changes them to `ab-c` and `d-models`. -/
theorem C25_format_trims_digits_and_dashes :
    Format Char.isDigit "-a" = "a" ∧ Format Char.isDigit "12ab-c" = "ab-c" ∧
    Format Char.isDigit "3d-models" = "d-models" ∧
    Format Char.isDigit "docs/3d-models" = "docs/d-models" := by
  decide

/-- `Format` keeps the number and the order of the parts of the path between
slashes, and replaces each part by `trimPart` of it: a part without a dash is
unchanged; a part with a dash loses its longest prefix of digits and dashes,
so what is left starts with neither a digit nor a dash.  In particular a part
made of digits, a dash and a rest that starts with neither a digit nor a dash
is replaced by that rest. -/
theorem Format_trims_each_part (IsDigit : Char → Bool) (path : String) :
    splitSlash (Format IsDigit path).data = (splitSlash path.data).map (trimPart IsDigit) ∧
    (splitSlash (Format IsDigit path).data).length = (splitSlash path.data).length ∧
    (∀ part, chDash ∉ part → trimPart IsDigit part = part) ∧
    (∀ part, chDash ∈ part →
      trimPart IsDigit part = part.dropWhile (fun r => IsDigit r || r == chDash) ∧
      ∀ c, (trimPart IsDigit part).head? = some c → IsDigit c = false ∧ c ≠ chDash) ∧
    (∀ ds rest, (∀ c, c ∈ ds → IsDigit c = true) →
      (∀ c, rest.head? = some c → IsDigit c = false ∧ c ≠ chDash) →
      trimPart IsDigit (ds ++ chDash :: rest) = rest) := by
  have hsplit : splitSlash (Format IsDigit path).data =
      (splitSlash path.data).map (trimPart IsDigit) := by
    show splitSlash (joinSlash ((splitSlash path.data).map (trimPart IsDigit))) = _
    apply splitSlash_joinSlash
    · simpa using splitSlash_ne_nil path.data
    · intro s hs
      obtain ⟨part, hp, rfl⟩ := List.mem_map.1 hs
      exact trimPart_noslash IsDigit part (splitSlash_noslash _ part hp)
  have hno : ∀ part, chDash ∉ part → trimPart IsDigit part = part := by
    intro part h
    have : part.contains chDash = false := by simpa using h
    simp only [trimPart, this, Bool.false_eq_true, if_false]
  have hyes : ∀ part, chDash ∈ part →
      trimPart IsDigit part = part.dropWhile (fun r => IsDigit r || r == chDash) := by
    intro part h
    have : part.contains chDash = true := by simpa using h
    simp only [trimPart, this, if_true]
  refine ⟨hsplit, by rw [hsplit, List.length_map], hno, ?_, ?_⟩
  · intro part h
    refine ⟨hyes part h, ?_⟩
    intro c hc
    rw [hyes part h] at hc
    have := dropWhile_head_not _ part c hc
    simpa using this
  · intro ds rest hds hrest
    rw [hyes _ (by simp)]
    rw [dropWhile_leading _ ds _ (fun c hc => by simp [hds c hc])]
    rw [List.dropWhile_cons_of_pos (by simp)]
    cases rest with
    | nil => rfl
    | cons x t =>
      have := hrest x rfl
      rw [List.dropWhile_cons_of_neg (by simp [this.1, this.2])]

/-! ## Theorems: the indexes that `ReSync` assigns -/

/-- The pass of `ReSync` over a view node whose sync node is a source node: it
starts the counter at the `ViewIndex` of the node, so the node keeps it, and
the nodes of the subtree get the consecutive pre-order indexes that follow, as
many as the source subtree has nodes.  (What the `TreeViewChanged` calls of the
pass do to the indexes is outside this function.) -/
theorem ReSync_numbers_subtree (deref : Nat → Option Node) (OD : Int) (hpar : Bool)
    (tv : TreeView) (q : Nat) (sk : Node)
    (hs : tv.SyncNode = some q) (hd : deref q = some sk) :
    ∃ r, ReSync deref OD hpar tv = .ok r ∧ r.1.ViewIndex = tv.ViewIndex ∧
      r.1.viewIndexes = intRange tv.ViewIndex sk.count :=
  ⟨SyncToSrcOn OD false hpar sk tv tv.ViewIndex 0, by simp only [ReSync, SyncToSrc, hs, hd],
    (SyncToSrcOn_fields OD false hpar sk tv tv.ViewIndex 0).2.2.2.2.1,
    (SyncToSrcOn_index OD false sk hpar tv tv.ViewIndex 0).2⟩

/-! ## Claims on the safety of `PasteAtSync` -/

/-- C30: the payload `mdNoPath` holds one document and no path, so it yields one
node and no path.  `PasteAtSync` with this payload on `tv_C` in the view of
`{A: [B, C]}` reads `pl[0]` in the empty path list: it aborts with an index
out of range, and the node is not inserted. -/
theorem C30_paste_without_path_is_out_of_range :
    (NodesFromMimeData worldABC.nextId mdNoPath).1.length = 1 ∧
    (NodesFromMimeData worldABC.nextId mdNoPath).2.1.length = 0 ∧
    PasteAtSync "_MOVED" worldABC [1] mdNoPath DropMods.DropCopy 1 =
      .error Fault.indexOutOfRange ∧
    PasteAtSync "_MOVED" worldABC [1] mdNoPath DropMods.DropMove 0 =
      .error Fault.indexOutOfRange :=
  ⟨by decide, by decide, rfl, rfl⟩

/-! ## Theorems: the notifications of the edit operations -/

theorem MoveDown_counts (w : World) (p : List Nat) :
    (MoveDown w p).1.changed = w.changed ∧ (MoveDown w p).1.resyncs = w.resyncs := by
  unfold MoveDown
  split
  · split
    · exact ⟨rfl, rfl⟩
    · exact ⟨rfl, rfl⟩
  · exact ⟨rfl, rfl⟩

theorem MoveUp_counts (w : World) (p : List Nat) :
    (MoveUp w p).1.changed = w.changed ∧ (MoveUp w p).1.resyncs = w.resyncs := by
  unfold MoveUp
  split
  · split
    · exact ⟨rfl, rfl⟩
    · exact ⟨rfl, rfl⟩
  · exact ⟨rfl, rfl⟩

theorem selectionMoved_counts (w : World) (tv : List Nat) :
    (selectionMoved w tv).changed = w.changed ∧ (selectionMoved w tv).resyncs = w.resyncs := by
  unfold selectionMoved
  split
  · exact MoveDown_counts (Close w tv) tv
  · exact MoveUp_counts (Close w tv) tv

theorem AddTreeNodes_counts (w w1 : World) (tv : List Nat) (rel myidx : Nat) (typ : NodeType)
    (n : Nat) (h : AddTreeNodes w tv rel myidx typ n = .ok w1) :
    w1.changed = w.changed + 1 ∧ w1.resyncs = w.resyncs := by
  unfold AddTreeNodes at h
  cases h1 : w.view.nodeAt? tv with
  | none => simp [h1] at h
  | some v =>
    simp only [h1] at h
    cases h2 : addTreeLoop typ rel myidx n 0 v.Kids with
    | error e => simp [h2] at h
    | ok ks =>
      simp only [h2] at h
      by_cases hn : n = 0
      · rw [if_pos hn] at h
        simp only [Except.ok.injEq] at h
        subst h; exact ⟨rfl, rfl⟩
      · rw [if_neg hn] at h
        simp only [Except.ok.injEq] at h
        subst h; exact ⟨rfl, rfl⟩

theorem Duplicate_unsynced_counts (w w1 : World) (pp : List Nat) (k : Nat) (v par : TreeView)
    (hv : w.view.nodeAt? (pp ++ [k]) = some v) (hs : v.SyncNode = none)
    (hp : w.view.nodeAt? pp = some par) (h : Duplicate w (pp ++ [k]) = .ok w1) :
    w1.changed = w.changed + 1 ∧ w1.resyncs = w.resyncs := by
  rw [(Duplicate_unsynced w pp k v par hv hs hp).2] at h
  simp only [Except.ok.injEq] at h
  subst h
  exact ⟨rfl, rfl⟩

/-- A resynchronisation that succeeds counts one resynchronisation, and the
`TreeViewChanged` notifications counted after it are those counted before and
those of its pass, no other. -/
theorem SendChangeEventReSync_exact (w w1 : World) (tv : List Nat)
    (h : SendChangeEventReSync w tv = .ok w1) :
    w1.resyncs = w.resyncs + 1 ∧
    w1.changed = w.changed + resyncChanges w.OpenDepth w1.src w.view := by
  unfold SendChangeEventReSync at h
  split at h
  · cases h
  · rename_i r hr
    simp only [Except.ok.injEq] at h
    subst h
    exact ⟨rfl, by simp only [resyncChanges, hr]⟩

theorem takeByName_perm (nm : String) :
    ∀ (pool : List TreeView) (k : TreeView) (rest : List TreeView),
      takeByName nm pool = some (k, rest) →
      (pool.map (fun x => x.Nm)).Perm (nm :: rest.map (fun x => x.Nm))
  | [], _, _, h => by simp [takeByName] at h
  | x :: xs, k, rest, h => by
    unfold takeByName at h
    by_cases hx : x.Nm = nm
    · simp only [hx, if_true, Option.some.injEq, Prod.mk.injEq] at h
      rw [← h.2, List.map_cons, hx]
    · simp only [hx, if_false] at h
      cases hrec : takeByName nm xs with
      | none => simp [hrec] at h
      | some q =>
        obtain ⟨y, r⟩ := q
        simp only [hrec, Option.some.injEq, Prod.mk.injEq] at h
        have ih := takeByName_perm nm xs y r hrec
        rw [← h.2, List.map_cons, List.map_cons]
        exact (ih.cons x.Nm).trans (List.Perm.swap nm x.Nm _)

theorem takeByName_none (nm : String) :
    ∀ (pool : List TreeView), takeByName nm pool = none → nm ∉ pool.map (fun x => x.Nm)
  | [], _ => by simp
  | x :: xs, h => by
    unfold takeByName at h
    by_cases hx : x.Nm = nm
    · simp [hx] at h
    · simp only [hx, if_false] at h
      cases hrec : takeByName nm xs with
      | none =>
        have ih := takeByName_none nm xs hrec
        simp only [List.map_cons, List.mem_cons, not_or]
        exact ⟨fun e => hx e.symm, ih⟩
      | some q => simp [hrec] at h

/-- The pass of `ConfigChildren` creates no child and leaves no child over
exactly when the names of the children are a rearrangement of the required
names. -/
theorem configGo_unmodified :
    ∀ (cfg : List String) (pool : List TreeView),
      ((configGo cfg pool).2.1 = false ∧ (configGo cfg pool).2.2 = []) ↔
        (pool.map (fun x => x.Nm)).Perm cfg
  | [], pool => by
    simp only [configGo, true_and, List.perm_nil, List.map_eq_nil_iff]
  | nm :: rest, pool => by
    unfold configGo
    cases ht : takeByName nm pool with
    | none =>
      simp only [Bool.true_eq_false, false_and, false_iff]
      intro hp
      exact takeByName_none nm pool ht (hp.mem_iff.2 (List.mem_cons_self _ _))
    | some q =>
      obtain ⟨k, pool1⟩ := q
      simp only
      rw [configGo_unmodified rest pool1]
      have hperm := takeByName_perm nm pool k pool1 ht
      constructor
      · intro h
        exact hperm.trans (h.cons nm)
      · intro h
        exact (hperm.symm.trans h).cons_inv

/-- `ConfigChildren` reports a child list as modified exactly when the names of
the children are not a rearrangement of the required names. -/
theorem ConfigChildren_modified (kids : List TreeView) (cfg : List String) :
    (ConfigChildren kids cfg).2 = true ↔ ¬ (kids.map (fun x => x.Nm)).Perm cfg := by
  rw [← configGo_unmodified cfg kids]
  simp only [ConfigChildren]
  cases (configGo cfg kids).2.1 <;> cases (configGo cfg kids).2.2 <;> simp

/-- The `TreeViewChanged` notifications of a pass of `SyncToSrc` over a view
node: those of the passes over its children, and one more exactly when the
names of its children are not a rearrangement of the names required by the
source children. -/
theorem SyncToSrcOn_changes (OD : Int) (init hp : Bool) (sk : Node) (tv : TreeView) (i d : Int) :
    ((tv.Kids.map (fun x => x.Nm)).Perm (sk.Kids.map (fun s => "tv_" ++ s.Nm)) →
      (SyncToSrcOn OD init hp sk tv i d).2.2 =
        (syncKids OD init sk.Kids
          (ConfigChildren tv.Kids (sk.Kids.map (fun s => "tv_" ++ s.Nm))).1 (i + 1) (d + 1)).2.2) ∧
    (¬ (tv.Kids.map (fun x => x.Nm)).Perm (sk.Kids.map (fun s => "tv_" ++ s.Nm)) →
      (SyncToSrcOn OD init hp sk tv i d).2.2 =
        (syncKids OD init sk.Kids
          (ConfigChildren tv.Kids (sk.Kids.map (fun s => "tv_" ++ s.Nm))).1 (i + 1) (d + 1)).2.2
            + 1) := by
  have hf := (SyncToSrcOn_fields OD init hp sk tv i d).2.2.2.2.2.2
  have hm := ConfigChildren_modified tv.Kids (sk.Kids.map (fun s => "tv_" ++ s.Nm))
  constructor
  · intro h
    have : (ConfigChildren tv.Kids (sk.Kids.map (fun s => "tv_" ++ s.Nm))).2 = false := by
      cases hc : (ConfigChildren tv.Kids (sk.Kids.map (fun s => "tv_" ++ s.Nm))).2 with
      | false => rfl
      | true => exact absurd h (hm.1 hc)
    rw [hf, this]; rfl
  · intro h
    rw [hf, hm.2 h]; rfl

/-- A view that mirrors the source tree is resynchronised without any
`TreeViewChanged`. -/
theorem resyncChanges_mirrors (OD : Int) (src : Node) (view : TreeView)
    (hm : Mirrors view src = true) : resyncChanges OD src view = 0 := by
  have hroot := (Mirrors_root view src hm).2.1
  simp only [resyncChanges, ReSync, SyncToSrc, hroot, find?_self]
  exact (SyncToSrcOn_stable OD false src false view view.ViewIndex 0 hm).1

theorem AddSyncNodes_notifies (w w1 : World) (tv : List Nat) (rel myidx : Nat) (typ : NodeType)
    (n : Nat) (h : AddSyncNodes w tv rel myidx typ n = .ok w1) :
    w1.resyncs = w.resyncs + 1 ∧
    w1.changed = w.changed + resyncChanges w.OpenDepth w1.src w.view := by
  unfold AddSyncNodes at h
  split at h
  · cases h
  · simp only at h
    split at h
    · cases h
    · split at h
      · cases h
      · rename_i w2 hre
        have hc := SendChangeEventReSync_exact _ _ _ hre
        split at h
        · simp only [Except.ok.injEq] at h
          subst h; exact hc
        · split at h
          · simp only [Except.ok.injEq] at h
            subst h; exact hc
          · split at h
            · simp only [Except.ok.injEq] at h
              subst h; exact hc
            · simp only [Except.ok.injEq] at h
              subst h; exact hc

theorem DeleteNode_notifies (w w1 : World) (pp : List Nat) (k : Nat) (v : TreeView)
    (hv : w.view.nodeAt? (pp ++ [k]) = some v) (h : DeleteNode w (pp ++ [k]) = .ok w1) :
    (v.SyncNode = none → w1.changed = w.changed + 1 ∧ w1.resyncs = w.resyncs) ∧
    (v.SyncNode ≠ none → w1.resyncs = w.resyncs + 1 ∧
      w1.changed = w.changed +
        resyncChanges w.OpenDepth w1.src (selectionMoved w (pp ++ [k])).view) := by
  rw [DeleteNode_eq w pp k v hv] at h
  have hc := selectionMoved_counts w (pp ++ [k])
  have hod : (selectionMoved w (pp ++ [k])).OpenDepth = w.OpenDepth := by
    unfold selectionMoved MoveDown MoveUp
    split <;> (try split) <;> (try split) <;> rfl
  cases hs : v.SyncNode with
  | none =>
    rw [hs] at h
    simp only [Except.ok.injEq] at h
    subst h
    exact ⟨fun _ => ⟨by show _ + 1 = _; rw [hc.1], hc.2⟩, fun e => absurd rfl e⟩
  | some sn =>
    rw [hs] at h
    have hre := SendChangeEventReSync_exact _ _ _ h
    refine ⟨fun e => (by cases e), fun _ => ⟨?_, ?_⟩⟩
    · rw [hre.1]; exact congrArg (fun x => x + 1) hc.2
    · rw [hre.2]
      show (selectionMoved w (pp ++ [k])).changed +
        resyncChanges (selectionMoved w (pp ++ [k])).OpenDepth _ _ = _
      rw [hc.1, hod]

theorem DuplicateSync_notifies (w w1 : World) (tv : List Nat)
    (h : DuplicateSync w tv = .ok w1) :
    w1 = w ∨ (w1.resyncs = w.resyncs + 1 ∧
      w1.changed = w.changed + resyncChanges w.OpenDepth w1.src w.view) := by
  unfold DuplicateSync at h
  split at h
  · cases h
  · split at h
    · split at h
      · simp only [Except.ok.injEq] at h
        exact Or.inl h.symm
      · split at h
        · cases h
        · split at h
          · simp only at h
            split at h
            · cases h
            · split at h
              · cases h
              · rename_i w2 hre
                have hc := SendChangeEventReSync_exact _ _ _ hre
                split at h
                · simp only [Except.ok.injEq] at h
                  subst h; exact Or.inr hc
                · split at h
                  · simp only [Except.ok.injEq] at h
                    subst h; exact Or.inr hc
                  · simp only [Except.ok.injEq] at h
                    subst h; exact Or.inr hc
          · simp only [Except.ok.injEq] at h
            exact Or.inl h.symm
    · cases h

theorem CutSync_notifies (w w1 : World) (tv : List Nat) (h : CutSync w tv = .ok w1) :
    w1.resyncs = w.resyncs + 1 ∧
    w1.changed = w.changed + resyncChanges w.OpenDepth w1.src (UnselectAll w).view := by
  unfold CutSync at h
  simp only at h
  split at h
  · cases h
  · have hre := SendChangeEventReSync_exact _ _ _ h
    exact hre

theorem PasteAtSync_notifies (tag : String) (w w1 : World) (tv : List Nat) (md : List MimeData)
    (mod : DropMods) (rel : Nat) (h : PasteAtSync tag w tv md mod rel = .ok w1) :
    (w1.resyncs = w.resyncs ∧ w1.changed = w.changed ∧ w1.src = w.src ∧ w1.view = w.view) ∨
    (w1.resyncs = w.resyncs + 1 ∧
      w1.changed = w.changed + resyncChanges w.OpenDepth w1.src w.view) := by
  unfold PasteAtSync at h
  split at h
  · cases h
  · split at h
    · cases h
    · simp only at h
      split at h
      · simp only [Except.ok.injEq] at h
        subst h
        exact Or.inl ⟨rfl, rfl, rfl, rfl⟩
      · split at h
        · cases h
        · split at h
          · cases h
          · split at h
            · cases h
            · rename_i w2 hre
              have hc := SendChangeEventReSync_exact _ _ _ hre
              split at h
              · simp only [Except.ok.injEq] at h
                subst h; exact Or.inr hc
              · split at h
                · simp only [Except.ok.injEq] at h
                  subst h; exact Or.inr hc
                · split at h
                  · simp only [Except.ok.injEq] at h
                    subst h; exact Or.inr hc
                  · simp only [Except.ok.injEq] at h
                    subst h; exact Or.inr hc

theorem PasteChildrenSync_notifies (w w1 : World) (tv : List Nat) (md : List MimeData)
    (mod : DropMods) (h : PasteChildrenSync w tv md mod = .ok w1) :
    w1.resyncs = w.resyncs + 1 ∧
    w1.changed = w.changed + resyncChanges w.OpenDepth w1.src w.view := by
  unfold PasteChildrenSync at h
  split at h
  · cases h
  · simp only at h
    split at h
    · cases h
    · have hre := SendChangeEventReSync_exact _ _ _ h
      exact hre

theorem DropDeleteSourceSync_notifies (tag : String) (w w1 : World) (tv : List Nat)
    (md : List MimeData) (h : DropDeleteSourceSync tag w tv md = .ok w1) :
    w1.resyncs = w.resyncs + 1 ∧
    w1.changed = w.changed + resyncChanges w.OpenDepth w1.src w.view := by
  unfold DropDeleteSourceSync at h
  split at h
  · cases h
  · have hre := SendChangeEventReSync_exact _ _ _ h
    exact hre

/-- The view after the selection step of `DeleteNode` on the child `k` of the
view node `par`: the parent view has children with the same names, and the
view still mirrors the source tree when it did before. -/
theorem selectionMoved_shape (w : World) (pp : List Nat) (k : Nat) (v par : TreeView)
    (hv : w.view.nodeAt? (pp ++ [k]) = some v) (hp : w.view.nodeAt? pp = some par) :
    (∃ par2, (selectionMoved w (pp ++ [k])).view.nodeAt? pp = some par2 ∧
      par2.Kids.map (fun x => x.Nm) = par.Kids.map (fun x => x.Nm)) ∧
    (∀ s, Mirrors w.view s = true → Mirrors (selectionMoved w (pp ++ [k])).view s = true) := by
  have hkv : par.Kids[k]? = some v := by
    rw [← TreeView.nodeAt?_snoc _ _ _ _ hp]; exact hv
  have heq := selectionMoved_eq w pp k par hp
  cases hn : par.Kids[k + 1]? with
  | some nxt =>
    rw [heq.1 nxt hn]
    have h := SelectAction_Close_spec w pp k (k + 1) par v hp hkv (by omega)
    exact ⟨h.1, h.2.2⟩
  | none =>
    rcases Nat.eq_zero_or_pos k with hk | hk
    · rw [heq.2.2 hn hk]
      refine ⟨⟨_, TreeView.nodeAt?_updateAt_parent (fun x => { x with Closed := true }) pp k
        w.view par hp, map_Nm_modify (fun x => { x with Closed := true }) (fun _ => rfl) _ _⟩,
        fun s hm => ?_⟩
      exact Mirrors_updateAt (fun x => { x with Closed := true }) (fun _ => ⟨rfl, rfl, rfl⟩)
        (pp ++ [k]) w.view s hm
    · have hlt : k - 1 < par.Kids.length := by
        have : k < par.Kids.length := by
          rcases Nat.lt_or_ge k par.Kids.length with h | h
          · exact h
          · rw [List.getElem?_eq_none h] at hkv; cases hkv
        omega
      rw [heq.2.1 hn _ hk (List.getElem?_eq_getElem hlt)]
      have h := SelectAction_Close_spec w pp k (k - 1) par v hp hkv (by omega)
      exact ⟨h.1, h.2.2⟩

/-- `DeleteNode` on a node with a sync node, in a synchronised view whose source
tree has distinct identities, the children of the view parent having distinct
names: one resynchronisation is issued, and its pass issues exactly one
`TreeViewChanged`, at the parent view, which loses a child. -/
theorem DeleteNode_synced_notifies (w : World) (pp : List Nat) (k : Nat) (v par : TreeView)
    (hv : w.view.nodeAt? (pp ++ [k]) = some v) (hp : w.view.nodeAt? pp = some par)
    (hm : Mirrors w.view w.src = true) (hn : w.src.ids.Nodup)
    (hnd : (par.Kids.map (fun x => x.Nm)).Nodup) :
    ∃ w1, DeleteNode w (pp ++ [k]) = .ok w1 ∧ w1.resyncs = w.resyncs + 1 ∧
      w1.changed = w.changed + 1 := by
  obtain ⟨n, pn, tvp, hsn, hspn, hkn, htvp, hkv, hmn, hmp, hvs, hps, hfn, hfp, hpar, hroot⟩ :=
    synced_node w pp k v hm hn hv
  have hfr := selectionMoved_frame w (pp ++ [k])
  obtain ⟨w1, hre, hsrc, _⟩ := SendChangeEventReSync_mirrors
    { selectionMoved w (pp ++ [k]) with
      src := (selectionMoved w (pp ++ [k])).src.deleteId n.id } (pp ++ [k])
    (by simp only [hfr.2.2, hroot, deleteId_id, hfr.1])
  have hdn : DeleteNode w (pp ++ [k]) = .ok w1 := by
    rw [DeleteNode_eq w pp k v hv, hvs]; exact hre
  have hsrc1 : w1.src =
      Node.updateAt (fun x => { x with Kids := x.Kids.eraseIdx k }) pp w.src := by
    rw [hsrc]
    simp only [hfr.1]
    exact deleteId_of_nodeAt? k pp w.src n hn hsn
  have hk : k < par.Kids.length := by
    have hkv2 : par.Kids[k]? = some v := by
      rw [← TreeView.nodeAt?_snoc _ _ _ _ hp]; exact hv
    rcases Nat.lt_or_ge k par.Kids.length with h | h
    · exact h
    · rw [List.getElem?_eq_none h] at hkv2; cases hkv2
  obtain ⟨⟨par2, hpar2, hnames⟩, hmir⟩ := selectionMoved_shape w pp k v par hv hp
  have hlen : par2.Kids.length = par.Kids.length := by
    have := congrArg List.length hnames
    simpa using this
  have he := SyncToSrcOn_erase w.OpenDepth false k pp w.src
    (selectionMoved w (pp ++ [k])).view par2 false
    (selectionMoved w (pp ++ [k])).view.ViewIndex 0
    (hmir w.src hm) hpar2 (by rw [hlen]; exact hk) (by rw [hnames]; exact hnd)
  have hcount := (DeleteNode_notifies w w1 pp k v hv hdn).2 (by rw [hvs]; simp)
  refine ⟨w1, hdn, hcount.1, ?_⟩
  rw [hcount.2, hsrc1]
  have hroot2 : (selectionMoved w (pp ++ [k])).view.SyncNode =
      some (Node.updateAt (fun x => { x with Kids := x.Kids.eraseIdx k }) pp w.src).id := by
    rw [← deleteId_of_nodeAt? k pp w.src n hn hsn, deleteId_id, ← hroot]
    exact hfr.2.2
  simp only [resyncChanges, ReSync, SyncToSrc, hroot2, find?_self]
  rw [he.2]

/-! ## Claims on the notifications -/

/-- C24 (counterexample): `DeleteNode` on `tv_B` in the view of `{A: [B, C]}`
issues the resynchronisation notification, and the resynchronisation, which
removes the view child `tv_B` of `tv_A`, issues `TreeViewChanged` on `tv_A`:
both counters go from 0 to 1. -/
theorem C24_resync_also_issues_TreeViewChanged :
    DeleteNode worldABC [0] = .ok worldAfterDelete ∧
    worldABC.resyncs = 0 ∧ worldABC.changed = 0 ∧
    worldAfterDelete.resyncs = 1 ∧ worldAfterDelete.changed = 1 :=
  ⟨rfl, rfl, rfl, by decide, by decide⟩

/-- C24 (amended): every structural edit step that completes makes exactly one
notification call of its own.  `AddTreeNodes`, and `DeleteNode` and
`Duplicate` on a node without a sync node, issue one `TreeViewChanged` and no
resynchronisation.  `AddSyncNodes`, `DeleteNode` on a node with a sync node,
`CutSync`, `PasteChildrenSync` and `DropDeleteSourceSync` issue one
resynchronisation and no `TreeViewChanged` of their own: the `TreeViewChanged`
notifications counted afterwards are those counted before and those of the
pass of the resynchronisation (`resyncChanges`, for the source tree that the
edit leaves and the view that it resynchronises).  `DuplicateSync` and
`PasteAtSync` do the same or, on their early returns, issue nothing.  The pass
issues `TreeViewChanged` on a view node it visits exactly when the names of
the children of the node are not a rearrangement of the names required by the
source children, that is, when it adds or removes a child there; it issues
none on a view that mirrors the source tree.  So an edit of the source tree
ends with both kinds of notification: `DeleteNode` on a node of a synchronised
view (distinct identities, distinct names of the children of the view parent)
ends with one resynchronisation and one `TreeViewChanged`. -/
theorem C24_one_notification_call (tag : String) (w w1 : World) :
    (∀ tv rel myidx typ n, AddTreeNodes w tv rel myidx typ n = .ok w1 →
      w1.changed = w.changed + 1 ∧ w1.resyncs = w.resyncs) ∧
    (∀ tv rel myidx typ n, AddSyncNodes w tv rel myidx typ n = .ok w1 →
      w1.resyncs = w.resyncs + 1 ∧
      w1.changed = w.changed + resyncChanges w.OpenDepth w1.src w.view) ∧
    (∀ pp k v, w.view.nodeAt? (pp ++ [k]) = some v → DeleteNode w (pp ++ [k]) = .ok w1 →
      (v.SyncNode = none → w1.changed = w.changed + 1 ∧ w1.resyncs = w.resyncs) ∧
      (v.SyncNode ≠ none → w1.resyncs = w.resyncs + 1 ∧
        w1.changed = w.changed +
          resyncChanges w.OpenDepth w1.src (selectionMoved w (pp ++ [k])).view)) ∧
    (∀ pp k v par, w.view.nodeAt? (pp ++ [k]) = some v → v.SyncNode = none →
      w.view.nodeAt? pp = some par → Duplicate w (pp ++ [k]) = .ok w1 →
      w1.changed = w.changed + 1 ∧ w1.resyncs = w.resyncs) ∧
    (∀ tv, DuplicateSync w tv = .ok w1 →
      w1 = w ∨ (w1.resyncs = w.resyncs + 1 ∧
        w1.changed = w.changed + resyncChanges w.OpenDepth w1.src w.view)) ∧
    (∀ tv, CutSync w tv = .ok w1 → w1.resyncs = w.resyncs + 1 ∧
      w1.changed = w.changed + resyncChanges w.OpenDepth w1.src (UnselectAll w).view) ∧
    (∀ tv md mod rel, PasteAtSync tag w tv md mod rel = .ok w1 →
      (w1.resyncs = w.resyncs ∧ w1.changed = w.changed ∧ w1.src = w.src ∧ w1.view = w.view) ∨
      (w1.resyncs = w.resyncs + 1 ∧
        w1.changed = w.changed + resyncChanges w.OpenDepth w1.src w.view)) ∧
    (∀ tv md mod, PasteChildrenSync w tv md mod = .ok w1 →
      w1.resyncs = w.resyncs + 1 ∧
      w1.changed = w.changed + resyncChanges w.OpenDepth w1.src w.view) ∧
    (∀ tv md, DropDeleteSourceSync tag w tv md = .ok w1 →
      w1.resyncs = w.resyncs + 1 ∧
      w1.changed = w.changed + resyncChanges w.OpenDepth w1.src w.view) ∧
    (∀ (OD : Int) (init hp : Bool) (sk : Node) (tv : TreeView) (i d : Int),
      ((tv.Kids.map (fun x => x.Nm)).Perm (sk.Kids.map (fun s => "tv_" ++ s.Nm)) →
        (SyncToSrcOn OD init hp sk tv i d).2.2 =
          (syncKids OD init sk.Kids
            (ConfigChildren tv.Kids (sk.Kids.map (fun s => "tv_" ++ s.Nm))).1
              (i + 1) (d + 1)).2.2) ∧
      (¬ (tv.Kids.map (fun x => x.Nm)).Perm (sk.Kids.map (fun s => "tv_" ++ s.Nm)) →
        (SyncToSrcOn OD init hp sk tv i d).2.2 =
          (syncKids OD init sk.Kids
            (ConfigChildren tv.Kids (sk.Kids.map (fun s => "tv_" ++ s.Nm))).1
              (i + 1) (d + 1)).2.2 + 1)) ∧
    (∀ (OD : Int) (src : Node) (view : TreeView), Mirrors view src = true →
      resyncChanges OD src view = 0) ∧
    (∀ pp k v par, w.view.nodeAt? (pp ++ [k]) = some v → w.view.nodeAt? pp = some par →
      Mirrors w.view w.src = true → w.src.ids.Nodup →
      (par.Kids.map (fun x => x.Nm)).Nodup →
      ∃ w2, DeleteNode w (pp ++ [k]) = .ok w2 ∧ w2.resyncs = w.resyncs + 1 ∧
        w2.changed = w.changed + 1) :=
  ⟨fun tv rel myidx typ n h => AddTreeNodes_counts w w1 tv rel myidx typ n h,
    fun tv rel myidx typ n h => AddSyncNodes_notifies w w1 tv rel myidx typ n h,
    fun pp k v hv h => DeleteNode_notifies w w1 pp k v hv h,
    fun pp k v par hv hs hp h => Duplicate_unsynced_counts w w1 pp k v par hv hs hp h,
    fun tv h => DuplicateSync_notifies w w1 tv h,
    fun tv h => CutSync_notifies w w1 tv h,
    fun tv md mod rel h => PasteAtSync_notifies tag w w1 tv md mod rel h,
    fun tv md mod h => PasteChildrenSync_notifies w w1 tv md mod h,
    fun tv md h => DropDeleteSourceSync_notifies tag w w1 tv md h,
    fun OD init hp sk tv i d => SyncToSrcOn_changes OD init hp sk tv i d,
    fun OD src view hm => resyncChanges_mirrors OD src view hm,
    fun pp k v par hv hp hm hn hnd => DeleteNode_synced_notifies w pp k v par hv hp hm hn hnd⟩

/-- C24 (witness): `DeleteNode` on `tv_B` in the view of `{A: [B, C]}`: one
resynchronisation is issued, and its pass, which removes the view child `tv_B`
of `tv_A`, issues the one `TreeViewChanged` that is counted afterwards. -/
theorem C24_one_notification_call_witness :
    worldABC.view.nodeAt? ([] ++ [0]) = some tvB ∧
    DeleteNode worldABC ([] ++ [0]) = .ok worldAfterDelete ∧ tvB.SyncNode ≠ none ∧
    worldAfterDelete.resyncs = worldABC.resyncs + 1 ∧
    worldAfterDelete.changed = worldABC.changed +
      resyncChanges worldABC.OpenDepth worldAfterDelete.src
        (selectionMoved worldABC ([] ++ [0])).view ∧
    resyncChanges worldABC.OpenDepth worldAfterDelete.src
      (selectionMoved worldABC ([] ++ [0])).view = 1 ∧
    (∃ w2, DeleteNode worldABC ([] ++ [0]) = .ok w2 ∧ w2.resyncs = worldABC.resyncs + 1 ∧
      w2.changed = worldABC.changed + 1) :=
  ⟨rfl, rfl, by decide,
    (((C24_one_notification_call "_MOVED" worldABC worldAfterDelete).2.2.1 [] 0 tvB rfl rfl).2
      (by decide)).1,
    (((C24_one_notification_call "_MOVED" worldABC worldAfterDelete).2.2.1 [] 0 tvB rfl rfl).2
      (by decide)).2,
    by decide,
    (C24_one_notification_call "_MOVED" worldABC worldAfterDelete).2.2.2.2.2.2.2.2.2.2.2
      [] 0 tvB viewABC rfl rfl (by decide) (by decide) (by decide)⟩

end TreeSync
